import Mathlib

/-!
A verification development for the progressx hierarchical step
orchestration engine.  The TypeScript sources are shallowly embedded as
executable Lean definitions:

* `MultiProgress` / `TaskHandle` operations (cli/multi-progress.ts) become
  pure state transformers on a `MultiProgress` structure; terminal writes
  are accumulated in an `output` field; task ids (opaque unique strings in
  the source, produced from a timestamp and a random suffix) are modelled
  as naturals handed out by a counter, which preserves the only property
  the code relies on, their uniqueness.
* The ambient step context (progress/als-context.ts) becomes an explicit
  context value threaded by the engine; `AsyncLocalStorage.getStore()`
  becomes an `Option` argument.
* Work items become a tagged union: a synchronous producer, a deferred
  producer (both carrying the list of ambient-context calls the work body
  performs and the wall time it consumes), and an incremental producer
  carrying the finite list of events its generator yields before the final
  pull either returns or throws.  `Date.now()` becomes a logical clock
  advanced by the declared durations; `await` points consume no logical
  time.
* Exceptions become `Except String`.
-/

set_option maxHeartbeats 1000000

/-- Task display kind, from multi-progress.ts (`"spinner" | "bar" | "group"`). -/
inductive TaskType where
  | spinner
  | bar
  | group
deriving DecidableEq, Repr

/-- Task status state machine, from types.ts / multi-progress.ts. -/
inductive TaskStatus where
  | pending
  | running
  | completed
  | failed
  | skipped
deriving DecidableEq, Repr

/-- Internal task state (interface `TaskState` in multi-progress.ts). -/
structure TaskState where
  id : Nat
  title : String
  type : TaskType
  status : TaskStatus
  total : Option Nat := none
  current : Nat := 0
  indent : Nat := 0
  completionTime : Option Nat := none
deriving DecidableEq, Repr

/-- The `MultiProgress` container state (class fields of multi-progress.ts).
`tasks` models the id-keyed `Map` (insertion order, unique ids), `output`
the sequence of strings written to the stream, `tty` the stream's
interactivity, `timer` whether the animation interval is installed. -/
structure MultiProgress where
  tasks : List TaskState := []
  taskOrder : List Nat := []
  isActive : Bool := false
  timer : Bool := false
  frameIndex : Nat := 0
  renderedLines : Nat := 0
  nextId : Nat := 0
  tty : Bool := true
  output : List String := []
deriving DecidableEq, Repr

/-- ANSI constants from cli/ansi.ts. -/
def CURSOR_HIDE : String := "\x1b[?25l"

def CURSOR_SHOW : String := "\x1b[?25h"

def CLEAR_LINE : String := "\x1b[2K"

def cursorUp (n : Nat) : String := "\x1b[" ++ toString n ++ "A"

/-- Spinner frames for the default "dots" style (cli/spinner.ts). -/
def dotsFrames : List String :=
  ["⠋", "⠙", "⠹", "⠸", "⠼", "⠴", "⠦", "⠧", "⠇", "⠏"]

/-- Status glyphs (chalk colouring elided as pure presentation). -/
def statusIcon : TaskStatus → String
  | .pending => "○"
  | .running => ""
  | .completed => "✔"
  | .failed => "✖"
  | .skipped => "⊘"

/-- `Math.round (a / b)` on non-negative reals, expressed exactly on Nat. -/
def roundDiv (a b : Nat) : Nat := (2 * a + b) / (2 * b)

/-- One rendered line for a task (body of `MultiProgress.render`). -/
def renderTaskLine (frameIndex : Nat) (t : TaskState) : String :=
  let icon :=
    if t.status = .running then
      if t.type = .group then statusIcon .pending
      else dotsFrames.getD (frameIndex % dotsFrames.length) ""
    else statusIcon t.status
  let ind := String.join (List.replicate t.indent "  ")
  let line := ind ++ icon ++ " " ++ t.title
  let line :=
    match t.total with
    | some tot =>
        if t.type = .bar ∧ 0 < tot then
          let filled := roundDiv (20 * t.current) tot
          let empty := 20 - filled
          line ++ " " ++ String.join (List.replicate filled "█")
            ++ String.join (List.replicate empty "░")
            ++ " " ++ toString (roundDiv (100 * t.current) tot) ++ "%"
        else line
    | none => line
  match t.completionTime with
  | some ct => if t.status = .completed then line ++ " " ++ toString ct ++ "ms" else line
  | none => line

/-- Append one terminal write. -/
def MultiProgress.write (m : MultiProgress) (s : String) : MultiProgress :=
  { m with output := m.output ++ [s] }

/-- Look a task up by id (`this.tasks.get(id)`). -/
def MultiProgress.findTask (m : MultiProgress) (id : Nat) : Option TaskState :=
  m.tasks.find? (fun (t : TaskState) => t.id == id)

/-- `private render()`: no-op off-TTY; otherwise cursor-up over the previous
frame, then one cleared line per task in list order.  The sequence of
writes is recorded in `output`. -/
def MultiProgress.render (m : MultiProgress) : MultiProgress :=
  if m.tty then
    let pre := if 0 < m.renderedLines then [cursorUp m.renderedLines] else []
    let lines := m.taskOrder.filterMap
      (fun id => (m.findTask id).map (renderTaskLine m.frameIndex))
    { m with
      output := m.output ++ pre ++ lines.map (fun l => CLEAR_LINE ++ l ++ "\n"),
      renderedLines := lines.length }
  else m

/-- Options accepted by `MultiProgress.add` (spinnerStyle elided: every call
in the embedded engine uses the default "dots" style). -/
structure AddOptions where
  type : TaskType := .spinner
  total : Option Nat := none
  indent : Nat := 0
  insertAfter : Option Nat := none

/-- `taskOrder.indexOf(after)` followed by `splice(idx + 1, 0, id)`:
insert `id` right after the first occurrence of `after`, appending at the
end when `after` is absent. -/
def spliceAfter (order : List Nat) (after id : Nat) : List Nat :=
  match order with
  | [] => [id]
  | x :: xs => if x = after then x :: id :: xs else x :: spliceAfter xs after id

/-- `MultiProgress.add`: register a new pending record, place its id in
`taskOrder` (after `insertAfter` when given, else at the end), re-render
when active, and return the new handle id. -/
def MultiProgress.add (m : MultiProgress) (title : String) (opts : AddOptions) :
    MultiProgress × Nat :=
  let id := m.nextId
  let task : TaskState :=
    { id := id, title := title, type := opts.type, status := .pending,
      total := opts.total, current := 0, indent := opts.indent }
  let order :=
    match opts.insertAfter with
    | some a => spliceAfter m.taskOrder a id
    | none => m.taskOrder ++ [id]
  let m1 := { m with tasks := m.tasks ++ [task], taskOrder := order, nextId := id + 1 }
  let m2 := if m1.isActive then m1.render else m1
  (m2, id)

/-- `_updateTask`: merge an update into the task with the given id (silent
no-op for unknown ids), re-rendering while active. -/
def MultiProgress.updateTask (m : MultiProgress) (id : Nat) (f : TaskState → TaskState) :
    MultiProgress :=
  match m.findTask id with
  | none => m
  | some _ =>
      let m1 := { m with
        tasks := m.tasks.map (fun (t : TaskState) => if t.id == id then f t else t) }
      if m1.isActive then m1.render else m1

/-- `TaskHandle.start()`. -/
def taskStart (m : MultiProgress) (id : Nat) : MultiProgress :=
  m.updateTask id (fun t => { t with status := .running })

/-- `TaskHandle.update(current)`. -/
def taskUpdate (m : MultiProgress) (id : Nat) (current : Nat) : MultiProgress :=
  m.updateTask id (fun t => { t with current := current })

/-- `TaskHandle.complete()` with no argument: status only. -/
def taskComplete (m : MultiProgress) (id : Nat) : MultiProgress :=
  m.updateTask id (fun t => { t with status := .completed })

/-- `TaskHandle.complete(time)` with a numeric argument: status plus
completion time, title preserved. -/
def taskCompleteTime (m : MultiProgress) (id : Nat) (time : Nat) : MultiProgress :=
  m.updateTask id (fun t => { t with status := .completed, completionTime := some time })

/-- `TaskHandle.complete(newTitle)` with a string argument (legacy). -/
def taskCompleteTitle (m : MultiProgress) (id : Nat) (title : String) : MultiProgress :=
  m.updateTask id (fun t => { t with status := .completed, title := title })

/-- `TaskHandle.fail()` without a replacement title. -/
def taskFail (m : MultiProgress) (id : Nat) : MultiProgress :=
  m.updateTask id (fun t => { t with status := .failed })

/-- `TaskHandle.skip()` without a replacement title. -/
def taskSkip (m : MultiProgress) (id : Nat) : MultiProgress :=
  m.updateTask id (fun t => { t with status := .skipped })

/-- `TaskHandle.setTitle(title)`. -/
def taskSetTitle (m : MultiProgress) (id : Nat) (title : String) : MultiProgress :=
  m.updateTask id (fun t => { t with title := title })

/-- `TaskHandle.setType(type)`. -/
def taskSetType (m : MultiProgress) (id : Nat) (ty : TaskType) : MultiProgress :=
  m.updateTask id (fun t => { t with type := ty })

/-- `TaskHandle.status` getter (pending for unknown ids). -/
def taskStatusOf (m : MultiProgress) (id : Nat) : TaskStatus :=
  ((m.findTask id).map (fun t => t.status)).getD .pending

/-- Task type read-back, for stating properties about `setType`. -/
def taskTypeOf (m : MultiProgress) (id : Nat) : Option TaskType :=
  (m.findTask id).map (fun t => t.type)

/-- `MultiProgress.start()`: idempotent guard, hide cursor on a TTY, first
draw, install the animation timer. -/
def MultiProgress.start (m : MultiProgress) : MultiProgress :=
  if m.isActive then m
  else
    let m1 := { m with isActive := true }
    let m2 := if m1.tty then m1.write CURSOR_HIDE else m1
    let m3 := m2.render
    { m3 with timer := true }

/-- The clear branch of `stop(clear)`: cursor-up over the drawn lines, one
line-clearing write per line, and a final cursor-up. -/
def stopClearLines (m : MultiProgress) : MultiProgress :=
  if 0 < m.renderedLines then
    ((List.replicate m.renderedLines (CLEAR_LINE ++ "\n")).foldl MultiProgress.write
      (m.write (cursorUp m.renderedLines))).write (cursorUp m.renderedLines)
  else m

/-- `MultiProgress.stop(clear)`: idempotent guard, remove the timer, then
either erase every previously drawn line (clear on a TTY) or perform a
final draw and advance past it; finally show the cursor on a TTY. -/
def MultiProgress.stop (m : MultiProgress) (clear : Bool) : MultiProgress :=
  if m.isActive then
    let m1 := { m with isActive := false, timer := false }
    let m2 := if clear ∧ m1.tty then stopClearLines m1 else (m1.render).write "\n"
    if m2.tty then m2.write CURSOR_SHOW else m2
  else m

/-- `write` leaves everything but `output` unchanged. -/
theorem write_isActive (m : MultiProgress) (s : String) :
    (m.write s).isActive = m.isActive := rfl

theorem render_isActive (m : MultiProgress) :
    (m.render).isActive = m.isActive := by
  unfold MultiProgress.render
  split <;> rfl

theorem render_taskOrder (m : MultiProgress) :
    (m.render).taskOrder = m.taskOrder := by
  unfold MultiProgress.render
  split <;> rfl

theorem render_tasks (m : MultiProgress) :
    (m.render).tasks = m.tasks := by
  unfold MultiProgress.render
  split <;> rfl

theorem render_nextId (m : MultiProgress) :
    (m.render).nextId = m.nextId := by
  unfold MultiProgress.render
  split <;> rfl

theorem render_tty (m : MultiProgress) :
    (m.render).tty = m.tty := by
  unfold MultiProgress.render
  split <;> rfl

/-- Splicing after the first occurrence of `a` keeps both surrounding
segments intact. -/
theorem spliceAfter_split (l1 l2 : List Nat) (a id : Nat) (h : a ∉ l1) :
    spliceAfter (l1 ++ a :: l2) a id = l1 ++ a :: id :: l2 := by
  induction l1 with
  | nil => simp [spliceAfter]
  | cons x xs ih =>
      have hx : x ≠ a := by
        intro hxa
        exact h (hxa ▸ List.mem_cons_self x xs)
      have hxs : a ∉ xs := fun hmem => h (List.mem_cons_of_mem x hmem)
      simp [spliceAfter, hx, ih hxs]

/-- Splicing after an id that is not in the list appends at the end. -/
theorem spliceAfter_not_mem (order : List Nat) (a id : Nat) (h : a ∉ order) :
    spliceAfter order a id = order ++ [id] := by
  induction order with
  | nil => simp [spliceAfter]
  | cons x xs ih =>
      have hx : x ≠ a := by
        intro hxa
        exact h (hxa ▸ List.mem_cons_self x xs)
      have hxs : a ∉ xs := fun hmem => h (List.mem_cons_of_mem x hmem)
      simp [spliceAfter, hx, ih hxs]

/-- C8: `add` with `insertAfter` naming the id of a record in the ordered
list splices the new record (id `m.nextId`) immediately after it, keeping
both surrounding segments (hence all relative positions) intact; with an
absent or unknown `insertAfter` the new record is appended at the end. -/
theorem C8_add_insertAfter (m : MultiProgress) (title : String) (opts : AddOptions) :
    (∀ a l1 l2, opts.insertAfter = some a → m.taskOrder = l1 ++ a :: l2 → a ∉ l1 →
      (m.add title opts).1.taskOrder = l1 ++ a :: m.nextId :: l2) ∧
    ((opts.insertAfter = none ∨ ∃ a, opts.insertAfter = some a ∧ a ∉ m.taskOrder) →
      (m.add title opts).1.taskOrder = m.taskOrder ++ [m.nextId]) := by
  constructor
  · intro a l1 l2 hopt horder hnotmem
    unfold MultiProgress.add
    simp only [hopt]
    split
    · rw [render_taskOrder]
      simp [horder, spliceAfter_split l1 l2 a m.nextId hnotmem]
    · simp [horder, spliceAfter_split l1 l2 a m.nextId hnotmem]
  · intro hcase
    unfold MultiProgress.add
    rcases hcase with hnone | ⟨a, hsome, hnotmem⟩
    · simp only [hnone]
      split
      · rw [render_taskOrder]
      · rfl
    · simp only [hsome]
      split
      · rw [render_taskOrder]
        simp [spliceAfter_not_mem m.taskOrder a m.nextId hnotmem]
      · simp [spliceAfter_not_mem m.taskOrder a m.nextId hnotmem]

/-- C8 witness: a concrete registry with order `[5, 6]`; inserting after 5
gives `[5, 7, 6]`, inserting after the unknown id 9 gives `[5, 6, 7]`. -/
theorem C8_add_insertAfter_witness :
    ((MultiProgress.add { taskOrder := [5, 6], nextId := 7 } "w"
        { insertAfter := some 5 }).1.taskOrder = [5, 7, 6]) ∧
    ((MultiProgress.add { taskOrder := [5, 6], nextId := 7 } "w"
        { insertAfter := some 9 }).1.taskOrder = [5, 6, 7]) :=
  ⟨(C8_add_insertAfter { taskOrder := [5, 6], nextId := 7 } "w"
      { insertAfter := some 5 }).1 5 [] [6] rfl rfl (by simp),
   (C8_add_insertAfter { taskOrder := [5, 6], nextId := 7 } "w"
      { insertAfter := some 9 }).2 (Or.inr ⟨9, rfl, by simp⟩)⟩

theorem foldl_write_isActive (ls : List String) (m : MultiProgress) :
    (ls.foldl MultiProgress.write m).isActive = m.isActive := by
  induction ls generalizing m with
  | nil => rfl
  | cons x xs ih => simpa [MultiProgress.write] using ih (m.write x)

/-- A `start()` call on an already-active registry is a no-op. -/
theorem start_of_active (m : MultiProgress) (h : m.isActive = true) : m.start = m := by
  unfold MultiProgress.start
  rw [if_pos h]

/-- After `start()` the registry is active. -/
theorem start_isActive (m : MultiProgress) : (m.start).isActive = true := by
  by_cases h : m.isActive
  · rw [start_of_active m h]
    exact h
  · simp [MultiProgress.start, h, apply_ite MultiProgress.isActive,
      write_isActive, render_isActive]

/-- A `stop()` call on an inactive registry is a no-op. -/
theorem stop_of_inactive (m : MultiProgress) (clear : Bool) (h : ¬ m.isActive = true) :
    m.stop clear = m := by
  unfold MultiProgress.stop
  rw [if_neg h]

/-- The clear branch of `stop` only writes output. -/
theorem stopClearLines_isActive (m : MultiProgress) :
    (stopClearLines m).isActive = m.isActive := by
  unfold stopClearLines
  split
  · rw [write_isActive, foldl_write_isActive, write_isActive]
  · rfl

/-- After `stop()` the registry is inactive. -/
theorem stop_isActive (m : MultiProgress) (clear : Bool) :
    ¬ (m.stop clear).isActive = true := by
  by_cases h : m.isActive
  · simp [MultiProgress.stop, h, apply_ite MultiProgress.isActive,
      write_isActive, render_isActive, stopClearLines_isActive]
  · rw [stop_of_inactive m clear h]
    exact h

/-- C9: `start()` and `stop()` are idempotent — a second consecutive call
leaves the entire observable state (tasks, order, active flag, terminal
output, everything) exactly as the first call left it. -/
theorem C9_start_stop_idempotent (m : MultiProgress) (clear : Bool) :
    (m.start).start = m.start ∧ ((m.stop clear).stop clear) = m.stop clear :=
  ⟨start_of_active m.start (start_isActive m),
   stop_of_inactive (m.stop clear) clear (stop_isActive m clear)⟩

/-! ## Ambient step context (progress/als-context.ts)

`AsyncLocalStorage.getStore()` is modelled by an `Option CtxState`
argument; the internal mutable closure state of `createStepContext`
becomes an explicit `CtxState` value threaded by the engine; the
`MultiProgress` instance and the logical clock are bundled in `EngSt`. -/

/-- Engine-side state: the registry plus the logical `Date.now()` clock. -/
structure EngSt where
  m : MultiProgress
  now : Nat
deriving Repr

/-- Set a key in a string-keyed assoc list, replacing the first existing
binding in place or appending a new one — JS `Map.set` / object-property
assignment semantics. -/
def setA {A : Type} (l : List (String × A)) (k : String) (v : A) : List (String × A) :=
  match l with
  | [] => [(k, v)]
  | (k0, v0) :: rest => if k0 = k then (k0, v) :: rest else (k0, v0) :: setA rest k v

/-- Lookup in a string-keyed assoc list (JS `Map.get`). -/
def lookupA {A : Type} (l : List (String × A)) (k : String) : Option A :=
  (l.find? (fun kv => kv.1 == k)).map (fun kv => kv.2)

/-- The closure state of `createStepContext(label, handle, onSubStep)`:
the step label, the leaf's handle id, the indent its sub-steps receive
(captured by the `onSubStep` closure built in `executeStep`), the current
sub-step (label and handle) with its start time, and the pre-declared
sub-step handles. -/
structure CtxState where
  label : String
  handleId : Nat
  subIndent : Nat
  currentSub : Option (String × Nat) := none
  subStart : Nat := 0
  declared : List (String × Nat) := []
deriving Repr

/-- `_completeSubStep()`: when a sub-step is open, complete it with its
elapsed time and forget it. -/
def ctxCompleteSubStep (c : CtxState) (s : EngSt) : CtxState × EngSt :=
  match c.currentSub with
  | some (_, h) =>
      ({ c with currentSub := none },
       { s with m := taskCompleteTime s.m h (s.now - c.subStart) })
  | none => (c, s)

/-- `sub(label)` on a live context: complete the previous sub-step, then
let the engine's `onSubStep` callback create the record — `multi.add`
with `insertAfter` pointing at the parent leaf's own handle — and start
it. -/
def ctxSubLive (c : CtxState) (l : String) (s : EngSt) : CtxState × EngSt :=
  let c1 := (ctxCompleteSubStep c s).1
  let s1 := (ctxCompleteSubStep c s).2
  let a := s1.m.add l
    { type := .spinner, indent := c1.subIndent, insertAfter := some c1.handleId }
  ({ c1 with currentSub := some (l, a.2), subStart := s1.now },
   { s1 with m := taskStart a.1 a.2 })

/-- The title format used by progress reporting. -/
def progressTitle (lbl : String) (cur tot : Nat) : String :=
  lbl ++ " (" ++ toString cur ++ "/" ++ toString tot ++ ")"

/-- `progress(current, total)` on a live context: retitle the open
sub-step, or the step itself when no sub-step is open. -/
def ctxProgressLive (c : CtxState) (cur tot : Nat) (s : EngSt) : EngSt :=
  match c.currentSub with
  | some (lbl, h) =>
      { s with m := taskSetTitle s.m h (progressTitle lbl cur tot) }
  | none =>
      { s with m := taskSetTitle s.m c.handleId (progressTitle c.label cur tot) }

/-- `_addSubHandle(label, handle)`. -/
def ctxAddSubHandle (c : CtxState) (l : String) (h : Nat) : CtxState :=
  { c with declared := setA c.declared l h }

/-- `_getSubHandle(label)`. -/
def ctxGetSubHandle (c : CtxState) (l : String) : Option Nat :=
  lookupA c.declared l

/-- `_setCurrentSubHandle(label, handle)`. -/
def ctxSetCurrentSubHandle (c : CtxState) (l : String) (h : Nat) (now : Nat) : CtxState :=
  { c with currentSub := some (l, h), subStart := now }

/-- The value `step()` hands back: either the live context stored for the
currently executing leaf, or the inert `NO_OP_CONTEXT`. -/
inductive StepCtx where
  | noop
  | live (c : CtxState)

/-- `step()`: `stepContext.getStore() ?? NO_OP_CONTEXT`. -/
def stepAccessor (store : Option CtxState) : StepCtx :=
  match store with
  | some c => .live c
  | none => .noop

/-- `StepContext.progress` dispatched on the context kind; the no-op
context leaves every piece of state untouched. -/
def ctxProgress : StepCtx → Nat → Nat → EngSt → EngSt
  | .noop, _, _, s => s
  | .live c, cur, tot, s => ctxProgressLive c cur tot s

/-- `StepContext.sub` dispatched on the context kind. -/
def ctxSub : StepCtx → String → EngSt → StepCtx × EngSt
  | .noop, _, s => (.noop, s)
  | .live c, l, s =>
      let (c1, s1) := ctxSubLive c l s
      (.live c1, s1)

/-- `StepContext.label` getter (empty for the no-op context). -/
def ctxLabel : StepCtx → String
  | .noop => ""
  | .live c => c.label

/-- C6: outside the dynamic extent of any executing leaf (no stored
context), `step()` returns the inert context, whose `progress` and `sub`
operations change no registry or display state whatsoever; inside the
dynamic extent it returns exactly the stored context bound to that
leaf. -/
theorem C6_step_accessor_contract :
    stepAccessor none = .noop ∧
    (∀ cur tot s, ctxProgress .noop cur tot s = s) ∧
    (∀ l s, ctxSub .noop l s = (.noop, s)) ∧
    ctxLabel .noop = "" ∧
    (∀ c, stepAccessor (some c) = .live c) :=
  ⟨rfl, fun _ _ _ => rfl, fun _ _ => rfl, rfl, fun _ => rfl⟩

/-! ## Registry frame lemmas

`MultiProgress` ids are handed out by `nextId`, so a registry reachable
from the constructor satisfies `fresh` below; the lemmas characterise how
`add` and `updateTask` act on `findTask`. -/

/-- Every registered task id is below the id counter. -/
def MultiProgress.fresh (m : MultiProgress) : Prop :=
  ∀ t ∈ m.tasks, t.id < m.nextId

theorem find?_map_of_pred {α : Type} (g : α → α) (p : α → Bool) (l : List α)
    (h : ∀ t, p (g t) = p t) : (l.map g).find? p = (l.find? p).map g := by
  induction l with
  | nil => rfl
  | cons x xs ih =>
      cases hx : p x with
      | true =>
          rw [List.map_cons, List.find?_cons_of_pos _ (by rw [h x]; exact hx),
            List.find?_cons_of_pos _ hx]
          rfl
      | false =>
          rw [List.map_cons, List.find?_cons_of_neg _ (by simp [h x, hx]),
            List.find?_cons_of_neg _ (by simp [hx])]
          exact ih

theorem find?_append_single {α : Type} (p : α → Bool) (l : List α) (a : α)
    (ha : p a = false) : (l ++ [a]).find? p = l.find? p := by
  rw [List.find?_append]
  cases hfl : l.find? p with
  | none => simp [List.find?, ha]
  | some t => rfl

theorem find?_append_single_self {α : Type} (p : α → Bool) (l : List α) (a : α)
    (hl : l.find? p = none) (ha : p a = true) : (l ++ [a]).find? p = some a := by
  rw [List.find?_append, hl]
  simp [List.find?, ha]

theorem render_findTask (m : MultiProgress) (j : Nat) :
    (m.render).findTask j = m.findTask j := by
  unfold MultiProgress.findTask
  rw [render_tasks]

/-- A fresh registry has no task registered under the next id. -/
theorem findTask_nextId_none (m : MultiProgress) (hf : m.fresh) :
    m.findTask m.nextId = none := by
  unfold MultiProgress.findTask
  rw [List.find?_eq_none]
  intro t ht
  have := hf t ht
  simp only [beq_iff_eq]
  omega

/-- The task the `add` call of the source constructs. -/
def addedTask (m : MultiProgress) (title : String) (opts : AddOptions) : TaskState :=
  { id := m.nextId, title := title, type := opts.type, status := .pending,
    total := opts.total, current := 0, indent := opts.indent }

theorem add_findTask_old (m : MultiProgress) (title : String) (opts : AddOptions)
    (j : Nat) (hj : j ≠ m.nextId) :
    (m.add title opts).1.findTask j = m.findTask j := by
  unfold MultiProgress.add
  simp only [apply_ite (fun (x : MultiProgress) => x.findTask j), render_findTask, ite_self]
  show MultiProgress.findTask _ j = _
  unfold MultiProgress.findTask
  exact find?_append_single _ m.tasks _ (by simp only [beq_eq_false_iff_ne]; omega)

theorem add_findTask_new (m : MultiProgress) (title : String) (opts : AddOptions)
    (hf : m.fresh) :
    (m.add title opts).1.findTask m.nextId = some (addedTask m title opts) := by
  unfold MultiProgress.add
  simp only [apply_ite (fun (x : MultiProgress) => x.findTask m.nextId), render_findTask,
    ite_self]
  show MultiProgress.findTask _ m.nextId = _
  unfold MultiProgress.findTask
  exact find?_append_single_self _ m.tasks _ (findTask_nextId_none m hf) (by simp)

theorem add_nextId (m : MultiProgress) (title : String) (opts : AddOptions) :
    (m.add title opts).1.nextId = m.nextId + 1 := by
  unfold MultiProgress.add
  simp only [apply_ite (fun (x : MultiProgress) => x.nextId), render_nextId, ite_self]

theorem add_snd (m : MultiProgress) (title : String) (opts : AddOptions) :
    (m.add title opts).2 = m.nextId := rfl

theorem add_taskOrder (m : MultiProgress) (title : String) (opts : AddOptions) :
    (m.add title opts).1.taskOrder =
      match opts.insertAfter with
      | some a => spliceAfter m.taskOrder a m.nextId
      | none => m.taskOrder ++ [m.nextId] := by
  unfold MultiProgress.add
  simp only [apply_ite (fun (x : MultiProgress) => x.taskOrder), render_taskOrder, ite_self]

theorem add_fresh (m : MultiProgress) (title : String) (opts : AddOptions)
    (hf : m.fresh) : (m.add title opts).1.fresh := by
  have htasks : (m.add title opts).1.tasks = m.tasks ++ [addedTask m title opts] := by
    unfold MultiProgress.add
    simp only [apply_ite (fun (x : MultiProgress) => x.tasks), render_tasks, ite_self]
    rfl
  intro t ht
  rw [htasks] at ht
  rw [add_nextId]
  rcases List.mem_append.1 ht with hold | hnew
  · exact Nat.lt_succ_of_lt (hf t hold)
  · have : t = addedTask m title opts := by simpa using hnew
    subst this
    exact Nat.lt_succ_self _

theorem add_tty (m : MultiProgress) (title : String) (opts : AddOptions) :
    (m.add title opts).1.tty = m.tty := by
  unfold MultiProgress.add
  simp only [apply_ite (fun (x : MultiProgress) => x.tty), render_tty, ite_self]

theorem updateTask_findTask (m : MultiProgress) (id : Nat) (f : TaskState → TaskState)
    (j : Nat) (hid : ∀ t, (f t).id = t.id) :
    (m.updateTask id f).findTask j =
      if j = id then (m.findTask id).map f else m.findTask j := by
  unfold MultiProgress.updateTask
  cases hfind : m.findTask id with
  | none =>
      by_cases hj : j = id
      · subst hj
        simp [hfind]
      · simp [hj]
  | some t0 =>
      simp only [apply_ite (fun (x : MultiProgress) => x.findTask j), render_findTask,
        ite_self]
      show MultiProgress.findTask _ j = _
      unfold MultiProgress.findTask
      have hpred : ∀ t : TaskState,
          (((fun (t : TaskState) => if t.id == id then f t else t) t).id == j) = (t.id == j) := by
        intro t
        by_cases hb : (t.id == id) = true
        · simp [hb, hid t]
        · simp [hb]
      rw [find?_map_of_pred _ _ _ hpred]
      by_cases hj : j = id
      · subst hj
        show (m.findTask j).map _ = _
        rw [hfind, if_pos rfl]
        have ht0 : t0.id = j := by
          unfold MultiProgress.findTask at hfind
          have := List.find?_some hfind
          simpa using this
        simp [ht0]
      · rw [if_neg hj]
        show (m.findTask j).map _ = m.findTask j
        cases hfj : m.findTask j with
        | none => rfl
        | some tj =>
            have htj : tj.id = j := by
              unfold MultiProgress.findTask at hfj
              have := List.find?_some hfj
              simpa using this
            have hne : tj.id ≠ id := by omega
            simp [hne]

theorem updateTask_taskOrder (m : MultiProgress) (id : Nat) (f : TaskState → TaskState) :
    (m.updateTask id f).taskOrder = m.taskOrder := by
  unfold MultiProgress.updateTask
  cases m.findTask id with
  | none => rfl
  | some t0 =>
      simp only [apply_ite (fun (x : MultiProgress) => x.taskOrder), render_taskOrder,
        ite_self]

theorem updateTask_nextId (m : MultiProgress) (id : Nat) (f : TaskState → TaskState) :
    (m.updateTask id f).nextId = m.nextId := by
  unfold MultiProgress.updateTask
  cases m.findTask id with
  | none => rfl
  | some t0 =>
      simp only [apply_ite (fun (x : MultiProgress) => x.nextId), render_nextId, ite_self]

theorem updateTask_tty (m : MultiProgress) (id : Nat) (f : TaskState → TaskState) :
    (m.updateTask id f).tty = m.tty := by
  unfold MultiProgress.updateTask
  cases m.findTask id with
  | none => rfl
  | some t0 =>
      simp only [apply_ite (fun (x : MultiProgress) => x.tty), render_tty, ite_self]

theorem updateTask_fresh (m : MultiProgress) (id : Nat) (f : TaskState → TaskState)
    (hid : ∀ t, (f t).id = t.id) (hf : m.fresh) : (m.updateTask id f).fresh := by
  have htasks : (m.updateTask id f).tasks =
      m.tasks.map (fun (t : TaskState) => if t.id == id then f t else t) ∨
      (m.updateTask id f).tasks = m.tasks := by
    unfold MultiProgress.updateTask
    cases m.findTask id with
    | none => exact Or.inr rfl
    | some t0 =>
        left
        simp only [apply_ite (fun (x : MultiProgress) => x.tasks), render_tasks, ite_self]
  intro t ht
  rw [updateTask_nextId]
  rcases htasks with h | h
  · rw [h] at ht
    rcases List.mem_map.1 ht with ⟨t0, ht0, heq⟩
    have : t.id = t0.id := by
      subst heq
      by_cases hb : t0.id == id
      · simp only [hb, if_pos rfl]
        exact hid t0
      · simp only [hb]
        simp
    rw [this]
    exact hf t0 ht0
  · rw [h] at ht
    exact hf t ht

/-! ## Work items and the declarative generator loop (progress/declarative.ts) -/

/-- Errors thrown by work items. -/
abbrev Err := String

/-- One value yielded by an incremental producer, after the engine's
defaulting (`value.current ?? 0`, `value.total ?? 0`): a batch sub-step
declaration, a sub-step label, or a progress update. -/
inductive GenEvent where
  | declare (labels : List String)
  | label (l : String)
  | progress (current total : Nat)

/-- One ambient-context call performed by a plain work body via `step()`. -/
inductive AmbientAction where
  | sub (label : String)
  | progress (current total : Nat)

/-- A work item.  A `sync` producer returns (or throws) synchronously, a
`deferred` producer resolves (or rejects) after `dur` ms; both may call
the ambient context while they run.  An `incremental` producer returns a
generator whose pulls yield the listed events (each taking the paired
time), after which the final pull either returns the result or throws. -/
inductive Work (V : Type) where
  | sync (f : Option V → List AmbientAction × Except Err V) (dur : Nat)
  | deferred (f : Option V → List AmbientAction × Except Err V) (dur : Nat)
  | incremental (f : Option V → List (GenEvent × Nat) × Except Err V × Nat)

/-- Replay the ambient-context calls a work body performs, in order. -/
def applyAmbient (c : CtxState) (acts : List AmbientAction) (s : EngSt) : CtxState × EngSt :=
  match acts with
  | [] => (c, s)
  | .sub l :: rest => applyAmbient (ctxSubLive c l s).1 rest (ctxSubLive c l s).2
  | .progress cur tot :: rest => applyAmbient c rest (ctxProgressLive c cur tot s)

/-- The loop-local state of `runGenerator` / `runAsyncGenerator`:
the context, the `hasSubSteps` flag, and `lastInsertedId`. -/
structure GenSt where
  ctx : CtxState
  hasSubSteps : Bool
  lastInsertedId : Nat

/-- Flip the parent from spinner to group on the first sub-step event. -/
def genMarkSubSteps (gs : GenSt) (s : EngSt) : GenSt × EngSt :=
  if gs.hasSubSteps then (gs, s)
  else ({ gs with hasSubSteps := true },
        { s with m := taskSetType s.m gs.ctx.handleId .group })

/-- Register one pre-declared sub-step record: add it after the last
inserted record and remember its handle under its label. -/
def declareStep (p : GenSt × EngSt) (l : String) : GenSt × EngSt :=
  let a := p.2.m.add l
    { type := .spinner, indent := p.1.ctx.subIndent,
      insertAfter := some p.1.lastInsertedId }
  ({ p.1 with lastInsertedId := a.2, ctx := ctxAddSubHandle p.1.ctx l a.2 },
   { p.2 with m := a.1 })

/-- Process one yielded value, mirroring the body of the `while` loop in
`runGenerator` (identical in `runAsyncGenerator`). -/
def genProcessEvent (gs : GenSt) (e : GenEvent) (s : EngSt) : GenSt × EngSt :=
  match e with
  | .declare labels =>
      let (gs1, s1) := genMarkSubSteps gs s
      labels.foldl declareStep (gs1, s1)
  | .label l =>
      let gs1 : GenSt := { gs with ctx := (ctxCompleteSubStep gs.ctx s).1 }
      let s1 := (ctxCompleteSubStep gs.ctx s).2
      let gs2 := (genMarkSubSteps gs1 s1).1
      let s2 := (genMarkSubSteps gs1 s1).2
      match ctxGetSubHandle gs2.ctx l with
      | some h =>
          ({ gs2 with ctx := ctxSetCurrentSubHandle gs2.ctx l h s2.now },
           { s2 with m := taskStart s2.m h })
      | none =>
          let a := s2.m.add l
            { type := .spinner, indent := gs2.ctx.subIndent,
              insertAfter := some gs2.lastInsertedId }
          ({ gs2 with lastInsertedId := a.2, ctx := ctxAddSubHandle gs2.ctx l a.2 },
           { s2 with m := taskStart a.1 a.2 })
  | .progress cur tot => (gs, ctxProgressLive gs.ctx cur tot s)

/-- The generator consumption loop: advance the clock by the time the
body took to produce the event, process it, yield to the scheduler
(no logical time), pull the next one. -/
def genLoop (gs : GenSt) (events : List (GenEvent × Nat)) (s : EngSt) : GenSt × EngSt :=
  match events with
  | [] => (gs, s)
  | (e, d) :: rest =>
      genLoop (genProcessEvent gs e { s with now := s.now + d }).1 rest
        (genProcessEvent gs e { s with now := s.now + d }).2

/-- `runGenerator` / `runAsyncGenerator`: consume the events; when the
final pull throws, the error propagates to `executeStep`'s catch; when it
returns, complete any open sub-step and the step itself with its total
elapsed time. -/
def runGeneratorM {V : Type} (ctx : CtxState) (events : List (GenEvent × Nat))
    (fin : Except Err V) (finDur : Nat) (s : EngSt) : EngSt × Except Err V :=
  let startTime := s.now
  let gs0 : GenSt := { ctx := ctx, hasSubSteps := false, lastInsertedId := ctx.handleId }
  let gl := genLoop gs0 events s
  let s2 := { gl.2 with now := gl.2.now + finDur }
  match fin with
  | .error e => (s2, .error e)
  | .ok v =>
      let c2 := (ctxCompleteSubStep gl.1.ctx s2).1
      let s3 := (ctxCompleteSubStep gl.1.ctx s2).2
      ({ s3 with m := taskCompleteTime s3.m c2.handleId (s3.now - startTime) }, .ok v)

/-- The non-generator tail of `executeStep`: replay the ambient calls the
body makes, let `dur` ms elapse, then either complete (closing any open
sub-step first) or mark the leaf failed and re-throw. -/
def runPlainWork {V : Type} (pos : Nat)
    (f : Option V → List AmbientAction × Except Err V) (dur : Nat)
    (ctx : CtxState) (input : Option V) (startTime : Nat) (s : EngSt) :
    EngSt × Except Err V :=
  let fr := f input
  let aa := applyAmbient ctx fr.1 s
  let s3 := { aa.2 with now := aa.2.now + dur }
  match fr.2 with
  | .error e => ({ s3 with m := taskFail s3.m pos }, .error e)
  | .ok v =>
      let s4 := (ctxCompleteSubStep aa.1 s3).2
      ({ s4 with m := taskCompleteTime s4.m pos (s4.now - startTime) }, .ok v)

/-- `executeStep(node, handles, multi, input?)`: record the start time,
build the ambient context whose `onSubStep` callback adds records with
`insertAfter` pointing at the leaf's own handle, start the leaf, then
run the work item; a thrown error marks this leaf failed and re-raises. -/
def executeStep {V : Type} (pos : Nat) (indent : Nat) (label : String)
    (w : Work V) (input : Option V) (s : EngSt) : EngSt × Except Err V :=
  let startTime := s.now
  let ctx : CtxState := { label := label, handleId := pos, subIndent := indent + 1 }
  let s1 := { s with m := taskStart s.m pos }
  match w with
  | .sync f dur => runPlainWork pos f dur ctx input startTime s1
  | .deferred f dur => runPlainWork pos f dur ctx input startTime s1
  | .incremental f =>
      let fr := f input
      let r := runGeneratorM ctx fr.1 fr.2.1 fr.2.2 s1
      match r.2 with
      | .error e => ({ r.1 with m := taskFail r.1.m pos }, .error e)
      | .ok v => (r.1, .ok v)

/-! ## Derived preservation lemmas for handle operations -/

theorem taskTypeOf_updateTask_pres (m : MultiProgress) (id : Nat)
    (f : TaskState → TaskState) (j : Nat) (hid : ∀ t, (f t).id = t.id)
    (hty : ∀ t, (f t).type = t.type) :
    taskTypeOf (m.updateTask id f) j = taskTypeOf m j := by
  unfold taskTypeOf
  rw [updateTask_findTask m id f j hid]
  by_cases hj : j = id
  · subst hj
    cases hfind : m.findTask j with
    | none => simp
    | some t => simp [hty]
  · simp [hj]

theorem taskStatusOf_updateTask_pres (m : MultiProgress) (id : Nat)
    (f : TaskState → TaskState) (j : Nat) (hid : ∀ t, (f t).id = t.id)
    (hst : ∀ t, (f t).status = t.status) :
    taskStatusOf (m.updateTask id f) j = taskStatusOf m j := by
  unfold taskStatusOf
  rw [updateTask_findTask m id f j hid]
  by_cases hj : j = id
  · subst hj
    cases hfind : m.findTask j with
    | none => simp
    | some t => simp [hst]
  · simp [hj]

theorem taskStatusOf_updateTask_other (m : MultiProgress) (id : Nat)
    (f : TaskState → TaskState) (j : Nat) (hid : ∀ t, (f t).id = t.id)
    (hj : j ≠ id) :
    taskStatusOf (m.updateTask id f) j = taskStatusOf m j := by
  unfold taskStatusOf
  rw [updateTask_findTask m id f j hid]
  simp [hj]

theorem taskTypeOf_taskStart (m : MultiProgress) (id j : Nat) :
    taskTypeOf (taskStart m id) j = taskTypeOf m j :=
  taskTypeOf_updateTask_pres m id _ j (fun _ => rfl) (fun _ => rfl)

theorem taskTypeOf_taskCompleteTime (m : MultiProgress) (id time j : Nat) :
    taskTypeOf (taskCompleteTime m id time) j = taskTypeOf m j :=
  taskTypeOf_updateTask_pres m id _ j (fun _ => rfl) (fun _ => rfl)

theorem taskTypeOf_taskFail (m : MultiProgress) (id j : Nat) :
    taskTypeOf (taskFail m id) j = taskTypeOf m j :=
  taskTypeOf_updateTask_pres m id _ j (fun _ => rfl) (fun _ => rfl)

theorem taskTypeOf_taskSetTitle (m : MultiProgress) (id : Nat) (title : String) (j : Nat) :
    taskTypeOf (taskSetTitle m id title) j = taskTypeOf m j :=
  taskTypeOf_updateTask_pres m id _ j (fun _ => rfl) (fun _ => rfl)

theorem taskTypeOf_taskSetType_self (m : MultiProgress) (id : Nat) (ty : TaskType) :
    taskTypeOf (taskSetType m id ty) id = (taskTypeOf m id).map (fun _ => ty) := by
  unfold taskTypeOf taskSetType
  rw [updateTask_findTask m id (fun t => { t with type := ty }) id (fun _ => rfl)]
  rw [if_pos rfl]
  cases m.findTask id <;> simp

theorem taskTypeOf_taskSetType_other (m : MultiProgress) (id : Nat) (ty : TaskType)
    (j : Nat) (hj : j ≠ id) :
    taskTypeOf (taskSetType m id ty) j = taskTypeOf m j := by
  unfold taskTypeOf taskSetType
  rw [updateTask_findTask m id (fun t => { t with type := ty }) j (fun _ => rfl)]
  simp [hj]

theorem taskTypeOf_add_old (m : MultiProgress) (title : String) (opts : AddOptions)
    (j : Nat) (hj : j ≠ m.nextId) :
    taskTypeOf ((m.add title opts).1) j = taskTypeOf m j := by
  unfold taskTypeOf
  rw [add_findTask_old m title opts j hj]

theorem taskStatusOf_add_old (m : MultiProgress) (title : String) (opts : AddOptions)
    (j : Nat) (hj : j ≠ m.nextId) :
    taskStatusOf ((m.add title opts).1) j = taskStatusOf m j := by
  unfold taskStatusOf
  rw [add_findTask_old m title opts j hj]

theorem taskStatusOf_add_new (m : MultiProgress) (title : String) (opts : AddOptions)
    (hf : m.fresh) :
    taskStatusOf ((m.add title opts).1) m.nextId = .pending := by
  unfold taskStatusOf
  rw [add_findTask_new m title opts hf]
  rfl

/-- Per-op `fresh` preservation. -/
theorem fresh_taskStart (m : MultiProgress) (id : Nat) (hf : m.fresh) :
    (taskStart m id).fresh :=
  updateTask_fresh m id _ (fun _ => rfl) hf

theorem fresh_taskCompleteTime (m : MultiProgress) (id time : Nat) (hf : m.fresh) :
    (taskCompleteTime m id time).fresh :=
  updateTask_fresh m id _ (fun _ => rfl) hf

theorem fresh_taskFail (m : MultiProgress) (id : Nat) (hf : m.fresh) :
    (taskFail m id).fresh :=
  updateTask_fresh m id _ (fun _ => rfl) hf

theorem fresh_taskSetTitle (m : MultiProgress) (id : Nat) (title : String) (hf : m.fresh) :
    (taskSetTitle m id title).fresh :=
  updateTask_fresh m id _ (fun _ => rfl) hf

theorem fresh_taskSetType (m : MultiProgress) (id : Nat) (ty : TaskType) (hf : m.fresh) :
    (taskSetType m id ty).fresh :=
  updateTask_fresh m id _ (fun _ => rfl) hf

/-! ## EngSt-level preservation for the ambient-context operations -/

theorem ctxProgressLive_now (c : CtxState) (cur tot : Nat) (s : EngSt) :
    (ctxProgressLive c cur tot s).now = s.now := by
  unfold ctxProgressLive
  cases c.currentSub with
  | none => rfl
  | some p => rcases p with ⟨lbl, h⟩; rfl

theorem ctxProgressLive_nextId (c : CtxState) (cur tot : Nat) (s : EngSt) :
    (ctxProgressLive c cur tot s).m.nextId = s.m.nextId := by
  unfold ctxProgressLive
  cases c.currentSub with
  | none => exact updateTask_nextId _ _ _
  | some p => rcases p with ⟨lbl, h⟩; exact updateTask_nextId _ _ _

theorem ctxProgressLive_typeOf (c : CtxState) (cur tot : Nat) (s : EngSt) (j : Nat) :
    taskTypeOf (ctxProgressLive c cur tot s).m j = taskTypeOf s.m j := by
  unfold ctxProgressLive
  cases c.currentSub with
  | none => exact taskTypeOf_taskSetTitle _ _ _ _
  | some p => rcases p with ⟨lbl, h⟩; exact taskTypeOf_taskSetTitle _ _ _ _

theorem ctxProgressLive_fresh (c : CtxState) (cur tot : Nat) (s : EngSt)
    (hf : s.m.fresh) : (ctxProgressLive c cur tot s).m.fresh := by
  unfold ctxProgressLive
  cases c.currentSub with
  | none => exact fresh_taskSetTitle _ _ _ hf
  | some p => rcases p with ⟨lbl, h⟩; exact fresh_taskSetTitle _ _ _ hf

theorem ctxProgressLive_taskOrder (c : CtxState) (cur tot : Nat) (s : EngSt) :
    (ctxProgressLive c cur tot s).m.taskOrder = s.m.taskOrder := by
  unfold ctxProgressLive
  cases c.currentSub with
  | none => exact updateTask_taskOrder _ _ _
  | some p => rcases p with ⟨lbl, h⟩; exact updateTask_taskOrder _ _ _

theorem ctxCompleteSubStep_now (c : CtxState) (s : EngSt) :
    (ctxCompleteSubStep c s).2.now = s.now := by
  unfold ctxCompleteSubStep
  cases c.currentSub with
  | none => rfl
  | some p => rcases p with ⟨lbl, h⟩; rfl

theorem ctxCompleteSubStep_nextId (c : CtxState) (s : EngSt) :
    (ctxCompleteSubStep c s).2.m.nextId = s.m.nextId := by
  unfold ctxCompleteSubStep
  cases c.currentSub with
  | none => rfl
  | some p => rcases p with ⟨lbl, h⟩; exact updateTask_nextId _ _ _

theorem ctxCompleteSubStep_typeOf (c : CtxState) (s : EngSt) (j : Nat) :
    taskTypeOf (ctxCompleteSubStep c s).2.m j = taskTypeOf s.m j := by
  unfold ctxCompleteSubStep
  cases c.currentSub with
  | none => rfl
  | some p => rcases p with ⟨lbl, h⟩; exact taskTypeOf_taskCompleteTime _ _ _ _

theorem ctxCompleteSubStep_fresh (c : CtxState) (s : EngSt) (hf : s.m.fresh) :
    (ctxCompleteSubStep c s).2.m.fresh := by
  unfold ctxCompleteSubStep
  cases c.currentSub with
  | none => exact hf
  | some p => rcases p with ⟨lbl, h⟩; exact fresh_taskCompleteTime _ _ _ hf

theorem ctxCompleteSubStep_taskOrder (c : CtxState) (s : EngSt) :
    (ctxCompleteSubStep c s).2.m.taskOrder = s.m.taskOrder := by
  unfold ctxCompleteSubStep
  cases c.currentSub with
  | none => rfl
  | some p => rcases p with ⟨lbl, h⟩; exact updateTask_taskOrder _ _ _

theorem ctxCompleteSubStep_handleId (c : CtxState) (s : EngSt) :
    (ctxCompleteSubStep c s).1.handleId = c.handleId := by
  unfold ctxCompleteSubStep
  cases c.currentSub with
  | none => rfl
  | some p => rcases p with ⟨lbl, h⟩; rfl

theorem ctxCompleteSubStep_subIndent (c : CtxState) (s : EngSt) :
    (ctxCompleteSubStep c s).1.subIndent = c.subIndent := by
  unfold ctxCompleteSubStep
  cases c.currentSub with
  | none => rfl
  | some p => rcases p with ⟨lbl, h⟩; rfl

/-! ## Per-operation projection lemmas -/

theorem taskStart_nextId (m : MultiProgress) (id : Nat) :
    (taskStart m id).nextId = m.nextId := updateTask_nextId m id _

theorem taskStart_taskOrder (m : MultiProgress) (id : Nat) :
    (taskStart m id).taskOrder = m.taskOrder := updateTask_taskOrder m id _

theorem taskFail_nextId (m : MultiProgress) (id : Nat) :
    (taskFail m id).nextId = m.nextId := updateTask_nextId m id _

theorem taskFail_taskOrder (m : MultiProgress) (id : Nat) :
    (taskFail m id).taskOrder = m.taskOrder := updateTask_taskOrder m id _

theorem taskCompleteTime_nextId (m : MultiProgress) (id time : Nat) :
    (taskCompleteTime m id time).nextId = m.nextId := updateTask_nextId m id _

theorem taskCompleteTime_taskOrder (m : MultiProgress) (id time : Nat) :
    (taskCompleteTime m id time).taskOrder = m.taskOrder := updateTask_taskOrder m id _

theorem taskSetTitle_nextId (m : MultiProgress) (id : Nat) (title : String) :
    (taskSetTitle m id title).nextId = m.nextId := updateTask_nextId m id _

theorem taskSetTitle_taskOrder (m : MultiProgress) (id : Nat) (title : String) :
    (taskSetTitle m id title).taskOrder = m.taskOrder := updateTask_taskOrder m id _

theorem taskSetType_nextId (m : MultiProgress) (id : Nat) (ty : TaskType) :
    (taskSetType m id ty).nextId = m.nextId := updateTask_nextId m id _

theorem taskSetType_taskOrder (m : MultiProgress) (id : Nat) (ty : TaskType) :
    (taskSetType m id ty).taskOrder = m.taskOrder := updateTask_taskOrder m id _

theorem ctxSubLive_handleId (c : CtxState) (l : String) (s : EngSt) :
    (ctxSubLive c l s).1.handleId = c.handleId := by
  unfold ctxSubLive
  show (ctxCompleteSubStep c s).1.handleId = c.handleId
  exact ctxCompleteSubStep_handleId c s

theorem ctxSubLive_subIndent (c : CtxState) (l : String) (s : EngSt) :
    (ctxSubLive c l s).1.subIndent = c.subIndent := by
  unfold ctxSubLive
  show (ctxCompleteSubStep c s).1.subIndent = c.subIndent
  exact ctxCompleteSubStep_subIndent c s

theorem ctxSubLive_now (c : CtxState) (l : String) (s : EngSt) :
    (ctxSubLive c l s).2.now = s.now := by
  unfold ctxSubLive
  show (ctxCompleteSubStep c s).2.now = s.now
  exact ctxCompleteSubStep_now c s

theorem ctxSubLive_nextId (c : CtxState) (l : String) (s : EngSt) :
    (ctxSubLive c l s).2.m.nextId = s.m.nextId + 1 := by
  unfold ctxSubLive
  show (taskStart _ _).nextId = _
  rw [taskStart_nextId, add_nextId, ctxCompleteSubStep_nextId]

theorem ctxSubLive_fresh (c : CtxState) (l : String) (s : EngSt) (hf : s.m.fresh) :
    (ctxSubLive c l s).2.m.fresh := by
  unfold ctxSubLive
  show (taskStart _ _).fresh
  exact updateTask_fresh _ _ _ (fun _ => rfl)
    (add_fresh _ _ _ (ctxCompleteSubStep_fresh c s hf))

theorem ctxSubLive_typeOf_lt (c : CtxState) (l : String) (s : EngSt) (j : Nat)
    (hj : j < s.m.nextId) :
    taskTypeOf (ctxSubLive c l s).2.m j = taskTypeOf s.m j := by
  unfold ctxSubLive
  show taskTypeOf (taskStart _ _) j = _
  rw [taskTypeOf_taskStart]
  rw [taskTypeOf_add_old _ _ _ j (by rw [ctxCompleteSubStep_nextId]; omega)]
  exact ctxCompleteSubStep_typeOf c s j

theorem ctxSubLive_taskOrder (c : CtxState) (l : String) (s : EngSt) :
    (ctxSubLive c l s).2.m.taskOrder =
      spliceAfter s.m.taskOrder c.handleId s.m.nextId := by
  unfold ctxSubLive
  show (taskStart _ _).taskOrder = _
  rw [taskStart_taskOrder]
  rw [add_taskOrder]
  show spliceAfter _ _ _ = _
  rw [ctxCompleteSubStep_taskOrder, ctxCompleteSubStep_nextId, ctxCompleteSubStep_handleId]

theorem genMarkSubSteps_ctx (gs : GenSt) (s : EngSt) :
    (genMarkSubSteps gs s).1.ctx = gs.ctx := by
  unfold genMarkSubSteps
  split <;> rfl

theorem genMarkSubSteps_lastInsertedId (gs : GenSt) (s : EngSt) :
    (genMarkSubSteps gs s).1.lastInsertedId = gs.lastInsertedId := by
  unfold genMarkSubSteps
  split <;> rfl

theorem genMarkSubSteps_hasSubSteps (gs : GenSt) (s : EngSt) :
    (genMarkSubSteps gs s).1.hasSubSteps = true := by
  unfold genMarkSubSteps
  split
  · next h => exact h
  · rfl

theorem genMarkSubSteps_now (gs : GenSt) (s : EngSt) :
    (genMarkSubSteps gs s).2.now = s.now := by
  unfold genMarkSubSteps
  split <;> rfl

theorem genMarkSubSteps_nextId (gs : GenSt) (s : EngSt) :
    (genMarkSubSteps gs s).2.m.nextId = s.m.nextId := by
  unfold genMarkSubSteps
  split
  · rfl
  · exact taskSetType_nextId _ _ _

theorem genMarkSubSteps_taskOrder (gs : GenSt) (s : EngSt) :
    (genMarkSubSteps gs s).2.m.taskOrder = s.m.taskOrder := by
  unfold genMarkSubSteps
  split
  · rfl
  · exact taskSetType_taskOrder _ _ _

theorem genMarkSubSteps_fresh (gs : GenSt) (s : EngSt) (hf : s.m.fresh) :
    (genMarkSubSteps gs s).2.m.fresh := by
  unfold genMarkSubSteps
  split
  · exact hf
  · exact fresh_taskSetType _ _ _ hf

theorem genMarkSubSteps_typeOf_group (gs : GenSt) (s : EngSt) (pos : Nat)
    (hid : gs.ctx.handleId = pos)
    (hty : taskTypeOf s.m pos =
      some (if gs.hasSubSteps then TaskType.group else TaskType.spinner)) :
    taskTypeOf (genMarkSubSteps gs s).2.m pos = some TaskType.group := by
  unfold genMarkSubSteps
  split
  · next h =>
      rw [h] at hty
      simpa using hty
  · next h =>
      have hb : gs.hasSubSteps = false := by
        cases hbb : gs.hasSubSteps
        · rfl
        · exact absurd hbb h
      rw [hb] at hty
      show taskTypeOf (taskSetType s.m gs.ctx.handleId .group) pos = _
      rw [hid, taskTypeOf_taskSetType_self, hty]
      rfl

/-- Whether a yielded value is a sub-step event (batch declaration or
label), as opposed to a bare progress update. -/
def isSubStepEvent : GenEvent → Bool
  | .declare _ => true
  | .label _ => true
  | .progress _ _ => false

/-- The loop invariant for the C7 claim: a well-formed registry, the
parent handle id below the id counter, and the parent's record type
tracking the `hasSubSteps` flag. -/
def C7Inv (pos : Nat) (p : GenSt × EngSt) : Prop :=
  p.2.m.fresh ∧ pos < p.2.m.nextId ∧ p.1.ctx.handleId = pos ∧
  taskTypeOf p.2.m pos =
    some (if p.1.hasSubSteps then TaskType.group else TaskType.spinner)

theorem declareStep_inv (pos : Nat) (p : GenSt × EngSt) (l : String)
    (h : C7Inv pos p) :
    C7Inv pos (declareStep p l) ∧
    (declareStep p l).1.hasSubSteps = p.1.hasSubSteps := by
  obtain ⟨hf, hpos, hid, hty⟩ := h
  unfold declareStep
  refine ⟨⟨?_, ?_, ?_, ?_⟩, rfl⟩
  · exact add_fresh _ _ _ hf
  · show pos < (p.2.m.add _ _).1.nextId
    rw [add_nextId]
    omega
  · show (ctxAddSubHandle p.1.ctx l _).handleId = pos
    exact hid
  · show taskTypeOf (p.2.m.add _ _).1 pos = _
    rw [taskTypeOf_add_old _ _ _ pos (by omega)]
    exact hty

theorem declareFoldl_inv (pos : Nat) (labels : List String) (p : GenSt × EngSt)
    (h : C7Inv pos p) :
    C7Inv pos (labels.foldl declareStep p) ∧
    (labels.foldl declareStep p).1.hasSubSteps = p.1.hasSubSteps := by
  induction labels generalizing p with
  | nil => exact ⟨h, rfl⟩
  | cons l rest ih =>
      obtain ⟨h1, h2⟩ := declareStep_inv pos p l h
      obtain ⟨h3, h4⟩ := ih (declareStep p l) h1
      exact ⟨h3, by rw [List.foldl_cons] at *; rw [h4, h2]⟩

theorem genProcessEvent_inv (pos : Nat) (gs : GenSt) (e : GenEvent) (s : EngSt)
    (h : C7Inv pos (gs, s)) :
    C7Inv pos (genProcessEvent gs e s) ∧
    (genProcessEvent gs e s).1.hasSubSteps = (gs.hasSubSteps || isSubStepEvent e) := by
  obtain ⟨hf, hpos, hid, hty⟩ := h
  cases e with
  | declare labels =>
      have hmark : C7Inv pos (genMarkSubSteps gs s) := by
        refine ⟨genMarkSubSteps_fresh gs s hf, ?_, ?_, ?_⟩
        · rw [genMarkSubSteps_nextId]; exact hpos
        · rw [genMarkSubSteps_ctx]; exact hid
        · rw [genMarkSubSteps_hasSubSteps]
          simpa using genMarkSubSteps_typeOf_group gs s pos hid hty
      obtain ⟨h3, h4⟩ := declareFoldl_inv pos labels _ hmark
      constructor
      · exact h3
      · show (labels.foldl declareStep (genMarkSubSteps gs s)).1.hasSubSteps = _
        rw [h4, genMarkSubSteps_hasSubSteps]
        simp [isSubStepEvent]
  | label l =>
      have hf1 : (ctxCompleteSubStep gs.ctx s).2.m.fresh := ctxCompleteSubStep_fresh _ _ hf
      have hpos1 : pos < (ctxCompleteSubStep gs.ctx s).2.m.nextId := by
        rw [ctxCompleteSubStep_nextId]; exact hpos
      have hty1 : taskTypeOf (ctxCompleteSubStep gs.ctx s).2.m pos =
          some (if gs.hasSubSteps then TaskType.group else TaskType.spinner) := by
        rw [ctxCompleteSubStep_typeOf]; exact hty
      have hid1 : ({ gs with ctx := (ctxCompleteSubStep gs.ctx s).1 } : GenSt).ctx.handleId
          = pos := by
        show (ctxCompleteSubStep gs.ctx s).1.handleId = pos
        rw [ctxCompleteSubStep_handleId]; exact hid
      have hf2 : (genMarkSubSteps { gs with ctx := (ctxCompleteSubStep gs.ctx s).1 }
          (ctxCompleteSubStep gs.ctx s).2).2.m.fresh := genMarkSubSteps_fresh _ _ hf1
      have hpos2 : pos < (genMarkSubSteps { gs with ctx := (ctxCompleteSubStep gs.ctx s).1 }
          (ctxCompleteSubStep gs.ctx s).2).2.m.nextId := by
        rw [genMarkSubSteps_nextId]; exact hpos1
      have hid2 : (genMarkSubSteps { gs with ctx := (ctxCompleteSubStep gs.ctx s).1 }
          (ctxCompleteSubStep gs.ctx s).2).1.ctx.handleId = pos := by
        rw [genMarkSubSteps_ctx]; exact hid1
      have hty2 : taskTypeOf (genMarkSubSteps { gs with ctx := (ctxCompleteSubStep gs.ctx s).1 }
          (ctxCompleteSubStep gs.ctx s).2).2.m pos = some TaskType.group :=
        genMarkSubSteps_typeOf_group _ _ pos hid1 hty1
      unfold genProcessEvent
      cases hgl : ctxGetSubHandle
          (genMarkSubSteps { gs with ctx := (ctxCompleteSubStep gs.ctx s).1 }
            (ctxCompleteSubStep gs.ctx s).2).1.ctx l with
      | some hdl =>
          simp only [hgl]
          refine ⟨⟨?_, ?_, ?_, ?_⟩, ?_⟩
          · exact updateTask_fresh _ _ _ (fun _ => rfl) hf2
          · show pos < (taskStart _ _).nextId
            rw [taskStart_nextId]; exact hpos2
          · show (ctxSetCurrentSubHandle _ _ _ _).handleId = pos
            exact hid2
          · show taskTypeOf (taskStart _ _) pos = _
            rw [taskTypeOf_taskStart]
            rw [genMarkSubSteps_hasSubSteps]
            simpa using hty2
          · show (genMarkSubSteps _ _).1.hasSubSteps = _
            rw [genMarkSubSteps_hasSubSteps]
            simp [isSubStepEvent]
      | none =>
          simp only [hgl]
          refine ⟨⟨?_, ?_, ?_, ?_⟩, ?_⟩
          · exact updateTask_fresh _ _ _ (fun _ => rfl) (add_fresh _ _ _ hf2)
          · show pos < (taskStart _ _).nextId
            rw [taskStart_nextId, add_nextId]
            omega
          · show (ctxAddSubHandle _ _ _).handleId = pos
            exact hid2
          · show taskTypeOf (taskStart _ _) pos = _
            rw [taskTypeOf_taskStart]
            rw [taskTypeOf_add_old _ _ _ pos (by omega)]
            rw [genMarkSubSteps_hasSubSteps]
            simpa using hty2
          · show (genMarkSubSteps _ _).1.hasSubSteps = _
            rw [genMarkSubSteps_hasSubSteps]
            simp [isSubStepEvent]
  | progress cur tot =>
      refine ⟨⟨?_, ?_, ?_, ?_⟩, ?_⟩
      · show (ctxProgressLive gs.ctx cur tot s).m.fresh
        exact ctxProgressLive_fresh _ _ _ _ hf
      · show pos < (ctxProgressLive gs.ctx cur tot s).m.nextId
        rw [ctxProgressLive_nextId]; exact hpos
      · exact hid
      · show taskTypeOf (ctxProgressLive gs.ctx cur tot s).m pos =
          some (if gs.hasSubSteps then TaskType.group else TaskType.spinner)
        rw [ctxProgressLive_typeOf]; exact hty
      · simp [genProcessEvent, isSubStepEvent]

theorem genLoop_inv (pos : Nat) (events : List (GenEvent × Nat)) (gs : GenSt) (s : EngSt)
    (h : C7Inv pos (gs, s)) :
    C7Inv pos (genLoop gs events s) ∧
    (genLoop gs events s).1.hasSubSteps =
      (gs.hasSubSteps || events.any (fun p => isSubStepEvent p.1)) := by
  induction events generalizing gs s with
  | nil => exact ⟨h, by simp [genLoop]⟩
  | cons ed rest ih =>
      obtain ⟨e, d⟩ := ed
      have hbump : C7Inv pos (gs, { s with now := s.now + d }) := h
      obtain ⟨h1, h2⟩ := genProcessEvent_inv pos gs e { s with now := s.now + d } hbump
      have h1p : C7Inv pos
          ((genProcessEvent gs e { s with now := s.now + d }).1,
           (genProcessEvent gs e { s with now := s.now + d }).2) := h1
      obtain ⟨h3, h4⟩ := ih _ _ h1p
      refine ⟨h3, ?_⟩
      show (genLoop _ rest _).1.hasSubSteps = _
      rw [h4, h2]
      simp [Bool.or_assoc]

/-- C7: for an incremental-producer leaf whose record starts as a
spinner, after any prefix of consumed events the record's type is `group`
exactly when that prefix contains a sub-step event (a batch declaration
or a label); progress-update yields alone never change it, so a
generator yielding only progress updates leaves the type `spinner`
through the entire run, including final completion. -/
theorem C7_spinner_group_flip (V : Type) (ctx : CtxState) (s : EngSt)
    (events : List (GenEvent × Nat)) (hfresh : s.m.fresh)
    (hpos : ctx.handleId < s.m.nextId)
    (hty : taskTypeOf s.m ctx.handleId = some TaskType.spinner) :
    (∀ k, taskTypeOf
        (genLoop { ctx := ctx, hasSubSteps := false, lastInsertedId := ctx.handleId }
          (events.take k) s).2.m ctx.handleId =
        some (if (events.take k).any (fun p => isSubStepEvent p.1)
          then TaskType.group else TaskType.spinner)) ∧
    (∀ (fin : Except Err V) (finDur : Nat),
        taskTypeOf (runGeneratorM ctx events fin finDur s).1.m ctx.handleId =
        some (if events.any (fun p => isSubStepEvent p.1)
          then TaskType.group else TaskType.spinner)) := by
  have hinit : C7Inv ctx.handleId
      ({ ctx := ctx, hasSubSteps := false, lastInsertedId := ctx.handleId }, s) := by
    exact ⟨hfresh, hpos, rfl, by simpa using hty⟩
  constructor
  · intro k
    obtain ⟨⟨_, _, _, h4⟩, h5⟩ := genLoop_inv ctx.handleId (events.take k) _ s hinit
    rw [h4, h5]
    simp only [Bool.false_or]
  · intro fin finDur
    obtain ⟨⟨_, _, _, h4⟩, h5⟩ := genLoop_inv ctx.handleId events _ s hinit
    rw [h5] at h4
    simp only [Bool.false_or] at h4
    unfold runGeneratorM
    cases fin with
    | error e =>
        show taskTypeOf (genLoop _ events s).2.m ctx.handleId = _
        exact h4
    | ok v =>
        show taskTypeOf (taskCompleteTime _ _ _) ctx.handleId = _
        rw [taskTypeOf_taskCompleteTime]
        rw [ctxCompleteSubStep_typeOf]
        show taskTypeOf (genLoop _ events s).2.m ctx.handleId = _
        exact h4

/-- C7 witness: with one registered spinner record and a generator
yielding a single progress update, the record's type is still `spinner`
after the full run. -/
theorem C7_spinner_group_flip_witness :
    taskTypeOf (runGeneratorM (V := Nat) { label := "L", handleId := 0, subIndent := 1 }
      [(GenEvent.progress 1 2, 3)] (Except.ok 5) 2
      { m := (MultiProgress.add {} "L" {}).1, now := 0 }).1.m 0 = some TaskType.spinner := by
  have h := (C7_spinner_group_flip Nat { label := "L", handleId := 0, subIndent := 1 }
      { m := (MultiProgress.add {} "L" {}).1, now := 0 } [(GenEvent.progress 1 2, 3)]
      (by unfold MultiProgress.fresh; decide) (by decide) (by decide)).2 (Except.ok 5) 2
  simpa using h

theorem ctxCompleteSubStep_declared (c : CtxState) (s : EngSt) :
    (ctxCompleteSubStep c s).1.declared = c.declared := by
  unfold ctxCompleteSubStep
  cases c.currentSub with
  | none => rfl
  | some p => rcases p with ⟨a, b⟩; rfl

/-- C2 counterexample: a leaf whose work calls the ambient `sub` twice.
The second sub-step record (id 2) is spliced directly after the parent
(id 0), not after the most recently inserted record of the leaf (id 1),
leaving the final order `[parent, B, A]` — reverse chronological. -/
theorem C2_dynamic_insertion_counterexample :
    ((executeStep 0 0 "Leaf"
        (Work.sync (fun _ => ([AmbientAction.sub "A", AmbientAction.sub "B"],
          Except.ok (0 : Nat))) 1)
        none { m := (MultiProgress.add {} "Leaf" {}).1, now := 0 }).1.m.taskOrder
      = [0, 2, 1]) ∧
    ¬ ((executeStep 0 0 "Leaf"
        (Work.sync (fun _ => ([AmbientAction.sub "A", AmbientAction.sub "B"],
          Except.ok (0 : Nat))) 1)
        none { m := (MultiProgress.add {} "Leaf" {}).1, now := 0 }).1.m.taskOrder.indexOf 2
      = (executeStep 0 0 "Leaf"
        (Work.sync (fun _ => ([AmbientAction.sub "A", AmbientAction.sub "B"],
          Except.ok (0 : Nat))) 1)
        none { m := (MultiProgress.add {} "Leaf" {}).1, now := 0 }).1.m.taskOrder.indexOf 1
        + 1) := by
  decide

/-- C2 (amended): a record created for a label yielded by an
incremental producer (when it was not pre-declared), and a record
created by a batch declaration, are spliced immediately after the most
recently inserted record of that leaf, which becomes the new
most-recently-inserted one; a record created through the Ambient Step
Context's `sub(label)` is instead spliced immediately after the parent
leaf's own record, so successive ambient sub-steps end up directly under
the parent in reverse chronological order. -/
theorem C2_insertion_points :
    (∀ (gs : GenSt) (l : String) (s : EngSt) (l1 l2 : List Nat),
      ctxGetSubHandle gs.ctx l = none →
      s.m.taskOrder = l1 ++ gs.lastInsertedId :: l2 → gs.lastInsertedId ∉ l1 →
      (genProcessEvent gs (.label l) s).2.m.taskOrder
          = l1 ++ gs.lastInsertedId :: s.m.nextId :: l2 ∧
        (genProcessEvent gs (.label l) s).1.lastInsertedId = s.m.nextId) ∧
    (∀ (gs : GenSt) (l : String) (s : EngSt) (l1 l2 : List Nat),
      s.m.taskOrder = l1 ++ gs.lastInsertedId :: l2 → gs.lastInsertedId ∉ l1 →
      (genProcessEvent gs (.declare [l]) s).2.m.taskOrder
          = l1 ++ gs.lastInsertedId :: s.m.nextId :: l2 ∧
        (genProcessEvent gs (.declare [l]) s).1.lastInsertedId = s.m.nextId) ∧
    (∀ (c : CtxState) (l : String) (s : EngSt) (l1 l2 : List Nat),
      s.m.taskOrder = l1 ++ c.handleId :: l2 → c.handleId ∉ l1 →
      (ctxSubLive c l s).2.m.taskOrder = l1 ++ c.handleId :: s.m.nextId :: l2) := by
  refine ⟨?_, ?_, ?_⟩
  · intro gs l s l1 l2 hnone horder hnm
    have hnone2 : ctxGetSubHandle
        (genMarkSubSteps { gs with ctx := (ctxCompleteSubStep gs.ctx s).1 }
          (ctxCompleteSubStep gs.ctx s).2).1.ctx l = none := by
      rw [genMarkSubSteps_ctx]
      show lookupA (ctxCompleteSubStep gs.ctx s).1.declared l = none
      rw [ctxCompleteSubStep_declared]
      exact hnone
    unfold genProcessEvent
    simp only [hnone2]
    constructor
    · show (taskStart _ _).taskOrder = _
      rw [taskStart_taskOrder]
      rw [add_taskOrder]
      show spliceAfter _ _ _ = _
      rw [genMarkSubSteps_taskOrder, genMarkSubSteps_nextId,
        ctxCompleteSubStep_taskOrder, ctxCompleteSubStep_nextId,
        genMarkSubSteps_lastInsertedId]
      show spliceAfter s.m.taskOrder gs.lastInsertedId s.m.nextId = _
      rw [horder]
      exact spliceAfter_split l1 l2 _ _ hnm
    · show (genMarkSubSteps { gs with ctx := (ctxCompleteSubStep gs.ctx s).1 }
          (ctxCompleteSubStep gs.ctx s).2).2.m.nextId = s.m.nextId
      rw [genMarkSubSteps_nextId, ctxCompleteSubStep_nextId]
  · intro gs l s l1 l2 horder hnm
    unfold genProcessEvent
    constructor
    · show (declareStep (genMarkSubSteps gs s) l).2.m.taskOrder = _
      unfold declareStep
      show ((genMarkSubSteps gs s).2.m.add l _).1.taskOrder = _
      rw [add_taskOrder]
      show spliceAfter _ _ _ = _
      rw [genMarkSubSteps_taskOrder, genMarkSubSteps_nextId,
        genMarkSubSteps_lastInsertedId]
      rw [horder]
      exact spliceAfter_split l1 l2 _ _ hnm
    · show (declareStep (genMarkSubSteps gs s) l).1.lastInsertedId = s.m.nextId
      unfold declareStep
      show (genMarkSubSteps gs s).2.m.nextId = s.m.nextId
      rw [genMarkSubSteps_nextId]
  · intro c l s l1 l2 horder hnm
    rw [ctxSubLive_taskOrder, horder]
    exact spliceAfter_split l1 l2 _ _ hnm

/-- C2 witness: concrete registries for each insertion point — a fresh
generator label lands after the last inserted record (`[0, 1, 2]`), an
ambient sub-step lands after the parent (`[0, 2, 1]`). -/
theorem C2_insertion_points_witness :
    (genProcessEvent
        { ctx := { label := "L", handleId := 0, subIndent := 1 }, hasSubSteps := true,
          lastInsertedId := 1 }
        (GenEvent.label "X")
        { m := { taskOrder := [0, 1], nextId := 2 }, now := 0 }).2.m.taskOrder = [0, 1, 2] ∧
    (ctxSubLive { label := "L", handleId := 0, subIndent := 1 } "Y"
        { m := { taskOrder := [0, 1], nextId := 2 }, now := 0 }).2.m.taskOrder = [0, 2, 1] := by
  constructor
  · exact (C2_insertion_points.1
      { ctx := { label := "L", handleId := 0, subIndent := 1 }, hasSubSteps := true,
        lastInsertedId := 1 }
      "X" { m := { taskOrder := [0, 1], nextId := 2 }, now := 0 } [0] []
      rfl rfl (by simp)).1
  · exact C2_insertion_points.2.2
      { label := "L", handleId := 0, subIndent := 1 } "Y"
      { m := { taskOrder := [0, 1], nextId := 2 }, now := 0 } [] [1]
      rfl (by simp)

/-! ## Step tree model and the declarative engine (progress/declarative.ts)

The step-tree module (`step-node.ts`: `parseStepsDef`, `flattenStepNodes`,
`getLeafNodes`) is not present in the repository sources, only its tests
and callers are, so the tree data and its flattening are modelled from
the spec. -/

/-- Modelled from the spec: `StepNode` of the missing step-node.ts — a
node is a leaf (key, label, indent, work item) or a group (key, label,
indent, ordered children); `parseStepsDef` assigns indents (root 0,
children parent + 1) and labels. -/
inductive StepNode (V : Type) where
  | leaf (key label : String) (indent : Nat) (work : Work V)
  | group (key label : String) (indent : Nat) (children : List (StepNode V))

/-- One node of the flattened, depth-first node list the engine iterates:
group entries keep the positions of their leaf descendants (the
`groupLeaves` map the engine builds with `getLeafNodes`). -/
structure FlatEntry (V : Type) where
  key : String
  label : String
  indent : Nat
  isGroup : Bool
  work : Option (Work V)
  leafPos : List Nat

/-- Modelled from the spec: the depth-first flattening
(`flattenStepNodes`, parent before children) with positions assigned in
flat order, together with the leaf-descendant positions of every subtree
(`getLeafNodes`).  Returns (entries, leaf positions of these trees, next
free position). -/
def annotateNodes {V : Type} : List (StepNode V) → Nat → List (FlatEntry V) × List Nat × Nat
  | [], p => ([], [], p)
  | .leaf k l i w :: rest, p =>
      let r := annotateNodes rest (p + 1)
      (⟨k, l, i, false, some w, [p]⟩ :: r.1, p :: r.2.1, r.2.2)
  | .group k l i cs :: rest, p =>
      let rc := annotateNodes cs (p + 1)
      let rr := annotateNodes rest rc.2.2
      (⟨k, l, i, true, none, rc.2.1⟩ :: (rc.1 ++ rr.1), rc.2.1 ++ rr.2.1, rr.2.2)

/-- The flattened entry list for a declaration. -/
def stepsEntries {V : Type} (roots : List (StepNode V)) : List (FlatEntry V) :=
  (annotateNodes roots 0).1

/-- `leafToGroups`: positions of the group entries whose leaf set
contains the given leaf position. -/
def leafGroups {V : Type} (entries : List (FlatEntry V)) (pos : Nat) : List Nat :=
  (entries.enum.filter (fun pe => pe.2.isGroup && pe.2.leafPos.contains pos)).map
    (fun pe => pe.1)

/-- `groupLeaves.get(group) ?? []`. -/
def groupLeafPos {V : Type} (entries : List (FlatEntry V)) (g : Nat) : List Nat :=
  (entries[g]?.map (fun en => en.leafPos)).getD []

/-- Nat-keyed assoc lookup (the `groupStartTimes` map). -/
def lookupN (l : List (Nat × Nat)) (k : Nat) : Option Nat :=
  (l.find? (fun kv => kv.1 == k)).map (fun kv => kv.2)

/-- The per-run mutable state of `run`/`pipe`: the registry and clock,
the group start times, the completed-leaf set, the collected results
(`run`) and the threaded previous result (`pipe`). -/
structure RunSt (V : Type) where
  s : EngSt
  groupStart : List (Nat × Nat)
  completed : List Nat
  results : List (String × V)
  prev : Option V

/-- Start the not-yet-started ancestor groups of a leaf, recording their
start times (`groupStartTimes.set` + `handles.get(group)?.start()`). -/
def startGroups {V : Type} (entries : List (FlatEntry V)) (pos : Nat) (st : RunSt V) :
    RunSt V :=
  (leafGroups entries pos).foldl
    (fun st g =>
      if (lookupN st.groupStart g).isSome then st
      else { st with groupStart := st.groupStart ++ [(g, st.s.now)],
                     s := { st.s with m := taskStart st.s.m g } }) st

/-- After a leaf completes: add it to `completedLeaves`, then complete
every ancestor group whose leaves are now all completed, with elapsed
time measured from the group's recorded start. -/
def finishGroups {V : Type} (entries : List (FlatEntry V)) (pos : Nat) (st : RunSt V) :
    RunSt V :=
  let st1 := { st with completed := st.completed ++ [pos] }
  (leafGroups entries pos).foldl
    (fun st g =>
      if (groupLeafPos entries g).all (fun l => st.completed.contains l) then
        { st with s := { st.s with
            m := taskCompleteTime st.s.m g (st.s.now - (lookupN st.groupStart g).getD 0) } }
      else st) st1

/-- The `run()` loop over the flattened node list: skip groups, and for
each leaf start its groups, execute it with no input, store its result
under its key, and run group-completion tracking; an error aborts the
loop immediately. -/
def runLoop {V : Type} (entries : List (FlatEntry V)) :
    List (Nat × FlatEntry V) → RunSt V → RunSt V × Option Err
  | [], st => (st, none)
  | (pos, en) :: rest, st =>
      match en.work with
      | none => runLoop entries rest st
      | some w =>
          let st1 := startGroups entries pos st
          let ex := executeStep pos en.indent en.label w none st1.s
          match ex.2 with
          | .error e => ({ st1 with s := ex.1 }, some e)
          | .ok v =>
              runLoop entries rest
                (finishGroups entries pos
                  { st1 with s := ex.1, results := setA st1.results en.key v })

/-- The `pipe()` loop: identical except each leaf receives the previous
leaf's result as its sole input and only the last result is kept. -/
def pipeLoop {V : Type} (entries : List (FlatEntry V)) :
    List (Nat × FlatEntry V) → RunSt V → RunSt V × Option Err
  | [], st => (st, none)
  | (pos, en) :: rest, st =>
      match en.work with
      | none => pipeLoop entries rest st
      | some w =>
          let st1 := startGroups entries pos st
          let ex := executeStep pos en.indent en.label w st1.prev st1.s
          match ex.2 with
          | .error e => ({ st1 with s := ex.1 }, some e)
          | .ok v =>
              pipeLoop entries rest
                (finishGroups entries pos { st1 with s := ex.1, prev := some v })

/-- `registerAllSteps`: register every node upfront as a pending record
(groups as `type: "group"`, leaves as spinners), in flat order and
without `insertAfter`. -/
def registerAll {V : Type} (entries : List (FlatEntry V)) (m : MultiProgress) :
    MultiProgress :=
  entries.foldl
    (fun m en =>
      (m.add en.label
        { type := if en.isGroup then .group else .spinner, indent := en.indent }).1) m

/-- Initial run state over a freshly constructed and started registry. -/
def initRunSt {V : Type} (entries : List (FlatEntry V)) : RunSt V :=
  { s := { m := (registerAll entries {}).start, now := 0 },
    groupStart := [], completed := [], results := [], prev := none }

/-- `StepsRunner.run(options)`: register, start, execute every leaf in
flattened order collecting results by key, and stop the renderer in a
`finally`; an error is re-raised after teardown, with no result object. -/
def runDecl {V : Type} (roots : List (StepNode V)) (clear : Bool) :
    Except Err (List (String × V)) × MultiProgress :=
  let entries := stepsEntries roots
  let r := runLoop entries entries.enum (initRunSt entries)
  let mfin := r.1.s.m.stop clear
  match r.2 with
  | some e => (.error e, mfin)
  | none => (.ok r.1.results, mfin)

/-- `StepsRunner.pipe(options)`: like `run` but threading each result
into the next leaf and resolving to the final leaf's result
(`undefined`, i.e. `none`, when there are no leaves). -/
def pipeDecl {V : Type} (roots : List (StepNode V)) (clear : Bool) :
    Except Err (Option V) × MultiProgress :=
  let entries := stepsEntries roots
  let r := pipeLoop entries entries.enum (initRunSt entries)
  let mfin := r.1.s.m.stop clear
  match r.2 with
  | some e => (.error e, mfin)
  | none => (.ok r.1.prev, mfin)

/-! ## Value-level behaviour of executeStep and the two run modes -/

/-- The value a work item resolves to (or the error it throws), read off
without running the display machinery. -/
def evalWorkValue {V : Type} (w : Work V) (input : Option V) : Except Err V :=
  match w with
  | .sync f _ => (f input).2
  | .deferred f _ => (f input).2
  | .incremental f => (f input).2.1

theorem executeStep_snd {V : Type} (pos indent : Nat) (label : String) (w : Work V)
    (input : Option V) (s : EngSt) :
    (executeStep pos indent label w input s).2 = evalWorkValue w input := by
  cases w with
  | sync f dur =>
      unfold executeStep runPlainWork evalWorkValue
      cases h : (f input).2 <;> simp [h]
  | deferred f dur =>
      unfold executeStep runPlainWork evalWorkValue
      cases h : (f input).2 <;> simp [h]
  | incremental f =>
      unfold executeStep runGeneratorM evalWorkValue
      cases h : (f input).2.1 <;> simp [h]

theorem foldl_proj_const {α β γ : Type} (f : β → α → β) (q : β → γ)
    (hf : ∀ b a, q (f b a) = q b) (l : List α) (b : β) :
    q (l.foldl f b) = q b := by
  induction l generalizing b with
  | nil => rfl
  | cons x xs ih => rw [List.foldl_cons, ih, hf]

theorem startGroups_prev {V : Type} (entries : List (FlatEntry V)) (pos : Nat)
    (st : RunSt V) : (startGroups entries pos st).prev = st.prev := by
  unfold startGroups
  apply foldl_proj_const
  intro b a
  dsimp only
  split <;> rfl

theorem startGroups_results {V : Type} (entries : List (FlatEntry V)) (pos : Nat)
    (st : RunSt V) : (startGroups entries pos st).results = st.results := by
  unfold startGroups
  apply foldl_proj_const
  intro b a
  dsimp only
  split <;> rfl

theorem startGroups_completed {V : Type} (entries : List (FlatEntry V)) (pos : Nat)
    (st : RunSt V) : (startGroups entries pos st).completed = st.completed := by
  unfold startGroups
  apply foldl_proj_const
  intro b a
  dsimp only
  split <;> rfl

theorem startGroups_now {V : Type} (entries : List (FlatEntry V)) (pos : Nat)
    (st : RunSt V) : (startGroups entries pos st).s.now = st.s.now := by
  unfold startGroups
  apply foldl_proj_const (q := fun (st : RunSt V) => st.s.now)
  intro b a
  dsimp only
  split <;> rfl

theorem finishGroups_prev {V : Type} (entries : List (FlatEntry V)) (pos : Nat)
    (st : RunSt V) : (finishGroups entries pos st).prev = st.prev := by
  unfold finishGroups
  apply foldl_proj_const
  intro b a
  dsimp only
  split <;> rfl

theorem finishGroups_results {V : Type} (entries : List (FlatEntry V)) (pos : Nat)
    (st : RunSt V) : (finishGroups entries pos st).results = st.results := by
  unfold finishGroups
  apply foldl_proj_const
  intro b a
  dsimp only
  split <;> rfl

theorem finishGroups_completed {V : Type} (entries : List (FlatEntry V)) (pos : Nat)
    (st : RunSt V) : (finishGroups entries pos st).completed = st.completed ++ [pos] := by
  unfold finishGroups
  have := foldl_proj_const (l := leafGroups entries pos)
    (b := { st with completed := st.completed ++ [pos] })
    (f := fun (st : RunSt V) g =>
      if (groupLeafPos entries g).all (fun l => st.completed.contains l) then
        { st with s := { st.s with
            m := taskCompleteTime st.s.m g (st.s.now - (lookupN st.groupStart g).getD 0) } }
      else st)
    (q := RunSt.completed)
    (fun b a => by dsimp only; split <;> rfl)
  exact this

theorem finishGroups_now {V : Type} (entries : List (FlatEntry V)) (pos : Nat)
    (st : RunSt V) : (finishGroups entries pos st).s.now = st.s.now := by
  unfold finishGroups
  apply foldl_proj_const (q := fun (st : RunSt V) => st.s.now)
  intro b a
  dsimp only
  split <;> rfl

theorem finishGroups_groupStart {V : Type} (entries : List (FlatEntry V)) (pos : Nat)
    (st : RunSt V) : (finishGroups entries pos st).groupStart = st.groupStart := by
  unfold finishGroups
  apply foldl_proj_const
  intro b a
  dsimp only
  split <;> rfl

/-- The work items of the enumerated entries, in order. -/
def worksOfE {V : Type} (l : List (Nat × FlatEntry V)) : List (Work V) :=
  l.filterMap (fun pe => pe.2.work)

/-- Modelled from the spec: pipe "threads each leaf's result as the sole
input argument to the next leaf's work item (the first leaf receives no
input), discarding intermediate keys and returning only the final
value"; a failure aborts with that error. -/
def pipeSpec {V : Type} : List (Work V) → Option V → Except Err (Option V)
  | [], prev => .ok prev
  | w :: rest, prev =>
      match evalWorkValue w prev with
      | .error e => .error e
      | .ok v => pipeSpec rest (some v)

theorem pipeLoop_spec {V : Type} (entries : List (FlatEntry V))
    (l : List (Nat × FlatEntry V)) (st : RunSt V) :
    (∀ e, pipeSpec (worksOfE l) st.prev = .error e → (pipeLoop entries l st).2 = some e) ∧
    (∀ p, pipeSpec (worksOfE l) st.prev = .ok p →
      (pipeLoop entries l st).2 = none ∧ (pipeLoop entries l st).1.prev = p) := by
  induction l generalizing st with
  | nil =>
      constructor
      · intro e he
        exact absurd he (by simp [worksOfE, pipeSpec])
      · intro p hp
        have hps : p = st.prev := by
          simp [worksOfE, pipeSpec] at hp
          exact hp.symm
        subst hps
        exact ⟨rfl, rfl⟩
  | cons pe rest ih =>
      obtain ⟨pos, en⟩ := pe
      cases hw : en.work with
      | none =>
          have hwe : worksOfE ((pos, en) :: rest) = worksOfE rest := by
            simp [worksOfE, List.filterMap_cons, hw]
          rw [hwe]
          have hloop : pipeLoop entries ((pos, en) :: rest) st = pipeLoop entries rest st := by
            simp only [pipeLoop, hw]
          rw [hloop]
          exact ih st
      | some w =>
          have hwe : worksOfE ((pos, en) :: rest) = w :: worksOfE rest := by
            simp [worksOfE, List.filterMap_cons, hw]
          rw [hwe]
          have hex : (executeStep pos en.indent en.label w
              (startGroups entries pos st).prev (startGroups entries pos st).s).2
              = evalWorkValue w st.prev := by
            rw [executeStep_snd, startGroups_prev]
          cases hv : evalWorkValue w st.prev with
          | error e0 =>
              rw [hv] at hex
              have hloop : pipeLoop entries ((pos, en) :: rest) st =
                  ({ startGroups entries pos st with
                      s := (executeStep pos en.indent en.label w
                        (startGroups entries pos st).prev (startGroups entries pos st).s).1 },
                   some e0) := by
                simp only [pipeLoop, hw, hex]
              constructor
              · intro e he
                simp only [pipeSpec, hv] at he
                rw [hloop]
                injection he with he1
                rw [he1]
              · intro p hp
                simp only [pipeSpec, hv] at hp
                exact absurd hp (by simp)
          | ok v =>
              rw [hv] at hex
              have hloop : pipeLoop entries ((pos, en) :: rest) st =
                  pipeLoop entries rest
                    (finishGroups entries pos
                      { startGroups entries pos st with
                        s := (executeStep pos en.indent en.label w
                          (startGroups entries pos st).prev
                          (startGroups entries pos st).s).1,
                        prev := some v }) := by
                simp only [pipeLoop, hw, hex]
              rw [hloop]
              have ih2 := ih (finishGroups entries pos
                { startGroups entries pos st with
                  s := (executeStep pos en.indent en.label w
                    (startGroups entries pos st).prev
                    (startGroups entries pos st).s).1,
                  prev := some v })
              rw [finishGroups_prev] at ih2
              constructor
              · intro e he
                simp only [pipeSpec, hv] at he
                exact ih2.1 e he
              · intro p hp
                simp only [pipeSpec, hv] at hp
                exact ih2.2 p hp

/-- The work items of an entry list, in order. -/
def worksOf {V : Type} (entries : List (FlatEntry V)) : List (Work V) :=
  entries.filterMap (fun en => en.work)

theorem worksOfE_enumFrom {V : Type} (entries : List (FlatEntry V)) (n : Nat) :
    worksOfE (entries.enumFrom n) = worksOf entries := by
  induction entries generalizing n with
  | nil => rfl
  | cons en rest ih =>
      show worksOfE ((n, en) :: rest.enumFrom (n + 1)) = _
      unfold worksOfE worksOf
      rw [List.filterMap_cons, List.filterMap_cons]
      cases hw : en.work with
      | none => exact ih (n + 1)
      | some w =>
          have := ih (n + 1)
          unfold worksOfE worksOf at this
          rw [this]

/-- The declared leaves' work items, in depth-first declaration order. -/
def treeLeafWorks {V : Type} : List (StepNode V) → List (Work V)
  | [] => []
  | .leaf _ _ _ w :: rest => w :: treeLeafWorks rest
  | .group _ _ _ cs :: rest => treeLeafWorks cs ++ treeLeafWorks rest

theorem annotate_works {V : Type} : ∀ (nodes : List (StepNode V)) (p : Nat),
    worksOf (annotateNodes nodes p).1 = treeLeafWorks nodes
  | [], p => by simp [annotateNodes, worksOf, treeLeafWorks]
  | .leaf k l i w :: rest, p => by
      have ih := annotate_works rest (p + 1)
      simp only [annotateNodes, treeLeafWorks]
      unfold worksOf at ih ⊢
      rw [List.filterMap_cons]
      simpa using ih
  | .group k l i cs :: rest, p => by
      have ih1 := annotate_works cs (p + 1)
      have ih2 := annotate_works rest (annotateNodes cs (p + 1)).2.2
      simp only [annotateNodes, treeLeafWorks]
      unfold worksOf at ih1 ih2 ⊢
      rw [List.filterMap_cons, List.filterMap_append]
      simp [ih1, ih2]

theorem stepsEntries_works {V : Type} (roots : List (StepNode V)) :
    worksOfE (stepsEntries roots).enum = treeLeafWorks roots := by
  show worksOfE ((stepsEntries roots).enumFrom 0) = _
  rw [worksOfE_enumFrom]
  exact annotate_works roots 0

theorem pipeDecl_eq_pipeSpec {V : Type} (roots : List (StepNode V)) (clear : Bool) :
    (pipeDecl roots clear).1 = pipeSpec (treeLeafWorks roots) none := by
  have hps := pipeLoop_spec (stepsEntries roots) (stepsEntries roots).enum
    (initRunSt (V := V) (stepsEntries roots))
  have hprev : (initRunSt (V := V) (stepsEntries roots)).prev = none := rfl
  rw [hprev, stepsEntries_works] at hps
  unfold pipeDecl
  cases hp : pipeSpec (treeLeafWorks roots) none with
  | error e =>
      have h1 := hps.1 e hp
      simp only [h1]
  | ok p =>
      obtain ⟨h1, h2⟩ := hps.2 p hp
      simp only [h1, h2]

/-- C4: `pipe()` invokes the first leaf's work item with no input, gives
each subsequent leaf's work item exactly the previous leaf's resolved
result as its sole argument, and resolves to the final leaf's result —
it agrees with the direct left-to-right threading fold over the declared
leaves' work items; concretely, leaves a→10, b: x↦x*2, c: x↦x+5 pipe
to 25. -/
theorem C4_pipe_threading (V : Type) (roots : List (StepNode V)) (clear : Bool) :
    (pipeDecl roots clear).1 = pipeSpec (treeLeafWorks roots) none ∧
    (pipeDecl
        [StepNode.leaf "a" "A" 0 (Work.sync (fun _ => ([], Except.ok (10 : Int))) 1),
         StepNode.leaf "b" "B" 0
           (Work.sync (fun x => ([], Except.ok (x.getD 0 * 2))) 1),
         StepNode.leaf "c" "C" 0
           (Work.sync (fun x => ([], Except.ok (x.getD 0 + 5))) 1)] false).1
      = Except.ok (some 25) := by
  constructor
  · exact pipeDecl_eq_pipeSpec roots clear
  · rw [pipeDecl_eq_pipeSpec]
    simp only [treeLeafWorks]
    rfl

/-- Leaf keys with their work items, from the enumerated entries. -/
def keyedWorksOfE {V : Type} (l : List (Nat × FlatEntry V)) : List (String × Work V) :=
  l.filterMap (fun pe => pe.2.work.map (fun w => (pe.2.key, w)))

/-- Leaf keys with their work items, from an entry list. -/
def keyedWorksOf {V : Type} (entries : List (FlatEntry V)) : List (String × Work V) :=
  entries.filterMap (fun en => en.work.map (fun w => (en.key, w)))

/-- Modelled from the spec: run "collects each leaf's result keyed by
its declared key into a flat mapping", writing each result by JS
object-property assignment (overwrite in place, or append when new);
a failure aborts with that error. -/
def runSpec {V : Type} :
    List (String × Work V) → List (String × V) → Except Err (List (String × V))
  | [], acc => .ok acc
  | (k, w) :: rest, acc =>
      match evalWorkValue w none with
      | .error e => .error e
      | .ok v => runSpec rest (setA acc k v)

theorem runLoop_results {V : Type} (entries : List (FlatEntry V))
    (l : List (Nat × FlatEntry V)) (st : RunSt V) :
    (∀ e, runSpec (keyedWorksOfE l) st.results = .error e →
      (runLoop entries l st).2 = some e) ∧
    (∀ res, runSpec (keyedWorksOfE l) st.results = .ok res →
      (runLoop entries l st).2 = none ∧ (runLoop entries l st).1.results = res) := by
  induction l generalizing st with
  | nil =>
      constructor
      · intro e he
        exact absurd he (by simp [keyedWorksOfE, runSpec])
      · intro res hres
        have hr : res = st.results := by
          simp [keyedWorksOfE, runSpec] at hres
          exact hres.symm
        subst hr
        exact ⟨rfl, rfl⟩
  | cons pe rest ih =>
      obtain ⟨pos, en⟩ := pe
      cases hw : en.work with
      | none =>
          have hwe : keyedWorksOfE ((pos, en) :: rest) = keyedWorksOfE rest := by
            simp [keyedWorksOfE, List.filterMap_cons, hw]
          rw [hwe]
          have hloop : runLoop entries ((pos, en) :: rest) st = runLoop entries rest st := by
            simp only [runLoop, hw]
          rw [hloop]
          exact ih st
      | some w =>
          have hwe : keyedWorksOfE ((pos, en) :: rest)
              = (en.key, w) :: keyedWorksOfE rest := by
            simp [keyedWorksOfE, List.filterMap_cons, hw]
          rw [hwe]
          have hex : (executeStep pos en.indent en.label w none
              (startGroups entries pos st).s).2 = evalWorkValue w none := by
            rw [executeStep_snd]
          cases hv : evalWorkValue w none with
          | error e0 =>
              rw [hv] at hex
              have hloop : runLoop entries ((pos, en) :: rest) st =
                  ({ startGroups entries pos st with
                      s := (executeStep pos en.indent en.label w none
                        (startGroups entries pos st).s).1 },
                   some e0) := by
                simp only [runLoop, hw, hex]
              constructor
              · intro e he
                simp only [runSpec, hv] at he
                rw [hloop]
                injection he with he1
                rw [he1]
              · intro res hres
                simp only [runSpec, hv] at hres
                exact absurd hres (by simp)
          | ok v =>
              rw [hv] at hex
              have hloop : runLoop entries ((pos, en) :: rest) st =
                  runLoop entries rest
                    (finishGroups entries pos
                      { startGroups entries pos st with
                        s := (executeStep pos en.indent en.label w none
                          (startGroups entries pos st).s).1,
                        results := setA (startGroups entries pos st).results en.key v }) := by
                simp only [runLoop, hw, hex]
              rw [hloop]
              have ih2 := ih (finishGroups entries pos
                { startGroups entries pos st with
                  s := (executeStep pos en.indent en.label w none
                    (startGroups entries pos st).s).1,
                  results := setA (startGroups entries pos st).results en.key v })
              rw [finishGroups_results] at ih2
              have hres2 : ({ startGroups entries pos st with
                  s := (executeStep pos en.indent en.label w none
                    (startGroups entries pos st).s).1,
                  results := setA (startGroups entries pos st).results en.key v }
                    : RunSt V).results
                  = setA st.results en.key v := by
                show setA (startGroups entries pos st).results en.key v = _
                rw [startGroups_results]
              rw [hres2] at ih2
              constructor
              · intro e he
                simp only [runSpec, hv] at he
                exact ih2.1 e he
              · intro res hres
                simp only [runSpec, hv] at hres
                exact ih2.2 res hres

theorem keyedWorksOfE_enumFrom {V : Type} (entries : List (FlatEntry V)) (n : Nat) :
    keyedWorksOfE (entries.enumFrom n) = keyedWorksOf entries := by
  induction entries generalizing n with
  | nil => rfl
  | cons en rest ih =>
      show keyedWorksOfE ((n, en) :: rest.enumFrom (n + 1)) = _
      unfold keyedWorksOfE keyedWorksOf
      rw [List.filterMap_cons, List.filterMap_cons]
      cases hw : en.work with
      | none => exact ih (n + 1)
      | some w =>
          have := ih (n + 1)
          unfold keyedWorksOfE keyedWorksOf at this
          simp only [Option.map_some]
          rw [this]

/-- The declared leaf keys paired with their work items, in depth-first
declaration order. -/
def treeKeyedWorks {V : Type} : List (StepNode V) → List (String × Work V)
  | [] => []
  | .leaf k _ _ w :: rest => (k, w) :: treeKeyedWorks rest
  | .group _ _ _ cs :: rest => treeKeyedWorks cs ++ treeKeyedWorks rest

theorem annotate_keyedWorks {V : Type} : ∀ (nodes : List (StepNode V)) (p : Nat),
    keyedWorksOf (annotateNodes nodes p).1 = treeKeyedWorks nodes
  | [], p => by simp [annotateNodes, keyedWorksOf, treeKeyedWorks]
  | .leaf k l i w :: rest, p => by
      have ih := annotate_keyedWorks rest (p + 1)
      simp only [annotateNodes, treeKeyedWorks]
      unfold keyedWorksOf at ih ⊢
      rw [List.filterMap_cons]
      simpa using ih
  | .group k l i cs :: rest, p => by
      have ih1 := annotate_keyedWorks cs (p + 1)
      have ih2 := annotate_keyedWorks rest (annotateNodes cs (p + 1)).2.2
      simp only [annotateNodes, treeKeyedWorks]
      unfold keyedWorksOf at ih1 ih2 ⊢
      rw [List.filterMap_cons, List.filterMap_append]
      simp [ih1, ih2]

theorem stepsEntries_keyedWorks {V : Type} (roots : List (StepNode V)) :
    keyedWorksOfE (stepsEntries roots).enum = treeKeyedWorks roots := by
  show keyedWorksOfE ((stepsEntries roots).enumFrom 0) = _
  rw [keyedWorksOfE_enumFrom]
  exact annotate_keyedWorks roots 0

theorem runDecl_eq_runSpec {V : Type} (roots : List (StepNode V)) (clear : Bool) :
    (runDecl roots clear).1 = runSpec (treeKeyedWorks roots) [] := by
  have hrs := runLoop_results (stepsEntries roots) (stepsEntries roots).enum
    (initRunSt (V := V) (stepsEntries roots))
  have hres : (initRunSt (V := V) (stepsEntries roots)).results = [] := rfl
  rw [hres, stepsEntries_keyedWorks] at hrs
  unfold runDecl
  cases hp : runSpec (treeKeyedWorks roots) [] with
  | error e =>
      have h1 := hrs.1 e hp
      simp only [h1]
  | ok res =>
      obtain ⟨h1, h2⟩ := hrs.2 res hp
      simp only [h1, h2]

theorem setA_not_mem {A : Type} (acc : List (String × A)) (k : String) (v : A)
    (h : k ∉ acc.map Prod.fst) : setA acc k v = acc ++ [(k, v)] := by
  induction acc with
  | nil => rfl
  | cons kv rest ih =>
      obtain ⟨k0, v0⟩ := kv
      have hk0 : k0 ≠ k := by
        intro hcon
        exact h (by simp [hcon])
      have hrest : k ∉ rest.map Prod.fst := fun hmem => h (by simp [hmem])
      simp [setA, hk0, ih hrest]

theorem runSpec_clean {V : Type} (kws : List (String × Work V)) (vals : List (String × V))
    (acc : List (String × V))
    (hvals : kws.map (fun kw => (kw.1, evalWorkValue kw.2 none)) =
      vals.map (fun kv => (kv.1, Except.ok kv.2)))
    (hnodup : ((acc ++ vals).map Prod.fst).Nodup) :
    runSpec kws acc = .ok (acc ++ vals) := by
  induction kws generalizing vals acc with
  | nil =>
      have hv : vals = [] := by
        cases vals with
        | nil => rfl
        | cons x xs => exact absurd hvals (by simp)
      subst hv
      simp [runSpec]
  | cons kw rest ih =>
      obtain ⟨k, w⟩ := kw
      cases vals with
      | nil => exact absurd hvals (by simp)
      | cons kv1 vals1 =>
          obtain ⟨k1, v1⟩ := kv1
          have hk : k = k1 ∧ evalWorkValue w none = Except.ok v1 ∧
              rest.map (fun kw => (kw.1, evalWorkValue kw.2 none)) =
                vals1.map (fun kv => (kv.1, Except.ok kv.2)) := by
            simp only [List.map_cons, List.cons.injEq, Prod.mk.injEq] at hvals
            exact ⟨hvals.1.1, hvals.1.2, hvals.2⟩
          obtain ⟨hk1, hval, hmap⟩ := hk
          subst hk1
          show (match evalWorkValue w none with
            | .error e => Except.error e
            | .ok v => runSpec rest (setA acc k v)) = _
          rw [hval]
          show runSpec rest (setA acc k v1) = _
          have hknotin : k ∉ acc.map Prod.fst := by
            intro hcon
            rw [List.map_append, List.map_cons] at hnodup
            have hdisj := (List.nodup_append.1 hnodup).2.2
            exact hdisj hcon (by simp)
          rw [setA_not_mem acc k v1 hknotin]
          have hnodup2 : (((acc ++ [(k, v1)]) ++ vals1).map Prod.fst).Nodup := by
        
            have : (acc ++ [(k, v1)]) ++ vals1 = acc ++ (k, v1) :: vals1 := by
              simp
            rw [this]
            exact hnodup
          have := ih vals1 (acc ++ [(k, v1)]) hmap hnodup2
          rw [this]
          have : (acc ++ [(k, v1)]) ++ vals1 = acc ++ (k, v1) :: vals1 := by
            simp
          rw [this]

/-- C5 counterexample: two sibling groups each declaring a leaf keyed
"a" (legal — keys are only unique within siblings).  `setNestedResult`
writes flat keys, so the later leaf's value 2 overwrites the earlier
leaf's value 1: the returned mapping does not bind the first leaf's key
to that leaf's result. -/
theorem C5_duplicate_keys_counterexample :
    ((runDecl [StepNode.group "g1" "G1" 0
        [StepNode.leaf "a" "A" 1 (Work.sync (fun _ => ([], Except.ok (1 : Int))) 1)],
      StepNode.group "g2" "G2" 0
        [StepNode.leaf "a" "A" 1 (Work.sync (fun _ => ([], Except.ok (2 : Int))) 1)]]
      false).1 = Except.ok [("a", 2)]) ∧
    ¬ (∃ res, (runDecl [StepNode.group "g1" "G1" 0
        [StepNode.leaf "a" "A" 1 (Work.sync (fun _ => ([], Except.ok (1 : Int))) 1)],
      StepNode.group "g2" "G2" 0
        [StepNode.leaf "a" "A" 1 (Work.sync (fun _ => ([], Except.ok (2 : Int))) 1)]]
      false).1 = Except.ok res ∧ lookupA res "a" = some 1) := by
  have h1 : (runDecl [StepNode.group "g1" "G1" 0
       [StepNode.leaf "a" "A" 1 (Work.sync (fun _ => ([], Except.ok (1 : Int))) 1)],
      StepNode.group "g2" "G2" 0
        [StepNode.leaf "a" "A" 1 (Work.sync (fun _ => ([], Except.ok (2 : Int))) 1)]]
      false).1 = Except.ok [("a", 2)] := by
    rw [runDecl_eq_runSpec]
    simp only [treeKeyedWorks]
    rfl
  refine ⟨h1, ?_⟩
  rintro ⟨res, hres, hlook⟩
  rw [h1] at hres
  injection hres with h2
  rw [← h2] at hlook
  simp [lookupA, List.find?] at hlook

/-- C5 (amended): provided the declared leaf keys are pairwise distinct
across the whole declaration, `run()` resolves to the mapping whose keys
are exactly the declared leaf keys in declaration order, each bound to
that leaf's resolved value (for all three work-item variants); with
duplicate keys the later leaf's result overwrites the earlier one's. -/
theorem C5_run_results (V : Type) (roots : List (StepNode V)) (clear : Bool)
    (vals : List (String × V))
    (hvals : (treeKeyedWorks roots).map (fun kw => (kw.1, evalWorkValue kw.2 none)) =
      vals.map (fun kv => (kv.1, Except.ok kv.2)))
    (hnodup : (vals.map Prod.fst).Nodup) :
    (runDecl roots clear).1 = .ok vals := by
  rw [runDecl_eq_runSpec]
  have h := runSpec_clean (treeKeyedWorks roots) vals [] hvals (by simpa using hnodup)
  simpa using h

/-- C5 witness: a declaration with the three work-item variants under
distinct keys resolves to exactly those keys bound to their values. -/
theorem C5_run_results_witness :
    (runDecl [StepNode.leaf "a" "A" 0 (Work.sync (fun _ => ([], Except.ok (1 : Int))) 1),
       StepNode.leaf "b" "B" 0 (Work.deferred (fun _ => ([], Except.ok (2 : Int))) 1),
       StepNode.leaf "c" "C" 0 (Work.incremental (fun _ => ([], Except.ok (3 : Int), 1)))]
      false).1 = Except.ok [("a", 1), ("b", 2), ("c", 3)] :=
  C5_run_results Int _ false [("a", 1), ("b", 2), ("c", 3)]
    (by simp only [treeKeyedWorks]; rfl) (by decide)

/-! ## findTask-level frame lemmas for the engine -/

theorem updateTask_isSome (m : MultiProgress) (id : Nat) (f : TaskState → TaskState)
    (j : Nat) (hid : ∀ t, (f t).id = t.id) :
    ((m.updateTask id f).findTask j).isSome = (m.findTask j).isSome := by
  rw [updateTask_findTask m id f j hid]
  by_cases hj : j = id
  · subst hj
    cases m.findTask j <;> simp
  · simp [hj]

theorem add_isSome_mono (m : MultiProgress) (title : String) (opts : AddOptions)
    (j : Nat) (h : (m.findTask j).isSome = true) :
    ((m.add title opts).1.findTask j).isSome = true := by
  by_cases hj : j = m.nextId
  · subst hj
    unfold MultiProgress.add
    simp only [apply_ite (fun (x : MultiProgress) => x.findTask m.nextId), render_findTask,
      ite_self]
    show (MultiProgress.findTask _ m.nextId).isSome = true
    unfold MultiProgress.findTask
    rw [List.find?_append]
    cases hfl : m.tasks.find? (fun t => t.id == m.nextId) with
    | none =>
        unfold MultiProgress.findTask at h
        rw [hfl] at h
        exact absurd h (by simp)
    | some t => rfl
  · rw [add_findTask_old m title opts j hj]
    exact h

theorem start_findTask (m : MultiProgress) (j : Nat) :
    (m.start).findTask j = m.findTask j := by
  unfold MultiProgress.start
  split
  · rfl
  · show (MultiProgress.render _).findTask j = _
    rw [render_findTask]
    split <;> rfl

theorem start_nextId (m : MultiProgress) :
    (m.start).nextId = m.nextId := by
  unfold MultiProgress.start
  split
  · rfl
  · show (MultiProgress.render _).nextId = _
    rw [render_nextId]
    split <;> rfl

theorem foldl_write_tasks (ls : List String) (m : MultiProgress) :
    (ls.foldl MultiProgress.write m).tasks = m.tasks := by
  induction ls generalizing m with
  | nil => rfl
  | cons x xs ih => simpa [MultiProgress.write] using ih (m.write x)

theorem stop_findTask (m : MultiProgress) (clear : Bool) (j : Nat) :
    (m.stop clear).findTask j = m.findTask j := by
  unfold MultiProgress.stop
  split
  · show MultiProgress.findTask _ j = _
    unfold MultiProgress.findTask
    have h1 : ∀ x : MultiProgress, (if x.tty then x.write CURSOR_SHOW else x).tasks = x.tasks := by
      intro x
      split <;> rfl
    rw [h1]
    have h2 : (if clear ∧ m.tty then stopClearLines { m with isActive := false, timer := false }
        else (MultiProgress.render { m with isActive := false, timer := false }).write "\n").tasks
        = m.tasks := by
      split
      · unfold stopClearLines
        split
        · show (List.foldl MultiProgress.write _ _).tasks = m.tasks
          rw [foldl_write_tasks]
          rfl
        · rfl
      · show (MultiProgress.render _).tasks = m.tasks
        rw [render_tasks]
    rw [h2]
  · rfl

/-- Every handle recorded in a context (open sub-step or pre-declared
sub-step) is at or above the bound `b`.  Within one `executeStep` all
such handles are freshly created, so `b` can be the id counter at
entry. -/
def CtxAbove (c : CtxState) (b : Nat) : Prop :=
  (∀ lb h, c.currentSub = some (lb, h) → b ≤ h) ∧
  (∀ lb h, (lb, h) ∈ c.declared → b ≤ h)

/-- A context-threading transition from `(c, s)` to `r` that only
touches the context's own handle and freshly created records: records
with ids below `b` other than the leaf's own handle are untouched,
recorded context handles stay above `b`, the leaf handle is unchanged,
the id counter grows, and existing records never disappear. -/
def FrameTo (c : CtxState) (b : Nat) (s : EngSt) (r : CtxState × EngSt) : Prop :=
  (∀ j, j < b → j ≠ c.handleId → r.2.m.findTask j = s.m.findTask j) ∧
  CtxAbove r.1 b ∧ r.1.handleId = c.handleId ∧
  s.m.nextId ≤ r.2.m.nextId ∧
  (∀ j, (s.m.findTask j).isSome = true → (r.2.m.findTask j).isSome = true)

theorem FrameTo_trans (c : CtxState) (b : Nat) (s : EngSt) (r1 r2 : CtxState × EngSt)
    (h1 : FrameTo c b s r1) (h2 : FrameTo r1.1 b r1.2 r2) :
    FrameTo c b s r2 := by
  obtain ⟨f1, a1, i1, n1, s1⟩ := h1
  obtain ⟨f2, a2, i2, n2, s2⟩ := h2
  refine ⟨?_, a2, by rw [i2, i1], Nat.le_trans n1 n2, fun j hj => s2 j (s1 j hj)⟩
  intro j hj hne
  rw [f2 j hj (by rw [i1]; exact hne), f1 j hj hne]

theorem FrameTo_refl (c : CtxState) (b : Nat) (s : EngSt) (hc : CtxAbove c b) :
    FrameTo c b s (c, s) :=
  ⟨fun _ _ _ => rfl, hc, rfl, Nat.le_refl _, fun _ h => h⟩

theorem taskStart_findTask (m : MultiProgress) (id j : Nat) :
    (taskStart m id).findTask j =
      if j = id then (m.findTask id).map (fun t => { t with status := .running })
      else m.findTask j :=
  updateTask_findTask m id _ j (fun _ => rfl)

theorem taskCompleteTime_findTask (m : MultiProgress) (id time j : Nat) :
    (taskCompleteTime m id time).findTask j =
      if j = id then (m.findTask id).map
        (fun t => { t with status := .completed, completionTime := some time })
      else m.findTask j :=
  updateTask_findTask m id _ j (fun _ => rfl)

theorem taskFail_findTask (m : MultiProgress) (id j : Nat) :
    (taskFail m id).findTask j =
      if j = id then (m.findTask id).map (fun t => { t with status := .failed })
      else m.findTask j :=
  updateTask_findTask m id _ j (fun _ => rfl)

theorem taskSetTitle_findTask (m : MultiProgress) (id : Nat) (title : String) (j : Nat) :
    (taskSetTitle m id title).findTask j =
      if j = id then (m.findTask id).map (fun t => { t with title := title })
      else m.findTask j :=
  updateTask_findTask m id _ j (fun _ => rfl)

theorem taskSetType_findTask (m : MultiProgress) (id : Nat) (ty : TaskType) (j : Nat) :
    (taskSetType m id ty).findTask j =
      if j = id then (m.findTask id).map (fun t => { t with type := ty })
      else m.findTask j :=
  updateTask_findTask m id _ j (fun _ => rfl)

theorem taskStart_isSome (m : MultiProgress) (id j : Nat) :
    ((taskStart m id).findTask j).isSome = (m.findTask j).isSome := by
  rw [taskStart_findTask]
  by_cases hj : j = id
  · subst hj
    cases m.findTask j <;> simp
  · simp [hj]

theorem taskCompleteTime_isSome (m : MultiProgress) (id time j : Nat) :
    ((taskCompleteTime m id time).findTask j).isSome = (m.findTask j).isSome := by
  rw [taskCompleteTime_findTask]
  by_cases hj : j = id
  · subst hj
    cases m.findTask j <;> simp
  · simp [hj]

theorem taskFail_isSome (m : MultiProgress) (id j : Nat) :
    ((taskFail m id).findTask j).isSome = (m.findTask j).isSome := by
  rw [taskFail_findTask]
  by_cases hj : j = id
  · subst hj
    cases m.findTask j <;> simp
  · simp [hj]

theorem taskSetTitle_isSome (m : MultiProgress) (id : Nat) (title : String) (j : Nat) :
    ((taskSetTitle m id title).findTask j).isSome = (m.findTask j).isSome := by
  rw [taskSetTitle_findTask]
  by_cases hj : j = id
  · subst hj
    cases m.findTask j <;> simp
  · simp [hj]

theorem taskSetType_isSome (m : MultiProgress) (id : Nat) (ty : TaskType) (j : Nat) :
    ((taskSetType m id ty).findTask j).isSome = (m.findTask j).isSome := by
  rw [taskSetType_findTask]
  by_cases hj : j = id
  · subst hj
    cases m.findTask j <;> simp
  · simp [hj]

theorem ctxCompleteSubStep_frame (c : CtxState) (s : EngSt) (b : Nat)
    (hc : CtxAbove c b) (hb : b ≤ s.m.nextId) :
    FrameTo c b s (ctxCompleteSubStep c s) := by
  unfold ctxCompleteSubStep
  cases hcs : c.currentSub with
  | none => exact FrameTo_refl c b s hc
  | some p =>
      obtain ⟨lb, h⟩ := p
      have hbh : b ≤ h := hc.1 lb h hcs
      refine ⟨?_, ⟨?_, ?_⟩, rfl, ?_, ?_⟩
      · intro j hj hne
        show (taskCompleteTime s.m h _).findTask j = _
        rw [taskCompleteTime_findTask, if_neg (by omega)]
      · intro lb2 h2 hcon
        exact absurd hcon (by simp)
      · intro lb2 h2 hmem
        exact hc.2 lb2 h2 hmem
      · show s.m.nextId ≤ (taskCompleteTime s.m h _).nextId
        rw [taskCompleteTime_nextId]
      · intro j hj
        show ((taskCompleteTime s.m h _).findTask j).isSome = true
        rw [taskCompleteTime_isSome]
        exact hj

theorem ctxProgressLive_frame (c : CtxState) (cur tot : Nat) (s : EngSt) (b : Nat)
    (hc : CtxAbove c b) (hb : b ≤ s.m.nextId) :
    FrameTo c b s (c, ctxProgressLive c cur tot s) := by
  unfold ctxProgressLive
  cases hcs : c.currentSub with
  | none =>
      refine ⟨?_, hc, rfl, ?_, ?_⟩
      · intro j hj hne
        show (taskSetTitle s.m c.handleId _).findTask j = _
        rw [taskSetTitle_findTask, if_neg hne]
      · show s.m.nextId ≤ (taskSetTitle s.m _ _).nextId
        rw [taskSetTitle_nextId]
      · intro j hj
        show ((taskSetTitle s.m _ _).findTask j).isSome = true
        rw [taskSetTitle_isSome]
        exact hj
  | some p =>
      obtain ⟨lb, h⟩ := p
      have hbh : b ≤ h := hc.1 lb h hcs
      refine ⟨?_, hc, rfl, ?_, ?_⟩
      · intro j hj hne
        show (taskSetTitle s.m h _).findTask j = _
        rw [taskSetTitle_findTask, if_neg (by omega)]
      · show s.m.nextId ≤ (taskSetTitle s.m _ _).nextId
        rw [taskSetTitle_nextId]
      · intro j hj
        show ((taskSetTitle s.m _ _).findTask j).isSome = true
        rw [taskSetTitle_isSome]
        exact hj

theorem ctxSubLive_frame (c : CtxState) (l : String) (s : EngSt) (b : Nat)
    (hc : CtxAbove c b) (hb : b ≤ s.m.nextId) :
    FrameTo c b s (ctxSubLive c l s) := by
  have hcsf := ctxCompleteSubStep_frame c s b hc hb
  obtain ⟨f1, a1, i1, n1, s1⟩ := hcsf
  have hb1 : b ≤ (ctxCompleteSubStep c s).2.m.nextId := Nat.le_trans hb n1
  unfold ctxSubLive
  refine ⟨?_, ⟨?_, ?_⟩, ?_, ?_, ?_⟩
  · intro j hj hne
    show (taskStart _ _).findTask j = _
    rw [taskStart_findTask, if_neg (by rw [add_snd]; omega)]
    rw [add_findTask_old _ _ _ j (by omega)]
    exact f1 j hj hne
  · intro lb2 h2 hcon
    show b ≤ h2
    have hh2 : h2 = ((ctxCompleteSubStep c s).2.m.add l
        { type := .spinner, indent := (ctxCompleteSubStep c s).1.subIndent,
          insertAfter := some (ctxCompleteSubStep c s).1.handleId }).2 := by
      injection hcon with hcon1
      injection hcon1 with _ hcon2
      rw [hcon2]
    rw [hh2, add_snd]
    omega
  · intro lb2 h2 hmem
    show b ≤ h2
    exact a1.2 lb2 h2 hmem
  · show (ctxCompleteSubStep c s).1.handleId = c.handleId
    exact i1
  · show s.m.nextId ≤ (taskStart _ _).nextId
    rw [taskStart_nextId, add_nextId]
    omega
  · intro j hj
    show ((taskStart _ _).findTask j).isSome = true
    rw [taskStart_isSome]
    exact add_isSome_mono _ _ _ j (s1 j hj)

theorem applyAmbient_frame (acts : List AmbientAction) (c : CtxState) (s : EngSt) (b : Nat)
    (hc : CtxAbove c b) (hb : b ≤ s.m.nextId) :
    FrameTo c b s (applyAmbient c acts s) := by
  induction acts generalizing c s with
  | nil => exact FrameTo_refl c b s hc
  | cons a rest ih =>
      cases a with
      | sub l =>
          have h1 := ctxSubLive_frame c l s b hc hb
          have hb1 : b ≤ (ctxSubLive c l s).2.m.nextId := Nat.le_trans hb h1.2.2.2.1
          have h2 := ih (ctxSubLive c l s).1 (ctxSubLive c l s).2 h1.2.1 hb1
          show FrameTo c b s (applyAmbient (ctxSubLive c l s).1 rest (ctxSubLive c l s).2)
          exact FrameTo_trans c b s _ _ h1 h2
      | progress cur tot =>
          have h1 := ctxProgressLive_frame c cur tot s b hc hb
          have hb1 : b ≤ (ctxProgressLive c cur tot s).m.nextId :=
            Nat.le_trans hb h1.2.2.2.1
          have h2 := ih c (ctxProgressLive c cur tot s) hc hb1
          show FrameTo c b s (applyAmbient c rest (ctxProgressLive c cur tot s))
          exact FrameTo_trans c b s _ _ h1 h2

theorem genMarkSubSteps_frame (gs : GenSt) (s : EngSt) (b : Nat)
    (hc : CtxAbove gs.ctx b) (hb : b ≤ s.m.nextId) :
    FrameTo gs.ctx b s ((genMarkSubSteps gs s).1.ctx, (genMarkSubSteps gs s).2) := by
  unfold genMarkSubSteps
  split
  · exact FrameTo_refl gs.ctx b s hc
  · refine ⟨?_, hc, rfl, ?_, ?_⟩
    · intro j hj hne
      show (taskSetType s.m gs.ctx.handleId _).findTask j = _
      rw [taskSetType_findTask, if_neg hne]
    · show s.m.nextId ≤ (taskSetType s.m _ _).nextId
      rw [taskSetType_nextId]
    · intro j hj
      show ((taskSetType s.m _ _).findTask j).isSome = true
      rw [taskSetType_isSome]
      exact hj

theorem mem_setA {A : Type} (d : List (String × A)) (k : String) (v : A) (x : String × A)
    (hx : x ∈ setA d k v) : x ∈ d ∨ x = (k, v) := by
  induction d with
  | nil =>
      right
      simpa [setA] using hx
  | cons kv rest ih =>
      obtain ⟨k0, v0⟩ := kv
      by_cases hk : k0 = k
      · rw [setA, if_pos hk] at hx
        rcases List.mem_cons.1 hx with h1 | h2
        · right
          rw [h1, hk]
        · left
          exact List.mem_cons_of_mem _ h2
      · rw [setA, if_neg hk] at hx
        rcases List.mem_cons.1 hx with h1 | h2
        · left
          rw [h1]
          exact List.mem_cons_self _ _
        · rcases ih h2 with h3 | h4
          · left
            exact List.mem_cons_of_mem _ h3
          · right
            exact h4

theorem declareStep_frame (p : GenSt × EngSt) (l : String) (b : Nat)
    (hc : CtxAbove p.1.ctx b) (hb : b ≤ p.2.m.nextId) :
    FrameTo p.1.ctx b p.2 ((declareStep p l).1.ctx, (declareStep p l).2) := by
  unfold declareStep
  refine ⟨?_, ⟨?_, ?_⟩, rfl, ?_, ?_⟩
  · intro j hj hne
    show ((p.2.m.add l _).1).findTask j = _
    rw [add_findTask_old _ _ _ j (by omega)]
  · intro lb2 h2 hcon
    show b ≤ h2
    exact hc.1 lb2 h2 hcon
  · intro lb2 h2 hmem
    show b ≤ h2
    have hmem2 : (lb2, h2) ∈ setA p.1.ctx.declared l (p.2.m.add l
        { type := .spinner, indent := p.1.ctx.subIndent,
          insertAfter := some p.1.lastInsertedId }).2 := hmem
    rcases mem_setA _ _ _ _ hmem2 with hold | hnew
    · exact hc.2 lb2 h2 hold
    · have h5 : h2 = (p.2.m.add l
          { type := .spinner, indent := p.1.ctx.subIndent,
            insertAfter := some p.1.lastInsertedId }).2 := congrArg Prod.snd hnew
      rw [add_snd] at h5
      omega
  · show p.2.m.nextId ≤ ((p.2.m.add l _).1).nextId
    rw [add_nextId]
    omega
  · intro j hj
    show (((p.2.m.add l _).1).findTask j).isSome = true
    exact add_isSome_mono _ _ _ j hj

theorem genProcessEvent_frame (gs : GenSt) (e : GenEvent) (s : EngSt) (b : Nat)
    (hc : CtxAbove gs.ctx b) (hb : b ≤ s.m.nextId) :
    FrameTo gs.ctx b s
      ((genProcessEvent gs e s).1.ctx, (genProcessEvent gs e s).2) := by
  cases e with
  | declare labels =>
      show FrameTo gs.ctx b s
        (((labels.foldl declareStep (genMarkSubSteps gs s)).1.ctx,
          (labels.foldl declareStep (genMarkSubSteps gs s)).2))
      have h1 := genMarkSubSteps_frame gs s b hc hb
      have hmk : (genMarkSubSteps gs s).1.ctx.handleId = gs.ctx.handleId := by
        rw [genMarkSubSteps_ctx]
      have : ∀ (ls : List String) (p : GenSt × EngSt), CtxAbove p.1.ctx b →
          b ≤ p.2.m.nextId →
          FrameTo p.1.ctx b p.2 ((ls.foldl declareStep p).1.ctx, (ls.foldl declareStep p).2) := by
        intro ls
        induction ls with
        | nil => intro p hcp hbp; exact FrameTo_refl _ b _ hcp
        | cons x xs ih =>
            intro p hcp hbp
            have hd := declareStep_frame p x b hcp hbp
            have hbd : b ≤ (declareStep p x).2.m.nextId := Nat.le_trans hbp hd.2.2.2.1
            have ht := ih (declareStep p x) hd.2.1 hbd
            show FrameTo p.1.ctx b p.2
              ((xs.foldl declareStep (declareStep p x)).1.ctx,
               (xs.foldl declareStep (declareStep p x)).2)
            exact FrameTo_trans _ b _ _ _ hd ht
      have h2 := this labels (genMarkSubSteps gs s) h1.2.1 (Nat.le_trans hb h1.2.2.2.1)
      exact FrameTo_trans _ b _ _ _ h1 h2
  | label l =>
      have h1 := ctxCompleteSubStep_frame gs.ctx s b hc hb
      have hb1 : b ≤ (ctxCompleteSubStep gs.ctx s).2.m.nextId :=
        Nat.le_trans hb h1.2.2.2.1
      have h2 := genMarkSubSteps_frame { gs with ctx := (ctxCompleteSubStep gs.ctx s).1 }
        (ctxCompleteSubStep gs.ctx s).2 b h1.2.1 hb1
      have h12 := FrameTo_trans _ b _ _ _ h1 h2
      have hb2 : b ≤ (genMarkSubSteps { gs with ctx := (ctxCompleteSubStep gs.ctx s).1 }
          (ctxCompleteSubStep gs.ctx s).2).2.m.nextId :=
        Nat.le_trans hb h12.2.2.2.1
      unfold genProcessEvent
      cases hgl : ctxGetSubHandle
          (genMarkSubSteps { gs with ctx := (ctxCompleteSubStep gs.ctx s).1 }
            (ctxCompleteSubStep gs.ctx s).2).1.ctx l with
      | some hdl =>
          simp only [hgl]
          have hbh : b ≤ hdl := by
            have := h12.2.1.2
            have hdm : (l, hdl) ∈ (genMarkSubSteps { gs with
                ctx := (ctxCompleteSubStep gs.ctx s).1 }
                (ctxCompleteSubStep gs.ctx s).2).1.ctx.declared := by
              unfold ctxGetSubHandle lookupA at hgl
              cases hfind : List.find? (fun kv => kv.1 == l)
                  (genMarkSubSteps { gs with ctx := (ctxCompleteSubStep gs.ctx s).1 }
                    (ctxCompleteSubStep gs.ctx s).2).1.ctx.declared with
              | none => rw [hfind] at hgl; exact absurd hgl (by simp)
              | some kv =>
                  rw [hfind] at hgl
                  have hkv : kv.2 = hdl := by simpa using hgl
                  have hmem := List.mem_of_find?_eq_some hfind
                  rw [← hkv]
                  have : kv = (kv.1, kv.2) := rfl
                  rw [this] at hmem
                  have hk1 : kv.1 = l := by
                    have := List.find?_some hfind
                    simpa using this
                  rw [hk1] at hmem
                  exact hmem
            exact this l hdl hdm
          refine FrameTo_trans _ b _ _ _ h12 ⟨?_, ⟨?_, ?_⟩, rfl, ?_, ?_⟩
          · intro j hj hne
            show (taskStart _ hdl).findTask j = _
            rw [taskStart_findTask, if_neg (by omega)]
          · intro lb2 h2 hcon
            show b ≤ h2
            have : h2 = hdl := by
              injection hcon with hcon1
              injection hcon1 with _ hh
              rw [hh]
            omega
          · intro lb2 h2 hmem
            exact h12.2.1.2 lb2 h2 hmem
          · show _ ≤ (taskStart _ _).nextId
            rw [taskStart_nextId]
          · intro j hj
            show ((taskStart _ _).findTask j).isSome = true
            rw [taskStart_isSome]
            exact hj
      | none =>
          simp only [hgl]
          refine FrameTo_trans _ b _ _ _ h12 ⟨?_, ⟨?_, ?_⟩, rfl, ?_, ?_⟩
          · intro j hj hne
            show (taskStart _ _).findTask j = _
            rw [taskStart_findTask, if_neg (by rw [add_snd]; omega)]
            rw [add_findTask_old _ _ _ j (by omega)]
          · intro lb2 h2 hcon
            show b ≤ h2
            exact h12.2.1.1 lb2 h2 hcon
          · intro lb2 h2 hmem
            show b ≤ h2
            rcases mem_setA _ _ _ _ hmem with hold | hnew
            · exact h12.2.1.2 lb2 h2 hold
            · have h5 : h2 = ((genMarkSubSteps { gs with
                  ctx := (ctxCompleteSubStep gs.ctx s).1 }
                  (ctxCompleteSubStep gs.ctx s).2).2.m.add l
                  { type := .spinner,
                    indent := (genMarkSubSteps { gs with
                      ctx := (ctxCompleteSubStep gs.ctx s).1 }
                      (ctxCompleteSubStep gs.ctx s).2).1.ctx.subIndent,
                    insertAfter := some (genMarkSubSteps { gs with
                      ctx := (ctxCompleteSubStep gs.ctx s).1 }
                      (ctxCompleteSubStep gs.ctx s).2).1.lastInsertedId }).2 :=
                congrArg Prod.snd hnew
              rw [add_snd] at h5
              exact Nat.le_trans (Nat.le_trans hb h12.2.2.2.1) (Nat.le_of_eq h5.symm)
          · show _ ≤ (taskStart _ _).nextId
            rw [taskStart_nextId, add_nextId]
            exact Nat.le_succ _
          · intro j hj
            show ((taskStart _ _).findTask j).isSome = true
            rw [taskStart_isSome]
            exact add_isSome_mono _ _ _ j hj
  | progress cur tot =>
      exact ctxProgressLive_frame gs.ctx cur tot s b hc hb

theorem genLoop_frame (events : List (GenEvent × Nat)) (gs : GenSt) (s : EngSt) (b : Nat)
    (hc : CtxAbove gs.ctx b) (hb : b ≤ s.m.nextId) :
    FrameTo gs.ctx b s ((genLoop gs events s).1.ctx, (genLoop gs events s).2) := by
  induction events generalizing gs s with
  | nil => exact FrameTo_refl gs.ctx b s hc
  | cons ed rest ih =>
      obtain ⟨e, d⟩ := ed
      have h1 := genProcessEvent_frame gs e { s with now := s.now + d } b hc hb
      have hb1 : b ≤ (genProcessEvent gs e { s with now := s.now + d }).2.m.nextId :=
        Nat.le_trans hb h1.2.2.2.1
      have h2 := ih (genProcessEvent gs e { s with now := s.now + d }).1
        (genProcessEvent gs e { s with now := s.now + d }).2 h1.2.1 hb1
      show FrameTo gs.ctx b s
        ((genLoop (genProcessEvent gs e { s with now := s.now + d }).1 rest
          (genProcessEvent gs e { s with now := s.now + d }).2).1.ctx,
         (genLoop (genProcessEvent gs e { s with now := s.now + d }).1 rest
          (genProcessEvent gs e { s with now := s.now + d }).2).2)
      exact FrameTo_trans _ b _ _ _ h1 h2

/-! ## Clock behaviour: logical time advances only by declared durations -/

theorem applyAmbient_now (acts : List AmbientAction) (c : CtxState) (s : EngSt) :
    (applyAmbient c acts s).2.now = s.now := by
  induction acts generalizing c s with
  | nil => rfl
  | cons a rest ih =>
      cases a with
      | sub l =>
          show (applyAmbient (ctxSubLive c l s).1 rest (ctxSubLive c l s).2).2.now = s.now
          rw [ih, ctxSubLive_now]
      | progress cur tot =>
          show (applyAmbient c rest (ctxProgressLive c cur tot s)).2.now = s.now
          rw [ih, ctxProgressLive_now]

theorem declareStep_now (p : GenSt × EngSt) (l : String) :
    (declareStep p l).2.now = p.2.now := rfl

theorem genProcessEvent_now (gs : GenSt) (e : GenEvent) (s : EngSt) :
    (genProcessEvent gs e s).2.now = s.now := by
  cases e with
  | declare labels =>
      show (labels.foldl declareStep (genMarkSubSteps gs s)).2.now = s.now
      have h := foldl_proj_const declareStep (fun p => p.2.now)
        (fun p l => declareStep_now p l) labels (genMarkSubSteps gs s)
      rw [h, genMarkSubSteps_now]
  | label l =>
      unfold genProcessEvent
      cases hgl : ctxGetSubHandle
          (genMarkSubSteps { gs with ctx := (ctxCompleteSubStep gs.ctx s).1 }
            (ctxCompleteSubStep gs.ctx s).2).1.ctx l with
      | some hdl =>
          simp only [hgl]
          show (genMarkSubSteps { gs with ctx := (ctxCompleteSubStep gs.ctx s).1 }
            (ctxCompleteSubStep gs.ctx s).2).2.now = s.now
          rw [genMarkSubSteps_now, ctxCompleteSubStep_now]
      | none =>
          simp only [hgl]
          show (genMarkSubSteps { gs with ctx := (ctxCompleteSubStep gs.ctx s).1 }
            (ctxCompleteSubStep gs.ctx s).2).2.now = s.now
          rw [genMarkSubSteps_now, ctxCompleteSubStep_now]
  | progress cur tot => exact ctxProgressLive_now _ _ _ _

/-- Total declared duration of a list of generator events. -/
def eventsDur (events : List (GenEvent × Nat)) : Nat :=
  (events.map (fun ed => ed.2)).sum

theorem genLoop_now (events : List (GenEvent × Nat)) (gs : GenSt) (s : EngSt) :
    (genLoop gs events s).2.now = s.now + eventsDur events := by
  induction events generalizing gs s with
  | nil => simp [genLoop, eventsDur]
  | cons ed rest ih =>
      obtain ⟨e, d⟩ := ed
      show (genLoop (genProcessEvent gs e { s with now := s.now + d }).1 rest
        (genProcessEvent gs e { s with now := s.now + d }).2).2.now = _
      rw [ih, genProcessEvent_now]
      show s.now + d + eventsDur rest = s.now + eventsDur ((e, d) :: rest)
      simp [eventsDur]
      omega

/-- The logical duration of one work item on a given input: its declared
duration, or for a generator the sum of its per-event durations plus the
final pull's. -/
def workDur {V : Type} (w : Work V) (input : Option V) : Nat :=
  match w with
  | .sync _ dur => dur
  | .deferred _ dur => dur
  | .incremental f => eventsDur (f input).1 + (f input).2.2

theorem runPlainWork_now {V : Type} (pos : Nat)
    (f : Option V → List AmbientAction × Except Err V) (dur : Nat)
    (ctx : CtxState) (input : Option V) (startTime : Nat) (s : EngSt) :
    (runPlainWork pos f dur ctx input startTime s).1.now = s.now + dur := by
  unfold runPlainWork
  cases hfr : (f input).2 with
  | error e =>
      simp only [hfr]
      show ({ (applyAmbient ctx (f input).1 s).2 with
        now := (applyAmbient ctx (f input).1 s).2.now + dur }).now = s.now + dur
      rw [applyAmbient_now]
  | ok v =>
      simp only [hfr]
      show (ctxCompleteSubStep (applyAmbient ctx (f input).1 s).1
        { (applyAmbient ctx (f input).1 s).2 with
          now := (applyAmbient ctx (f input).1 s).2.now + dur }).2.now = s.now + dur
      rw [ctxCompleteSubStep_now]
      show (applyAmbient ctx (f input).1 s).2.now + dur = _
      rw [applyAmbient_now]

theorem runGeneratorM_now {V : Type} (ctx : CtxState) (events : List (GenEvent × Nat))
    (fin : Except Err V) (finDur : Nat) (s : EngSt) :
    (runGeneratorM ctx events fin finDur s).1.now = s.now + (eventsDur events + finDur) := by
  unfold runGeneratorM
  cases fin with
  | error e =>
      show ({ (genLoop _ events s).2 with
        now := (genLoop _ events s).2.now + finDur }).now = _
      rw [genLoop_now]
      show s.now + eventsDur events + finDur = s.now + (eventsDur events + finDur)
      omega
  | ok v =>
      show (ctxCompleteSubStep _ _).2.now = _
      rw [ctxCompleteSubStep_now]
      show ({ (genLoop _ events s).2 with
        now := (genLoop _ events s).2.now + finDur }).now = _
      rw [genLoop_now]
      show s.now + eventsDur events + finDur = s.now + (eventsDur events + finDur)
      omega

theorem executeStep_now {V : Type} (pos indent : Nat) (label : String) (w : Work V)
    (input : Option V) (s : EngSt) :
    (executeStep pos indent label w input s).1.now = s.now + workDur w input := by
  cases w with
  | sync f dur =>
      show (runPlainWork pos f dur _ input s.now { s with m := taskStart s.m pos }).1.now = _
      rw [runPlainWork_now]
      rfl
  | deferred f dur =>
      show (runPlainWork pos f dur _ input s.now { s with m := taskStart s.m pos }).1.now = _
      rw [runPlainWork_now]
      rfl
  | incremental f =>
      unfold executeStep
      cases hr : (runGeneratorM
          { label := label, handleId := pos, subIndent := indent + 1 } (f input).1
          (f input).2.1 (f input).2.2 { s with m := taskStart s.m pos }).2 with
      | error e =>
          simp only [hr]
          show (runGeneratorM { label := label, handleId := pos, subIndent := indent + 1 }
            (f input).1 (f input).2.1 (f input).2.2
            { s with m := taskStart s.m pos }).1.now = _
          rw [runGeneratorM_now]
          rfl
      | ok v =>
          simp only [hr]
          show (runGeneratorM { label := label, handleId := pos, subIndent := indent + 1 }
            (f input).1 (f input).2.1 (f input).2.2
            { s with m := taskStart s.m pos }).1.now = _
          rw [runGeneratorM_now]
          rfl

/-! ## Frame and self-effect of a full leaf execution -/

theorem runGeneratorM_frame {V : Type} (ctx : CtxState) (events : List (GenEvent × Nat))
    (fin : Except Err V) (finDur : Nat) (s : EngSt) (b : Nat)
    (hc : CtxAbove ctx b) (hb : b ≤ s.m.nextId) :
    (∀ j, j < b → j ≠ ctx.handleId →
      (runGeneratorM ctx events fin finDur s).1.m.findTask j = s.m.findTask j) ∧
    s.m.nextId ≤ (runGeneratorM ctx events fin finDur s).1.m.nextId ∧
    (∀ j, (s.m.findTask j).isSome = true →
      ((runGeneratorM ctx events fin finDur s).1.m.findTask j).isSome = true) := by
  have hgl := genLoop_frame events
    { ctx := ctx, hasSubSteps := false, lastInsertedId := ctx.handleId } s b hc hb
  unfold runGeneratorM
  cases fin with
  | error e =>
      refine ⟨?_, ?_, ?_⟩
      · intro j hj hne
        exact hgl.1 j hj hne
      · exact hgl.2.2.2.1
      · intro j hj
        exact hgl.2.2.2.2 j hj
  | ok v =>
      have hb2 : b ≤ (genLoop { ctx := ctx, hasSubSteps := false, lastInsertedId := ctx.handleId } events s).2.m.nextId :=
        Nat.le_trans hb hgl.2.2.2.1
      have hcss := ctxCompleteSubStep_frame
        (genLoop { ctx := ctx, hasSubSteps := false, lastInsertedId := ctx.handleId } events s).1.ctx
        { (genLoop { ctx := ctx, hasSubSteps := false, lastInsertedId := ctx.handleId } events s).2 with
          now := (genLoop { ctx := ctx, hasSubSteps := false, lastInsertedId := ctx.handleId } events s).2.now + finDur }
        b hgl.2.1 hb2
      have hhd : (ctxCompleteSubStep
          (genLoop { ctx := ctx, hasSubSteps := false, lastInsertedId := ctx.handleId } events s).1.ctx
          { (genLoop { ctx := ctx, hasSubSteps := false, lastInsertedId := ctx.handleId } events s).2 with
            now := (genLoop { ctx := ctx, hasSubSteps := false, lastInsertedId := ctx.handleId } events s).2.now + finDur }).1.handleId
          = ctx.handleId := by
        rw [ctxCompleteSubStep_handleId]
        exact hgl.2.2.1
      refine ⟨?_, ?_, ?_⟩
      · intro j hj hne
        show (taskCompleteTime _ _ _).findTask j = _
        rw [taskCompleteTime_findTask, if_neg (by rw [hhd]; exact hne)]
        rw [hcss.1 j hj (by rw [hgl.2.2.1]; exact hne), hgl.1 j hj hne]
      · show s.m.nextId ≤ (taskCompleteTime _ _ _).nextId
        rw [taskCompleteTime_nextId]
        exact Nat.le_trans hgl.2.2.2.1 hcss.2.2.2.1
      · intro j hj
        show ((taskCompleteTime _ _ _).findTask j).isSome = true
        rw [taskCompleteTime_isSome]
        exact hcss.2.2.2.2 j (hgl.2.2.2.2 j hj)

theorem runPlainWork_frame {V : Type} (pos : Nat)
    (f : Option V → List AmbientAction × Except Err V) (dur : Nat)
    (ctx : CtxState) (input : Option V) (startTime : Nat) (s : EngSt) (b : Nat)
    (hc : CtxAbove ctx b) (hb : b ≤ s.m.nextId) (hh : ctx.handleId = pos) :
    (∀ j, j < b → j ≠ pos →
      (runPlainWork pos f dur ctx input startTime s).1.m.findTask j = s.m.findTask j) ∧
    s.m.nextId ≤ (runPlainWork pos f dur ctx input startTime s).1.m.nextId ∧
    (∀ j, (s.m.findTask j).isSome = true →
      ((runPlainWork pos f dur ctx input startTime s).1.m.findTask j).isSome = true) := by
  have haa := applyAmbient_frame (f input).1 ctx s b hc hb
  unfold runPlainWork
  cases hfr : (f input).2 with
  | error e =>
      simp only [hfr]
      refine ⟨?_, ?_, ?_⟩
      · intro j hj hne
        show (taskFail _ _).findTask j = _
        rw [taskFail_findTask, if_neg hne]
        exact haa.1 j hj (by rw [hh]; exact hne)
      · show s.m.nextId ≤ (taskFail _ _).nextId
        rw [taskFail_nextId]
        exact haa.2.2.2.1
      · intro j hj
        show ((taskFail _ _).findTask j).isSome = true
        rw [taskFail_isSome]
        exact haa.2.2.2.2 j hj
  | ok v =>
      simp only [hfr]
      have hb2 : b ≤ (applyAmbient ctx (f input).1 s).2.m.nextId :=
        Nat.le_trans hb haa.2.2.2.1
      have hcss := ctxCompleteSubStep_frame (applyAmbient ctx (f input).1 s).1
        { (applyAmbient ctx (f input).1 s).2 with
          now := (applyAmbient ctx (f input).1 s).2.now + dur } b haa.2.1 hb2
      refine ⟨?_, ?_, ?_⟩
      · intro j hj hne
        show (taskCompleteTime _ _ _).findTask j = _
        rw [taskCompleteTime_findTask, if_neg hne]
        rw [hcss.1 j hj (by rw [haa.2.2.1, hh]; exact hne)]
        exact haa.1 j hj (by rw [hh]; exact hne)
      · show s.m.nextId ≤ (taskCompleteTime _ _ _).nextId
        rw [taskCompleteTime_nextId]
        exact Nat.le_trans haa.2.2.2.1 hcss.2.2.2.1
      · intro j hj
        show ((taskCompleteTime _ _ _).findTask j).isSome = true
        rw [taskCompleteTime_isSome]
        exact hcss.2.2.2.2 j (haa.2.2.2.2 j hj)

theorem executeStep_frame {V : Type} (pos indent : Nat) (label : String) (w : Work V)
    (input : Option V) (s : EngSt) (b : Nat) (hb : b ≤ s.m.nextId) :
    (∀ j, j < b → j ≠ pos →
      (executeStep pos indent label w input s).1.m.findTask j = s.m.findTask j) ∧
    s.m.nextId ≤ (executeStep pos indent label w input s).1.m.nextId ∧
    (∀ j, (s.m.findTask j).isSome = true →
      ((executeStep pos indent label w input s).1.m.findTask j).isSome = true) := by
  have hca : CtxAbove { label := label, handleId := pos, subIndent := indent + 1 } b := by
    constructor
    · intro lb h hcon
      exact absurd hcon (by simp [CtxState.currentSub])
    · intro lb h hmem
      exact absurd hmem (by simp [CtxState.declared])
  have hb1 : b ≤ ({ s with m := taskStart s.m pos } : EngSt).m.nextId := by
    show b ≤ (taskStart s.m pos).nextId
    rw [taskStart_nextId]
    exact hb
  cases w with
  | sync f dur =>
      have h := runPlainWork_frame pos f dur
        { label := label, handleId := pos, subIndent := indent + 1 } input s.now
        { s with m := taskStart s.m pos } b hca hb1 rfl
      refine ⟨?_, ?_, ?_⟩
      · intro j hj hne
        show (runPlainWork pos f dur _ input s.now
          { s with m := taskStart s.m pos }).1.m.findTask j = _
        rw [h.1 j hj hne]
        show (taskStart s.m pos).findTask j = _
        rw [taskStart_findTask, if_neg hne]
      · show s.m.nextId ≤ (runPlainWork pos f dur _ input s.now
          { s with m := taskStart s.m pos }).1.m.nextId
        refine Nat.le_trans ?_ h.2.1
        show s.m.nextId ≤ (taskStart s.m pos).nextId
        rw [taskStart_nextId]
      · intro j hj
        show ((runPlainWork pos f dur _ input s.now
          { s with m := taskStart s.m pos }).1.m.findTask j).isSome = true
        refine h.2.2 j ?_
        show ((taskStart s.m pos).findTask j).isSome = true
        rw [taskStart_isSome]
        exact hj
  | deferred f dur =>
      have h := runPlainWork_frame pos f dur
        { label := label, handleId := pos, subIndent := indent + 1 } input s.now
        { s with m := taskStart s.m pos } b hca hb1 rfl
      refine ⟨?_, ?_, ?_⟩
      · intro j hj hne
        show (runPlainWork pos f dur _ input s.now
          { s with m := taskStart s.m pos }).1.m.findTask j = _
        rw [h.1 j hj hne]
        show (taskStart s.m pos).findTask j = _
        rw [taskStart_findTask, if_neg hne]
      · show s.m.nextId ≤ (runPlainWork pos f dur _ input s.now
          { s with m := taskStart s.m pos }).1.m.nextId
        refine Nat.le_trans ?_ h.2.1
        show s.m.nextId ≤ (taskStart s.m pos).nextId
        rw [taskStart_nextId]
      · intro j hj
        show ((runPlainWork pos f dur _ input s.now
          { s with m := taskStart s.m pos }).1.m.findTask j).isSome = true
        refine h.2.2 j ?_
        show ((taskStart s.m pos).findTask j).isSome = true
        rw [taskStart_isSome]
        exact hj
  | incremental f =>
      have h := runGeneratorM_frame
        { label := label, handleId := pos, subIndent := indent + 1 }
        (f input).1 (f input).2.1 (f input).2.2
        { s with m := taskStart s.m pos } b hca hb1
      unfold executeStep
      cases hr : (runGeneratorM
          { label := label, handleId := pos, subIndent := indent + 1 } (f input).1
          (f input).2.1 (f input).2.2 { s with m := taskStart s.m pos }).2 with
      | error e =>
          simp only [hr]
          refine ⟨?_, ?_, ?_⟩
          · intro j hj hne
            show (taskFail _ pos).findTask j = _
            rw [taskFail_findTask, if_neg hne, h.1 j hj hne]
            show (taskStart s.m pos).findTask j = _
            rw [taskStart_findTask, if_neg hne]
          · show s.m.nextId ≤ (taskFail _ pos).nextId
            rw [taskFail_nextId]
            refine Nat.le_trans ?_ h.2.1
            show s.m.nextId ≤ (taskStart s.m pos).nextId
            rw [taskStart_nextId]
          · intro j hj
            show ((taskFail _ pos).findTask j).isSome = true
            rw [taskFail_isSome]
            refine h.2.2 j ?_
            show ((taskStart s.m pos).findTask j).isSome = true
            rw [taskStart_isSome]
            exact hj
      | ok v =>
          simp only [hr]
          refine ⟨?_, ?_, ?_⟩
          · intro j hj hne
            show (runGeneratorM _ (f input).1 (f input).2.1 (f input).2.2
              { s with m := taskStart s.m pos }).1.m.findTask j = _
            rw [h.1 j hj hne]
            show (taskStart s.m pos).findTask j = _
            rw [taskStart_findTask, if_neg hne]
          · show s.m.nextId ≤ (runGeneratorM _ (f input).1 (f input).2.1 (f input).2.2
              { s with m := taskStart s.m pos }).1.m.nextId
            refine Nat.le_trans ?_ h.2.1
            show s.m.nextId ≤ (taskStart s.m pos).nextId
            rw [taskStart_nextId]
          · intro j hj
            show ((runGeneratorM _ (f input).1 (f input).2.1 (f input).2.2
              { s with m := taskStart s.m pos }).1.m.findTask j).isSome = true
            refine h.2.2 j ?_
            show ((taskStart s.m pos).findTask j).isSome = true
            rw [taskStart_isSome]
            exact hj

theorem taskStatusOf_taskFail_self (m : MultiProgress) (pos : Nat)
    (h : (m.findTask pos).isSome = true) :
    taskStatusOf (taskFail m pos) pos = .failed := by
  unfold taskStatusOf
  rw [taskFail_findTask, if_pos rfl]
  cases hf : m.findTask pos with
  | none => rw [hf] at h; exact absurd h (by simp)
  | some t => simp

theorem taskStatusOf_taskStart_self (m : MultiProgress) (pos : Nat)
    (h : (m.findTask pos).isSome = true) :
    taskStatusOf (taskStart m pos) pos = .running := by
  unfold taskStatusOf
  rw [taskStart_findTask, if_pos rfl]
  cases hf : m.findTask pos with
  | none => rw [hf] at h; exact absurd h (by simp)
  | some t => simp

/-- The `completionTime` recorded on a task, if the task exists. -/
def completionTimeOf (m : MultiProgress) (id : Nat) : Option Nat :=
  match m.findTask id with
  | some t => t.completionTime
  | none => none

theorem executeStep_fail_status {V : Type} (pos indent : Nat) (label : String)
    (w : Work V) (input : Option V) (s : EngSt) (e : Err)
    (hfail : evalWorkValue w input = .error e)
    (hsome : (s.m.findTask pos).isSome = true) (hb : pos < s.m.nextId) :
    taskStatusOf (executeStep pos indent label w input s).1.m pos = .failed := by
  have hca : CtxAbove { label := label, handleId := pos, subIndent := indent + 1 } (pos + 1) := by
    constructor
    · intro lb h hcon
      exact absurd hcon (by simp [CtxState.currentSub])
    · intro lb h hmem
      exact absurd hmem (by simp [CtxState.declared])
  have hb1 : pos + 1 ≤ ({ s with m := taskStart s.m pos } : EngSt).m.nextId := by
    show pos + 1 ≤ (taskStart s.m pos).nextId
    rw [taskStart_nextId]
    omega
  have hsome1 : (({ s with m := taskStart s.m pos } : EngSt).m.findTask pos).isSome = true := by
    show ((taskStart s.m pos).findTask pos).isSome = true
    rw [taskStart_isSome]
    exact hsome
  cases w with
  | sync f dur =>
      have hfr : (f input).2 = .error e := hfail
      have haa := applyAmbient_frame (f input).1
        { label := label, handleId := pos, subIndent := indent + 1 }
        { s with m := taskStart s.m pos } (pos + 1) hca hb1
      show taskStatusOf (runPlainWork pos f dur _ input s.now
        { s with m := taskStart s.m pos }).1.m pos = .failed
      unfold runPlainWork
      simp only [hfr]
      exact taskStatusOf_taskFail_self _ pos (haa.2.2.2.2 pos hsome1)
  | deferred f dur =>
      have hfr : (f input).2 = .error e := hfail
      have haa := applyAmbient_frame (f input).1
        { label := label, handleId := pos, subIndent := indent + 1 }
        { s with m := taskStart s.m pos } (pos + 1) hca hb1
      show taskStatusOf (runPlainWork pos f dur _ input s.now
        { s with m := taskStart s.m pos }).1.m pos = .failed
      unfold runPlainWork
      simp only [hfr]
      exact taskStatusOf_taskFail_self _ pos (haa.2.2.2.2 pos hsome1)
  | incremental f =>
      have hfr : (f input).2.1 = .error e := hfail
      have hgen := runGeneratorM_frame
        { label := label, handleId := pos, subIndent := indent + 1 }
        (f input).1 (f input).2.1 (f input).2.2
        { s with m := taskStart s.m pos } (pos + 1) hca hb1
      have hr : (runGeneratorM { label := label, handleId := pos, subIndent := indent + 1 }
          (f input).1 (f input).2.1 (f input).2.2
          { s with m := taskStart s.m pos }).2 = .error e := by
        unfold runGeneratorM
        simp only [hfr]
      unfold executeStep
      simp only [hr]
      exact taskStatusOf_taskFail_self _ pos (hgen.2.2 pos hsome1)

/-! ## The upfront registration pass of the declarative engine -/

theorem registerAll_fold {V : Type} (entries : List (FlatEntry V)) (m : MultiProgress)
    (hf : m.fresh) :
    (registerAll entries m).nextId = m.nextId + entries.length ∧
    (registerAll entries m).fresh ∧
    (∀ j, j < m.nextId → (registerAll entries m).findTask j = m.findTask j) ∧
    (∀ j, m.nextId ≤ j → j < m.nextId + entries.length →
      ∃ t, (registerAll entries m).findTask j = some t ∧
        t.status = .pending ∧ t.completionTime = none) := by
  induction entries generalizing m with
  | nil =>
      refine ⟨rfl, hf, fun j hj => rfl, fun j hj1 hj2 => ?_⟩
      simp only [List.length_nil] at hj2
      omega
  | cons en rest ih =>
      have hstep : registerAll (en :: rest) m =
          registerAll rest (m.add en.label
            { type := if en.isGroup then .group else .spinner, indent := en.indent }).1 := rfl
      have hfresh1 := add_fresh m en.label
        { type := if en.isGroup then .group else .spinner, indent := en.indent } hf
      have h := ih _ hfresh1
      rw [hstep]
      refine ⟨?_, h.2.1, ?_, ?_⟩
      · rw [h.1, add_nextId]
        simp [List.length_cons]
        omega
      · intro j hj
        rw [h.2.2.1 j (by rw [add_nextId]; omega)]
        exact add_findTask_old m _ _ j (by omega)
      · intro j hj1 hj2
        by_cases hje : j = m.nextId
        · subst hje
          have hkeep := h.2.2.1 m.nextId (by rw [add_nextId]; omega)
          refine ⟨addedTask m en.label
            { type := if en.isGroup then .group else .spinner, indent := en.indent },
            ?_, rfl, rfl⟩
          rw [hkeep]
          exact add_findTask_new m _ _ hf
        · refine h.2.2.2 j ?_ ?_
          · rw [add_nextId]; omega
          · rw [add_nextId]
            simp only [List.length_cons] at hj2
            omega

theorem empty_fresh : (({} : MultiProgress)).fresh := by
  intro t ht
  exact absurd ht (by simp [MultiProgress])

theorem initRunSt_spec {V : Type} (entries : List (FlatEntry V)) :
    (initRunSt entries : RunSt V).s.m.nextId = entries.length ∧
    (∀ j, j < entries.length →
      ∃ t, (initRunSt entries : RunSt V).s.m.findTask j = some t ∧
        t.status = .pending ∧ t.completionTime = none) := by
  have h := registerAll_fold entries ({} : MultiProgress) empty_fresh
  have hn : ({} : MultiProgress).nextId = 0 := rfl
  rw [hn] at h
  constructor
  · show ((registerAll entries {}).start).nextId = entries.length
    rw [start_nextId, h.1, Nat.zero_add]
  · intro j hj
    obtain ⟨t, ht, hs, hc⟩ := h.2.2.2 j (by omega) (by omega)
    refine ⟨t, ?_, hs, hc⟩
    show ((registerAll entries {}).start).findTask j = some t
    rw [start_findTask]
    exact ht

/-! ## Structure of the flattened node list -/

theorem annotate_next {V : Type} : ∀ (nodes : List (StepNode V)) (p : Nat),
    (annotateNodes nodes p).2.2 = p + (annotateNodes nodes p).1.length
  | [], p => by simp [annotateNodes]
  | .leaf k l i w :: rest, p => by
      have ih := annotate_next rest (p + 1)
      simp only [annotateNodes, List.length_cons]
      omega
  | .group k l i cs :: rest, p => by
      have ih1 := annotate_next cs (p + 1)
      have ih2 := annotate_next rest (annotateNodes cs (p + 1)).2.2
      simp only [annotateNodes, List.length_cons, List.length_append]
      omega

theorem annotate_wf {V : Type} : ∀ (nodes : List (StepNode V)) (p : Nat),
    (∀ (i : Nat) (en : FlatEntry V), ((annotateNodes nodes p).1)[i]? = some en →
      (en.isGroup = true → en.work = none) ∧
      (∀ q ∈ en.leafPos, p ≤ q ∧
        ∃ en2, ((annotateNodes nodes p).1)[q - p]? = some en2 ∧ en2.work.isSome = true)) ∧
    (∀ q ∈ (annotateNodes nodes p).2.1, p ≤ q ∧
      ∃ en2, ((annotateNodes nodes p).1)[q - p]? = some en2 ∧ en2.work.isSome = true)
  | [], p => by
      constructor
      · intro i en hi
        simp only [annotateNodes] at hi
        exact absurd hi (by simp)
      · intro q hq
        simp only [annotateNodes] at hq
        exact absurd hq (by simp)
  | .leaf k l i0 w :: rest, p => by
      have ih := annotate_wf rest (p + 1)
      have hstr : (annotateNodes (StepNode.leaf k l i0 w :: rest) p).1 =
          ⟨k, l, i0, false, some w, [p]⟩ :: (annotateNodes rest (p + 1)).1 := by
        simp only [annotateNodes]
      have hstr2 : (annotateNodes (StepNode.leaf k l i0 w :: rest) p).2.1 =
          p :: (annotateNodes rest (p + 1)).2.1 := by
        simp only [annotateNodes]
      have hself : ∀ q, q = p → p ≤ q ∧
          ∃ en2, ((annotateNodes (StepNode.leaf k l i0 w :: rest) p).1)[q - p]? = some en2 ∧
            en2.work.isSome = true := by
        intro q hq
        subst hq
        refine ⟨Nat.le_refl _, ⟨k, l, i0, false, some w, [q]⟩, ?_, rfl⟩
        rw [hstr, Nat.sub_self, List.getElem?_cons_zero]
      have hlift : ∀ q en2, p + 1 ≤ q →
          ((annotateNodes rest (p + 1)).1)[q - (p + 1)]? = some en2 →
          ((annotateNodes (StepNode.leaf k l i0 w :: rest) p).1)[q - p]? = some en2 := by
        intro q en2 hpq hl
        have hqp : q - p = (q - (p + 1)) + 1 := by omega
        rw [hstr, hqp, List.getElem?_cons_succ]
        exact hl
      constructor
      · intro i en hi
        rw [hstr] at hi
        cases i with
        | zero =>
            rw [List.getElem?_cons_zero] at hi
            have hen : en = ⟨k, l, i0, false, some w, [p]⟩ := by
              injection hi with h
              exact h.symm
            subst hen
            refine ⟨fun hcon => absurd hcon (by simp), ?_⟩
            intro q hq
            have hqp : q = p := by simpa using hq
            exact hself q hqp
        | succ j =>
            rw [List.getElem?_cons_succ] at hi
            obtain ⟨hgr, hlp⟩ := ih.1 j en hi
            refine ⟨hgr, ?_⟩
            intro q hq
            obtain ⟨hb, en2, hl, hw⟩ := hlp q hq
            exact ⟨by omega, en2, hlift q en2 hb hl, hw⟩
      · intro q hq
        rw [hstr2] at hq
        rcases List.mem_cons.1 hq with hq0 | hqr
        · exact hself q hq0
        · obtain ⟨hb, en2, hl, hw⟩ := ih.2 q hqr
          exact ⟨by omega, en2, hlift q en2 hb hl, hw⟩
  | .group k l i0 cs :: rest, p => by
      have ih1 := annotate_wf cs (p + 1)
      have ih2 := annotate_wf rest (annotateNodes cs (p + 1)).2.2
      have hn1 := annotate_next cs (p + 1)
      have hstr : (annotateNodes (StepNode.group k l i0 cs :: rest) p).1 =
          ⟨k, l, i0, true, none, (annotateNodes cs (p + 1)).2.1⟩ ::
            ((annotateNodes cs (p + 1)).1 ++
              (annotateNodes rest (annotateNodes cs (p + 1)).2.2).1) := by
        simp only [annotateNodes]
      have hstr2 : (annotateNodes (StepNode.group k l i0 cs :: rest) p).2.1 =
          (annotateNodes cs (p + 1)).2.1 ++
            (annotateNodes rest (annotateNodes cs (p + 1)).2.2).2.1 := by
        simp only [annotateNodes]
      have hliftc : ∀ q en2, p + 1 ≤ q →
          ((annotateNodes cs (p + 1)).1)[q - (p + 1)]? = some en2 →
          ((annotateNodes (StepNode.group k l i0 cs :: rest) p).1)[q - p]? = some en2 := by
        intro q en2 hpq hl
        have hlt : q - (p + 1) < (annotateNodes cs (p + 1)).1.length := by
          by_contra hge
          rw [List.getElem?_eq_none (by omega)] at hl
          exact absurd hl (by simp)
        have hqp : q - p = (q - (p + 1)) + 1 := by omega
        rw [hstr, hqp, List.getElem?_cons_succ, List.getElem?_append, if_pos hlt]
        exact hl
      have hliftr : ∀ q en2, (annotateNodes cs (p + 1)).2.2 ≤ q →
          ((annotateNodes rest (annotateNodes cs (p + 1)).2.2).1)[
            q - (annotateNodes cs (p + 1)).2.2]? = some en2 →
          ((annotateNodes (StepNode.group k l i0 cs :: rest) p).1)[q - p]? = some en2 := by
        intro q en2 hpq hl
        have hqp : q - p = ((annotateNodes cs (p + 1)).1.length +
            (q - (annotateNodes cs (p + 1)).2.2)) + 1 := by omega
        rw [hstr, hqp, List.getElem?_cons_succ, List.getElem?_append, if_neg (by omega)]
        have harith : (annotateNodes cs (p + 1)).1.length +
            (q - (annotateNodes cs (p + 1)).2.2) -
            (annotateNodes cs (p + 1)).1.length = q - (annotateNodes cs (p + 1)).2.2 := by
          omega
        rw [harith]
        exact hl
      have hcsub : ∀ q, q ∈ (annotateNodes cs (p + 1)).2.1 → p ≤ q ∧
          ∃ en2, ((annotateNodes (StepNode.group k l i0 cs :: rest) p).1)[q - p]? = some en2 ∧
            en2.work.isSome = true := by
        intro q hq
        obtain ⟨hb, en2, hl, hw⟩ := ih1.2 q hq
        exact ⟨by omega, en2, hliftc q en2 hb hl, hw⟩
      have hrsub : ∀ q, q ∈ (annotateNodes rest (annotateNodes cs (p + 1)).2.2).2.1 →
          p ≤ q ∧
          ∃ en2, ((annotateNodes (StepNode.group k l i0 cs :: rest) p).1)[q - p]? = some en2 ∧
            en2.work.isSome = true := by
        intro q hq
        obtain ⟨hb, en2, hl, hw⟩ := ih2.2 q hq
        exact ⟨by omega, en2, hliftr q en2 hb hl, hw⟩
      constructor
      · intro i en hi
        rw [hstr] at hi
        cases i with
        | zero =>
            rw [List.getElem?_cons_zero] at hi
            have hen : en = ⟨k, l, i0, true, none, (annotateNodes cs (p + 1)).2.1⟩ := by
              injection hi with h
              exact h.symm
            subst hen
            exact ⟨fun _ => rfl, fun q hq => hcsub q hq⟩
        | succ j =>
            rw [List.getElem?_cons_succ] at hi
            by_cases hj : j < (annotateNodes cs (p + 1)).1.length
            · rw [List.getElem?_append, if_pos hj] at hi
              obtain ⟨hgr, hlp⟩ := ih1.1 j en hi
              refine ⟨hgr, ?_⟩
              intro q hq
              obtain ⟨hb, en2, hl, hw⟩ := hlp q hq
              exact ⟨by omega, en2, hliftc q en2 hb hl, hw⟩
            · rw [List.getElem?_append, if_neg hj] at hi
              obtain ⟨hgr, hlp⟩ := ih2.1 _ en hi
              refine ⟨hgr, ?_⟩
              intro q hq
              obtain ⟨hb, en2, hl, hw⟩ := hlp q hq
              exact ⟨by omega, en2, hliftr q en2 hb hl, hw⟩
      · intro q hq
        rw [hstr2] at hq
        rcases List.mem_append.1 hq with hqc | hqr
        · exact hcsub q hqc
        · exact hrsub q hqr

/-- Global well-formedness facts about a flattened declaration: group
entries carry no work item, and every recorded leaf-descendant position
points at an entry that has a work item. -/
theorem stepsEntries_wf {V : Type} (roots : List (StepNode V)) (g : Nat)
    (gen : FlatEntry V) (hg : (stepsEntries roots)[g]? = some gen) :
    (gen.isGroup = true → gen.work = none) ∧
    (∀ q ∈ gen.leafPos, ∃ en2, (stepsEntries roots)[q]? = some en2 ∧
      en2.work.isSome = true) := by
  have h := (annotate_wf roots 0).1 g gen hg
  refine ⟨h.1, ?_⟩
  intro q hq
  obtain ⟨hb, en2, hl, hw⟩ := h.2 q hq
  rw [Nat.sub_zero] at hl
  exact ⟨en2, hl, hw⟩

/-! ## Characterising group start / group completion folds -/

theorem lookupN_append_single (a : List (Nat × Nat)) (x v k : Nat) :
    lookupN (a ++ [(x, v)]) k =
      if (lookupN a k).isSome then lookupN a k
      else if x = k then some v else none := by
  induction a with
  | nil =>
      by_cases hx : x = k
      · simp [lookupN, hx]
      · simp [lookupN, hx, beq_eq_false_iff_ne.2 hx]
  | cons kv rest ih =>
      by_cases hk : kv.1 = k
      · have hb : (kv.1 == k) = true := by simpa using hk
        unfold lookupN
        rw [List.cons_append,
          @List.find?_cons_of_pos _ (fun kv => kv.1 == k) kv (rest ++ [(x, v)]) hb,
          @List.find?_cons_of_pos _ (fun kv => kv.1 == k) kv rest hb]
        simp
      · have hb : (kv.1 == k) = false := beq_eq_false_iff_ne.2 hk
        unfold lookupN at ih ⊢
        rw [List.cons_append, List.find?_cons_of_neg _ (by simp [hb]),
          List.find?_cons_of_neg _ (by simp [hb])]
        exact ih

/-- The body of the `startGroups` fold. -/
def sgStep {V : Type} (st : RunSt V) (g : Nat) : RunSt V :=
  if (lookupN st.groupStart g).isSome then st
  else { st with groupStart := st.groupStart ++ [(g, st.s.now)],
                 s := { st.s with m := taskStart st.s.m g } }

theorem startGroups_eq_fold {V : Type} (entries : List (FlatEntry V)) (pos : Nat)
    (st : RunSt V) :
    startGroups entries pos st = (leafGroups entries pos).foldl sgStep st := rfl

/-- The body of the `finishGroups` fold. -/
def fgStep {V : Type} (entries : List (FlatEntry V)) (st : RunSt V) (g : Nat) : RunSt V :=
  if (groupLeafPos entries g).all (fun l => st.completed.contains l) then
    { st with s := { st.s with
        m := taskCompleteTime st.s.m g (st.s.now - (lookupN st.groupStart g).getD 0) } }
  else st

theorem finishGroups_eq_fold {V : Type} (entries : List (FlatEntry V)) (pos : Nat)
    (st : RunSt V) :
    finishGroups entries pos st =
      (leafGroups entries pos).foldl (fgStep entries)
        { st with completed := st.completed ++ [pos] } := rfl

theorem sgFold_char {V : Type} (g : Nat) (gl : List Nat) (st : RunSt V) :
    (gl.foldl sgStep st).s.now = st.s.now ∧
    (gl.foldl sgStep st).completed = st.completed ∧
    (gl.foldl sgStep st).s.m.nextId = st.s.m.nextId ∧
    (lookupN (gl.foldl sgStep st).groupStart g =
      if g ∈ gl ∧ lookupN st.groupStart g = none then some st.s.now
      else lookupN st.groupStart g) ∧
    ((gl.foldl sgStep st).s.m.findTask g =
      if g ∈ gl ∧ lookupN st.groupStart g = none then
        (st.s.m.findTask g).map (fun t => { t with status := .running })
      else st.s.m.findTask g) ∧
    (∀ j, j ∉ gl → (gl.foldl sgStep st).s.m.findTask j = st.s.m.findTask j) := by
  induction gl generalizing st with
  | nil =>
      refine ⟨rfl, rfl, rfl, by simp, by simp, fun j _ => rfl⟩
  | cons x xs ih =>
      rw [List.foldl_cons]
      by_cases hx : (lookupN st.groupStart x).isSome
      · have hstep : sgStep st x = st := by
          unfold sgStep
          rw [if_pos hx]
        rw [hstep]
        obtain ⟨h1, h2, h3, h4, h5, h6⟩ := ih st
        have hcond : (g ∈ x :: xs ∧ lookupN st.groupStart g = none) ↔
            (g ∈ xs ∧ lookupN st.groupStart g = none) := by
          constructor
          · rintro ⟨hm, hn⟩
            rcases List.mem_cons.1 hm with he | hm2
            · rw [he] at hn
              rw [hn] at hx
              exact absurd hx (by simp)
            · exact ⟨hm2, hn⟩
          · rintro ⟨hm, hn⟩
            exact ⟨List.mem_cons_of_mem _ hm, hn⟩
        refine ⟨h1, h2, h3, ?_, ?_, ?_⟩
        · rw [h4, if_congr hcond rfl rfl]
        · rw [h5, if_congr hcond rfl rfl]
        · intro j hj
          exact h6 j (fun hm => hj (List.mem_cons_of_mem _ hm))
      · have hstep : sgStep st x =
            { st with groupStart := st.groupStart ++ [(x, st.s.now)],
                      s := { st.s with m := taskStart st.s.m x } } := by
          unfold sgStep
          rw [if_neg hx]
        rw [hstep]
        obtain ⟨h1, h2, h3, h4, h5, h6⟩ := ih
          { st with groupStart := st.groupStart ++ [(x, st.s.now)],
                    s := { st.s with m := taskStart st.s.m x } }
        have hxnone : lookupN st.groupStart x = none := by
          cases hlx : lookupN st.groupStart x with
          | none => rfl
          | some v => rw [hlx] at hx; exact absurd (by simp) hx
        by_cases hgx : g = x
        · subst hgx
          have hlk : lookupN (st.groupStart ++ [(g, st.s.now)]) g = some st.s.now := by
            rw [lookupN_append_single, if_neg (by rw [hxnone]; simp), if_pos rfl]
          refine ⟨h1, h2, by rw [h3]; exact taskStart_nextId _ _, ?_, ?_, ?_⟩
          · rw [h4]
            rw [if_neg (by rw [hlk]; simp)]
            show lookupN (st.groupStart ++ [(g, st.s.now)]) g = _
            rw [hlk, if_pos (⟨List.mem_cons_self g xs, hxnone⟩ :
              g ∈ g :: xs ∧ lookupN st.groupStart g = none)]
          · rw [h5, if_neg (by rw [hlk]; simp)]
            show (taskStart st.s.m g).findTask g = _
            rw [taskStart_findTask, if_pos rfl, if_pos (⟨List.mem_cons_self g xs, hxnone⟩ :
              g ∈ g :: xs ∧ lookupN st.groupStart g = none)]
          · intro j hj
            have hjg : j ≠ g := fun hcon => hj (by rw [hcon]; exact List.mem_cons_self g xs)
            rw [h6 j (fun hm => hj (List.mem_cons_of_mem _ hm))]
            show (taskStart st.s.m g).findTask j = _
            rw [taskStart_findTask, if_neg hjg]
        · have hlk : lookupN (st.groupStart ++ [(x, st.s.now)]) g = lookupN st.groupStart g := by
            cases hlg : lookupN st.groupStart g with
            | none =>
                rw [lookupN_append_single, hlg, if_neg (by simp),
                  if_neg (fun hcon => hgx hcon.symm)]
            | some v =>
                rw [lookupN_append_single, hlg, if_pos (by simp)]
          have hft : (taskStart st.s.m x).findTask g = st.s.m.findTask g := by
            rw [taskStart_findTask, if_neg hgx]
          have hcond : (g ∈ xs ∧ lookupN st.groupStart g = none) ↔
              (g ∈ x :: xs ∧ lookupN st.groupStart g = none) := by
            constructor
            · rintro ⟨hm, hn⟩
              exact ⟨List.mem_cons_of_mem _ hm, hn⟩
            · rintro ⟨hm, hn⟩
              rcases List.mem_cons.1 hm with he | hm2
              · exact absurd he hgx
              · exact ⟨hm2, hn⟩
          refine ⟨h1, h2, by rw [h3]; exact taskStart_nextId _ _, ?_, ?_, ?_⟩
          · rw [h4]
            show (if g ∈ xs ∧ lookupN (st.groupStart ++ [(x, st.s.now)]) g = none
              then some st.s.now else lookupN (st.groupStart ++ [(x, st.s.now)]) g) = _
            rw [hlk, if_congr hcond rfl rfl]
          · rw [h5]
            show (if g ∈ xs ∧ lookupN (st.groupStart ++ [(x, st.s.now)]) g = none
              then ((taskStart st.s.m x).findTask g).map
                (fun t => { t with status := .running })
              else (taskStart st.s.m x).findTask g) = _
            rw [hlk, hft, if_congr hcond rfl rfl]
          · intro j hj
            rw [h6 j (fun hm => hj (List.mem_cons_of_mem _ hm))]
            have hjx : j ≠ x := fun hcon => hj (by rw [hcon]; exact List.mem_cons_self x xs)
            show (taskStart st.s.m x).findTask j = _
            rw [taskStart_findTask, if_neg hjx]

theorem fgFold_char {V : Type} (entries : List (FlatEntry V)) (g : Nat) (gl : List Nat)
    (st : RunSt V) :
    (gl.foldl (fgStep entries) st).s.now = st.s.now ∧
    (gl.foldl (fgStep entries) st).completed = st.completed ∧
    (gl.foldl (fgStep entries) st).groupStart = st.groupStart ∧
    (gl.foldl (fgStep entries) st).s.m.nextId = st.s.m.nextId ∧
    ((gl.foldl (fgStep entries) st).s.m.findTask g =
      if g ∈ gl ∧ (groupLeafPos entries g).all (fun q => st.completed.contains q) then
        (st.s.m.findTask g).map (fun t => { t with status := .completed, completionTime := some (st.s.now - (lookupN st.groupStart g).getD 0) })
      else st.s.m.findTask g) ∧
    (∀ j, j ∉ gl → (gl.foldl (fgStep entries) st).s.m.findTask j = st.s.m.findTask j) := by
  induction gl generalizing st with
  | nil =>
      refine ⟨rfl, rfl, rfl, rfl, by simp, fun j _ => rfl⟩
  | cons x xs ih =>
      rw [List.foldl_cons]
      by_cases hchk : (groupLeafPos entries x).all (fun q => st.completed.contains q) = true
      · have hstep : fgStep entries st x =
            { st with s := { st.s with
                m := taskCompleteTime st.s.m x (st.s.now - (lookupN st.groupStart x).getD 0) } } := by
          unfold fgStep
          rw [if_pos hchk]
        rw [hstep]
        obtain ⟨h1, h2, h3, h4, h5, h6⟩ := ih
          { st with s := { st.s with
              m := taskCompleteTime st.s.m x (st.s.now - (lookupN st.groupStart x).getD 0) } }
        by_cases hgx : g = x
        · subst hgx
          have hfg : (taskCompleteTime st.s.m g
              (st.s.now - (lookupN st.groupStart g).getD 0)).findTask g =
              (st.s.m.findTask g).map (fun t => { t with status := .completed, completionTime := some (st.s.now - (lookupN st.groupStart g).getD 0) }) := by
            rw [taskCompleteTime_findTask, if_pos rfl]
          refine ⟨h1, h2, h3, by rw [h4]; exact taskCompleteTime_nextId _ _ _, ?_, ?_⟩
          · rw [h5]
            by_cases hgxs : g ∈ xs
            · rw [if_pos ⟨hgxs, hchk⟩, hfg,
                if_pos (⟨List.mem_cons_self g xs, hchk⟩ :
                  g ∈ g :: xs ∧ (groupLeafPos entries g).all
                    (fun q => st.completed.contains q) = true)]
              rw [Option.map_map]
              cases st.s.m.findTask g with
              | none => rfl
              | some t => rfl
            · rw [if_neg (fun hcon => hgxs hcon.1), hfg,
                if_pos (⟨List.mem_cons_self g xs, hchk⟩ :
                  g ∈ g :: xs ∧ (groupLeafPos entries g).all
                    (fun q => st.completed.contains q) = true)]
          · intro j hj
            have hjg : j ≠ g := fun hcon => hj (by rw [hcon]; exact List.mem_cons_self g xs)
            rw [h6 j (fun hm => hj (List.mem_cons_of_mem _ hm))]
            show (taskCompleteTime st.s.m g _).findTask j = _
            rw [taskCompleteTime_findTask, if_neg hjg]
        · have hfg : (taskCompleteTime st.s.m x
              (st.s.now - (lookupN st.groupStart x).getD 0)).findTask g =
              st.s.m.findTask g := by
            rw [taskCompleteTime_findTask, if_neg hgx]
          have hcond : (g ∈ xs ∧ (groupLeafPos entries g).all
              (fun q => st.completed.contains q) = true) ↔
              (g ∈ x :: xs ∧ (groupLeafPos entries g).all
                (fun q => st.completed.contains q) = true) := by
            constructor
            · rintro ⟨hm, hn⟩
              exact ⟨List.mem_cons_of_mem _ hm, hn⟩
            · rintro ⟨hm, hn⟩
              rcases List.mem_cons.1 hm with he | hm2
              · exact absurd he hgx
              · exact ⟨hm2, hn⟩
          refine ⟨h1, h2, h3, by rw [h4]; exact taskCompleteTime_nextId _ _ _, ?_, ?_⟩
          · rw [h5, hfg, if_congr hcond rfl rfl]
          · intro j hj
            have hjx : j ≠ x := fun hcon => hj (by rw [hcon]; exact List.mem_cons_self x xs)
            rw [h6 j (fun hm => hj (List.mem_cons_of_mem _ hm))]
            show (taskCompleteTime st.s.m x _).findTask j = _
            rw [taskCompleteTime_findTask, if_neg hjx]
      · have hstep : fgStep entries st x = st := by
          unfold fgStep
          rw [if_neg hchk]
        rw [hstep]
        obtain ⟨h1, h2, h3, h4, h5, h6⟩ := ih st
        by_cases hgx : g = x
        · subst hgx
          have hcond : (g ∈ xs ∧ (groupLeafPos entries g).all
              (fun q => st.completed.contains q) = true) ↔
              (g ∈ g :: xs ∧ (groupLeafPos entries g).all
                (fun q => st.completed.contains q) = true) := by
            constructor
            · rintro ⟨hm, hn⟩
              exact absurd hn hchk
            · rintro ⟨hm, hn⟩
              exact absurd hn hchk
          refine ⟨h1, h2, h3, h4, ?_, ?_⟩
          · rw [h5, if_congr hcond rfl rfl]
          · intro j hj
            exact h6 j (fun hm => hj (List.mem_cons_of_mem _ hm))
        · have hcond : (g ∈ xs ∧ (groupLeafPos entries g).all
              (fun q => st.completed.contains q) = true) ↔
              (g ∈ x :: xs ∧ (groupLeafPos entries g).all
                (fun q => st.completed.contains q) = true) := by
            constructor
            · rintro ⟨hm, hn⟩
              exact ⟨List.mem_cons_of_mem _ hm, hn⟩
            · rintro ⟨hm, hn⟩
              rcases List.mem_cons.1 hm with he | hm2
              · exact absurd he hgx
              · exact ⟨hm2, hn⟩
          refine ⟨h1, h2, h3, h4, ?_, ?_⟩
          · rw [h5, if_congr hcond rfl rfl]
          · intro j hj
            exact h6 j (fun hm => hj (List.mem_cons_of_mem _ hm))

/-! ## Positions, durations, and the prefix clock of a run -/

/-- Whether position `p` holds a leaf entry (one with a work item). -/
def isLeafPos {V : Type} (entries : List (FlatEntry V)) (p : Nat) : Bool :=
  match entries[p]? with
  | some en => en.work.isSome
  | none => false

/-- The logical duration of one flat entry in a `run()` (groups take no
time of their own; leaves take their work's duration on empty input). -/
def durOf {V : Type} (en : FlatEntry V) : Nat :=
  match en.work with
  | none => 0
  | some w => workDur w none

/-- The logical clock value after the first `k` entries of a `run()`. -/
def clockAfter {V : Type} (entries : List (FlatEntry V)) (k : Nat) : Nat :=
  ((entries.take k).map durOf).sum

theorem clockAfter_zero {V : Type} (entries : List (FlatEntry V)) :
    clockAfter entries 0 = 0 := rfl

theorem clockAfter_succ {V : Type} (entries : List (FlatEntry V)) (k : Nat)
    (en : FlatEntry V) (hk : entries[k]? = some en) :
    clockAfter entries (k + 1) = clockAfter entries k + durOf en := by
  unfold clockAfter
  rw [List.take_succ, hk]
  simp

theorem clockAfter_stable {V : Type} (entries : List (FlatEntry V)) (k : Nat)
    (hk : entries.length ≤ k) :
    clockAfter entries (k + 1) = clockAfter entries k := by
  unfold clockAfter
  rw [List.take_of_length_le (by omega), List.take_of_length_le hk]

theorem enum_take_succ {V : Type} (entries : List (FlatEntry V)) (k : Nat)
    (en : FlatEntry V) (hk : entries[k]? = some en) :
    entries.enum.take (k + 1) = entries.enum.take k ++ [(k, en)] := by
  rw [List.take_succ]
  have : entries.enum[k]? = some (k, en) := by
    rw [List.getElem?_enum, hk]
    rfl
  rw [this]
  rfl

theorem mem_leafGroups {V : Type} (entries : List (FlatEntry V)) (pos x : Nat) :
    x ∈ leafGroups entries pos ↔
      ∃ en, entries[x]? = some en ∧ en.isGroup = true ∧ pos ∈ en.leafPos := by
  unfold leafGroups
  constructor
  · intro hx
    obtain ⟨pe, hpe, hfst⟩ := List.mem_map.1 hx
    obtain ⟨hmem, hfil⟩ := List.mem_filter.1 hpe
    have hfil2 : (pe.2.isGroup && pe.2.leafPos.contains pos) = true := hfil
    rw [Bool.and_eq_true] at hfil2
    refine ⟨pe.2, ?_, hfil2.1, List.mem_of_elem_eq_true hfil2.2⟩
    rw [← hfst]
    have hpe2 : (pe.1, pe.2) ∈ entries.enum := by
      have hpp : pe = (pe.1, pe.2) := rfl
      rw [← hpp]
      exact hmem
    exact List.mem_enum_iff_getElem?.1 hpe2
  · rintro ⟨en, hen, hgr, hcont⟩
    refine List.mem_map.2 ⟨(x, en), ?_, rfl⟩
    refine List.mem_filter.2 ⟨List.mem_enum_iff_getElem?.2 hen, ?_⟩
    show (en.isGroup && en.leafPos.contains pos) = true
    rw [Bool.and_eq_true]
    exact ⟨hgr, List.elem_eq_true_of_mem hcont⟩

theorem groupLeafPos_eq {V : Type} (entries : List (FlatEntry V)) (g : Nat)
    (gen : FlatEntry V) (hg : entries[g]? = some gen) :
    groupLeafPos entries g = gen.leafPos := by
  simp [groupLeafPos, hg]

theorem startGroups_nextId {V : Type} (entries : List (FlatEntry V)) (pos : Nat)
    (st : RunSt V) : (startGroups entries pos st).s.m.nextId = st.s.m.nextId := by
  rw [startGroups_eq_fold]
  exact (sgFold_char 0 (leafGroups entries pos) st).2.2.1

theorem startGroups_findTask_not {V : Type} (entries : List (FlatEntry V)) (pos : Nat)
    (st : RunSt V) (j : Nat) (hj : j ∉ leafGroups entries pos) :
    (startGroups entries pos st).s.m.findTask j = st.s.m.findTask j := by
  rw [startGroups_eq_fold]
  exact (sgFold_char 0 (leafGroups entries pos) st).2.2.2.2.2 j hj

theorem finishGroups_nextId {V : Type} (entries : List (FlatEntry V)) (pos : Nat)
    (st : RunSt V) : (finishGroups entries pos st).s.m.nextId = st.s.m.nextId := by
  rw [finishGroups_eq_fold]
  exact (fgFold_char entries 0 (leafGroups entries pos) _).2.2.2.1

theorem finishGroups_findTask_not {V : Type} (entries : List (FlatEntry V)) (pos : Nat)
    (st : RunSt V) (j : Nat) (hj : j ∉ leafGroups entries pos) :
    (finishGroups entries pos st).s.m.findTask j = st.s.m.findTask j := by
  rw [finishGroups_eq_fold]
  exact (fgFold_char entries 0 (leafGroups entries pos) _).2.2.2.2.2 j hj

theorem runLoop_append {V : Type} (entries : List (FlatEntry V))
    (l1 l2 : List (Nat × FlatEntry V)) (st : RunSt V)
    (h : (runLoop entries l1 st).2 = none) :
    runLoop entries (l1 ++ l2) st = runLoop entries l2 (runLoop entries l1 st).1 := by
  induction l1 generalizing st with
  | nil => rfl
  | cons pe rest ih =>
      obtain ⟨pos, en⟩ := pe
      cases hw : en.work with
      | none =>
          have hl : runLoop entries ((pos, en) :: rest) st = runLoop entries rest st := by
            simp only [runLoop, hw]
          have hl2 : runLoop entries (((pos, en) :: rest) ++ l2) st =
              runLoop entries (rest ++ l2) st := by
            simp only [List.cons_append, runLoop, hw]
            rfl
          rw [hl] at h ⊢
          rw [hl2]
          exact ih st h
      | some w =>
          cases hex : (executeStep pos en.indent en.label w none
              (startGroups entries pos st).s).2 with
          | error e =>
              exact absurd h (by simp only [runLoop, hw, hex]; simp)
          | ok v =>
              have hl : runLoop entries ((pos, en) :: rest) st =
                  runLoop entries rest
                    (finishGroups entries pos
                      { startGroups entries pos st with
                        s := (executeStep pos en.indent en.label w none
                          (startGroups entries pos st).s).1,
                        results := setA (startGroups entries pos st).results en.key v }) := by
                simp only [runLoop, hw, hex]
              have hl2 : runLoop entries (((pos, en) :: rest) ++ l2) st =
                  runLoop entries (rest ++ l2)
                    (finishGroups entries pos
                      { startGroups entries pos st with
                        s := (executeStep pos en.indent en.label w none
                          (startGroups entries pos st).s).1,
                        results := setA (startGroups entries pos st).results en.key v }) := by
                simp only [List.cons_append, runLoop, hw, hex]
                rfl
              rw [hl] at h ⊢
              rw [hl2]
              exact ih _ h

theorem getElemQ_some_lt {A : Type} (l : List A) (j : Nat) (a : A)
    (h : l[j]? = some a) : j < l.length := by
  by_contra hge
  rw [List.getElem?_eq_none (by omega)] at h
  exact absurd h (by simp)

/-- Invariants of a clean prefix of the `run()` loop: no error yet, the id
counter stays past every registered record, the clock equals the prefix
clock, the completed set is exactly the processed leaf positions, and
leaves not processed yet have untouched records. -/
theorem runPrefix_base {V : Type} (entries : List (FlatEntry V))
    (hwf : ∀ (i : Nat) (en : FlatEntry V), entries[i]? = some en →
      en.isGroup = true → en.work = none) :
    ∀ (k : Nat),
    (∀ (i : Nat) (en : FlatEntry V) (w : Work V), i < k → entries[i]? = some en →
      en.work = some w → ∃ v, evalWorkValue w none = Except.ok v) →
    (runLoop entries (entries.enum.take k) (initRunSt entries)).2 = none ∧
    entries.length ≤ (runLoop entries (entries.enum.take k) (initRunSt entries)).1.s.m.nextId ∧
    (runLoop entries (entries.enum.take k) (initRunSt entries)).1.s.now = clockAfter entries k ∧
    (∀ p, p ∈ (runLoop entries (entries.enum.take k) (initRunSt entries)).1.completed ↔
      (p < k ∧ isLeafPos entries p = true)) ∧
    (∀ (j : Nat) (en2 : FlatEntry V), entries[j]? = some en2 → en2.work.isSome = true →
      k ≤ j →
      (runLoop entries (entries.enum.take k) (initRunSt entries)).1.s.m.findTask j =
        (initRunSt entries : RunSt V).s.m.findTask j) := by
  intro k
  induction k with
  | zero =>
      intro hclean
      refine ⟨rfl, ?_, rfl, ?_, ?_⟩
      · show entries.length ≤ (initRunSt entries : RunSt V).s.m.nextId
        rw [(initRunSt_spec entries).1]
      · intro p
        constructor
        · intro hp
          have hp2 : p ∈ ([] : List Nat) := hp
          exact absurd hp2 (List.not_mem_nil p)
        · rintro ⟨hp, _⟩
          omega
      · intro j en2 _ _ _
        rfl
  | succ k ih =>
      intro hclean
      have ihk := ih (fun i en w hi hen hw => hclean i en w (by omega) hen hw)
      by_cases hk : k < entries.length
      · obtain ⟨en, hen⟩ : ∃ en, entries[k]? = some en :=
          ⟨entries[k], List.getElem?_eq_getElem hk⟩
        have htake := enum_take_succ entries k en hen
        rw [htake, runLoop_append entries _ _ _ ihk.1]
        cases hw : en.work with
        | none =>
            have hstep : runLoop entries [(k, en)]
                (runLoop entries (entries.enum.take k) (initRunSt entries)).1 =
                ((runLoop entries (entries.enum.take k) (initRunSt entries)).1, none) := by
              simp only [runLoop, hw]
            rw [hstep]
            have hlf : isLeafPos entries k = false := by
              simp [isLeafPos, hen, hw]
            refine ⟨rfl, ihk.2.1, ?_, ?_, ?_⟩
            · rw [clockAfter_succ entries k en hen,
                show durOf en = 0 from by simp [durOf, hw], Nat.add_zero]
              exact ihk.2.2.1
            · intro p
              rw [ihk.2.2.2.1 p]
              constructor
              · rintro ⟨hp, hl⟩
                exact ⟨by omega, hl⟩
              · rintro ⟨hp, hl⟩
                refine ⟨?_, hl⟩
                rcases Nat.lt_succ_iff_lt_or_eq.1 hp with h1 | h1
                · exact h1
                · rw [h1] at hl
                  rw [hlf] at hl
                  exact absurd hl (by simp)
            · intro j en2 hj2 hw2 hjk
              exact ihk.2.2.2.2 j en2 hj2 hw2 (by omega)
        | some w =>
            obtain ⟨v, hv⟩ := hclean k en w (by omega) hen hw
            have hex : (executeStep k en.indent en.label w none
                (startGroups entries k
                  (runLoop entries (entries.enum.take k) (initRunSt entries)).1).s).2 =
                .ok v := by
              rw [executeStep_snd]
              exact hv
            have hstep : runLoop entries [(k, en)]
                (runLoop entries (entries.enum.take k) (initRunSt entries)).1 =
                (finishGroups entries k
                  { startGroups entries k
                      (runLoop entries (entries.enum.take k) (initRunSt entries)).1 with
                    s := (executeStep k en.indent en.label w none
                      (startGroups entries k
                        (runLoop entries (entries.enum.take k) (initRunSt entries)).1).s).1,
                    results := setA (startGroups entries k
                      (runLoop entries (entries.enum.take k) (initRunSt entries)).1).results
                      en.key v }, none) := by
              simp only [runLoop, hw, hex]
            rw [hstep]
            have hlen1 : entries.length ≤ (startGroups entries k
                (runLoop entries (entries.enum.take k) (initRunSt entries)).1).s.m.nextId := by
              rw [startGroups_nextId]
              exact ihk.2.1
            have hfr := executeStep_frame k en.indent en.label w none
              (startGroups entries k
                (runLoop entries (entries.enum.take k) (initRunSt entries)).1).s
              entries.length hlen1
            have hlf : isLeafPos entries k = true := by
              simp [isLeafPos, hen, hw]
            refine ⟨rfl, ?_, ?_, ?_, ?_⟩
            · show entries.length ≤ (finishGroups entries k _).s.m.nextId
              rw [finishGroups_nextId]
              exact Nat.le_trans hlen1 hfr.2.1
            · show (finishGroups entries k _).s.now = _
              rw [finishGroups_now]
              show (executeStep k en.indent en.label w none
                (startGroups entries k
                  (runLoop entries (entries.enum.take k) (initRunSt entries)).1).s).1.now = _
              rw [executeStep_now, startGroups_now, ihk.2.2.1,
                clockAfter_succ entries k en hen,
                show durOf en = workDur w none from by simp [durOf, hw]]
            · intro p
              show p ∈ (finishGroups entries k _).completed ↔ _
              rw [finishGroups_completed]
              show p ∈ (startGroups entries k
                (runLoop entries (entries.enum.take k) (initRunSt entries)).1).completed
                ++ [k] ↔ _
              rw [startGroups_completed]
              rw [List.mem_append]
              constructor
              · rintro (hp | hp)
                · obtain ⟨h1, h2⟩ := (ihk.2.2.2.1 p).1 hp
                  exact ⟨by omega, h2⟩
                · have hpk : p = k := by simpa using hp
                  rw [hpk]
                  exact ⟨by omega, hlf⟩
              · rintro ⟨hp, hl⟩
                rcases Nat.lt_succ_iff_lt_or_eq.1 hp with h1 | h1
                · exact Or.inl ((ihk.2.2.2.1 p).2 ⟨h1, hl⟩)
                · exact Or.inr (by simp [h1])
            · intro j en2 hj2 hw2 hjk
              have hjlen : j < entries.length := getElemQ_some_lt entries j en2 hj2
              have hjng : j ∉ leafGroups entries k := by
                intro hmem
                obtain ⟨en3, hen3, hgr3, _⟩ := (mem_leafGroups entries k j).1 hmem
                have hwn := hwf j en3 hen3 hgr3
                have he : en3 = en2 := by
                  rw [hj2] at hen3
                  injection hen3 with h
                  exact h.symm
                rw [he] at hwn
                rw [hwn] at hw2
                exact absurd hw2 (by simp)
              show (finishGroups entries k _).s.m.findTask j = _
              rw [finishGroups_findTask_not entries k _ j hjng]
              show (executeStep k en.indent en.label w none
                (startGroups entries k
                  (runLoop entries (entries.enum.take k) (initRunSt entries)).1).s).1.m.findTask
                j = _
              rw [hfr.1 j hjlen (by omega), startGroups_findTask_not entries k _ j hjng]
              exact ihk.2.2.2.2 j en2 hj2 hw2 (by omega)
      · have htake : entries.enum.take (k + 1) = entries.enum.take k := by
          rw [List.take_of_length_le (by rw [List.enum_length]; omega),
            List.take_of_length_le (by rw [List.enum_length]; omega)]
        rw [htake]
        have hlf : isLeafPos entries k = false := by
          unfold isLeafPos
          rw [List.getElem?_eq_none (by omega)]
        refine ⟨ihk.1, ihk.2.1, ?_, ?_, ?_⟩
        · rw [clockAfter_stable entries k (by omega)]
          exact ihk.2.2.1
        · intro p
          rw [ihk.2.2.2.1 p]
          constructor
          · rintro ⟨hp, hl⟩
            exact ⟨by omega, hl⟩
          · rintro ⟨hp, hl⟩
            refine ⟨?_, hl⟩
            rcases Nat.lt_succ_iff_lt_or_eq.1 hp with h1 | h1
            · exact h1
            · rw [h1, hlf] at hl
              exact absurd hl (by simp)
        · intro j en2 hj2 hw2 hjk
          exact ihk.2.2.2.2 j en2 hj2 hw2 (by omega)

theorem isLeafPos_spec {V : Type} (entries : List (FlatEntry V)) (p : Nat)
    (h : isLeafPos entries p = true) :
    ∃ en, entries[p]? = some en ∧ en.work.isSome = true := by
  cases hp : entries[p]? with
  | none =>
      rw [show isLeafPos entries p = false from by simp [isLeafPos, hp]] at h
      exact absurd h (by simp)
  | some en =>
      refine ⟨en, rfl, ?_⟩
      rw [show isLeafPos entries p = en.work.isSome from by simp [isLeafPos, hp]] at h
      exact h

/-- Tracking one group `g` with leaf-descendant set `gen.leafPos`, first
leaf `f` and last leaf `l`, through a clean prefix of the `run()` loop:
its start time is recorded exactly once the first leaf has started, and
its record is completed, with the span from the first leaf's start to the
last leaf's completion, exactly once the last leaf has finished. -/
theorem runPrefix_group {V : Type} (entries : List (FlatEntry V))
    (hwf : ∀ (i : Nat) (en : FlatEntry V), entries[i]? = some en →
      en.isGroup = true → en.work = none)
    (g f l : Nat) (gen : FlatEntry V)
    (hg : entries[g]? = some gen) (hgroup : gen.isGroup = true)
    (hLleaf : ∀ p ∈ gen.leafPos, isLeafPos entries p = true)
    (hfL : f ∈ gen.leafPos) (hfmin : ∀ p ∈ gen.leafPos, f ≤ p)
    (hlL : l ∈ gen.leafPos) (hlmax : ∀ p ∈ gen.leafPos, p ≤ l)
    (hclean : ∀ (i : Nat) (en : FlatEntry V) (w : Work V), entries[i]? = some en →
      en.work = some w → ∃ v, evalWorkValue w none = Except.ok v) :
    ∀ (k : Nat),
    lookupN (runLoop entries (entries.enum.take k) (initRunSt entries)).1.groupStart g =
      (if f < k then some (clockAfter entries f) else none) ∧
    ∃ t, (runLoop entries (entries.enum.take k) (initRunSt entries)).1.s.m.findTask g =
      some t ∧
      (if l < k then t.status = TaskStatus.completed ∧
          t.completionTime = some (clockAfter entries (l + 1) - clockAfter entries f)
        else t.status ≠ TaskStatus.completed ∧ t.completionTime = none) := by
  have hglen : g < entries.length := getElemQ_some_lt entries g gen hg
  have hgw : gen.work = none := hwf g gen hg hgroup
  have hfl : f ≤ l := hlmax f hfL
  intro k
  induction k with
  | zero =>
      obtain ⟨t, ht, hs, hc⟩ := (initRunSt_spec entries).2 g hglen
      refine ⟨?_, t, ht, ?_⟩
      · rw [if_neg (by omega)]
        rfl
      · rw [if_neg (by omega), hs, hc]
        exact ⟨by simp, rfl⟩
  | succ k ihk =>
      have base_k := runPrefix_base entries hwf k
        (fun i en w hi hen hw => hclean i en w hen hw)
      by_cases hk : k < entries.length
      · obtain ⟨en, hen⟩ : ∃ en, entries[k]? = some en :=
          ⟨entries[k], List.getElem?_eq_getElem hk⟩
        have htake := enum_take_succ entries k en hen
        rw [htake, runLoop_append entries _ _ _ base_k.1]
        have hmemiff : g ∈ leafGroups entries k ↔ k ∈ gen.leafPos := by
          rw [mem_leafGroups]
          constructor
          · rintro ⟨en3, hen3, _, hmem⟩
            have he : en3 = gen := by
              rw [hg] at hen3
              injection hen3 with h
              exact h.symm
            rw [he] at hmem
            exact hmem
          · intro hmem
            exact ⟨gen, hg, hgroup, hmem⟩
        cases hw : en.work with
        | none =>
            have hstep : runLoop entries [(k, en)]
                (runLoop entries (entries.enum.take k) (initRunSt entries)).1 =
                ((runLoop entries (entries.enum.take k) (initRunSt entries)).1, none) := by
              simp only [runLoop, hw]
            rw [hstep]
            have hlfk : isLeafPos entries k = false := by
              simp [isLeafPos, hen, hw]
            have hfk : f ≠ k := by
              intro hcon
              rw [hcon] at hfL
              rw [hLleaf k hfL] at hlfk
              exact absurd hlfk (by simp)
            have hlk : l ≠ k := by
              intro hcon
              rw [hcon] at hlL
              rw [hLleaf k hlL] at hlfk
              exact absurd hlfk (by simp)
            refine ⟨?_, ?_⟩
            · rw [if_congr (show (f < k + 1) ↔ (f < k) from by omega) rfl rfl]
              exact ihk.1
            · obtain ⟨t, ht, hcond⟩ := ihk.2
              refine ⟨t, ht, ?_⟩
              rw [if_congr (show (l < k + 1) ↔ (l < k) from by omega) rfl rfl]
              exact hcond
        | some w =>
            obtain ⟨v, hv⟩ := hclean k en w hen hw
            have hgk : g ≠ k := by
              intro hcon
              rw [hcon] at hg
              rw [hen] at hg
              have he : en = gen := Option.some.inj hg
              rw [he, hgw] at hw
              exact absurd hw (by simp)
            have hexv : (executeStep k en.indent en.label w none
                (startGroups entries k
                  (runLoop entries (entries.enum.take k) (initRunSt entries)).1).s).2 =
                .ok v := by
              rw [executeStep_snd]
              exact hv
            have hstep : runLoop entries [(k, en)]
                (runLoop entries (entries.enum.take k) (initRunSt entries)).1 =
                (finishGroups entries k
                  { startGroups entries k
                      (runLoop entries (entries.enum.take k) (initRunSt entries)).1 with
                    s := (executeStep k en.indent en.label w none
                      (startGroups entries k
                        (runLoop entries (entries.enum.take k) (initRunSt entries)).1).s).1,
                    results := setA (startGroups entries k
                      (runLoop entries (entries.enum.take k) (initRunSt entries)).1).results
                      en.key v }, none) := by
              simp only [runLoop, hw, hexv]
            rw [hstep]
            by_cases hkL : k ∈ gen.leafPos
            · -- this leaf belongs to the tracked group
              have hglG : g ∈ leafGroups entries k := hmemiff.2 hkL
              have hfk : f ≤ k := hfmin k hkL
              have hkl : k ≤ l := hlmax k hkL
              have hnl : ¬ l < k := by omega
              obtain ⟨t, ht, hcond⟩ := ihk.2
              rw [if_neg hnl] at hcond
              have hsg := sgFold_char g (leafGroups entries k)
                (runLoop entries (entries.enum.take k) (initRunSt entries)).1
              -- after startGroups: start time recorded, record live and not completed
              have hLK : lookupN (startGroups entries k
                  (runLoop entries (entries.enum.take k) (initRunSt entries)).1).groupStart g =
                  some (clockAfter entries f) := by
                rw [startGroups_eq_fold, hsg.2.2.2.1]
                by_cases hfltk : f < k
                · rw [if_neg (by rw [ihk.1, if_pos hfltk]; simp), ihk.1, if_pos hfltk]
                · have hfek : f = k := by omega
                  rw [if_pos ⟨hglG, by rw [ihk.1, if_neg hfltk]⟩, base_k.2.2.1, hfek]
              have hT1 : ∃ t1, (startGroups entries k
                  (runLoop entries (entries.enum.take k) (initRunSt entries)).1).s.m.findTask g =
                  some t1 ∧ t1.status ≠ TaskStatus.completed ∧ t1.completionTime = none := by
                rw [startGroups_eq_fold, hsg.2.2.2.2.1]
                by_cases hfltk : f < k
                · rw [if_neg (by rw [ihk.1, if_pos hfltk]; simp)]
                  exact ⟨t, ht, hcond⟩
                · rw [if_pos ⟨hglG, by rw [ihk.1, if_neg hfltk]⟩, ht]
                  refine ⟨{ t with status := .running }, rfl, by simp, ?_⟩
                  show t.completionTime = none
                  exact hcond.2
              obtain ⟨t1, ht1, hs1, hc1⟩ := hT1
              have hlen1 : entries.length ≤ (startGroups entries k
                  (runLoop entries (entries.enum.take k) (initRunSt entries)).1).s.m.nextId := by
                rw [startGroups_nextId]
                exact base_k.2.1
              have hfr := executeStep_frame k en.indent en.label w none
                (startGroups entries k
                  (runLoop entries (entries.enum.take k) (initRunSt entries)).1).s
                entries.length hlen1
              have hEx : (executeStep k en.indent en.label w none
                  (startGroups entries k
                    (runLoop entries (entries.enum.take k) (initRunSt entries)).1).s).1.m.findTask
                  g = some t1 := by
                rw [hfr.1 g hglen hgk]
                exact ht1
              have hnow : (executeStep k en.indent en.label w none
                  (startGroups entries k
                    (runLoop entries (entries.enum.take k) (initRunSt entries)).1).s).1.now =
                  clockAfter entries (k + 1) := by
                rw [executeStep_now, startGroups_now, base_k.2.2.1,
                  clockAfter_succ entries k en hen,
                  show durOf en = workDur w none from by simp [durOf, hw]]
              have hfg := fgFold_char entries g (leafGroups entries k)
                { startGroups entries k
                    (runLoop entries (entries.enum.take k) (initRunSt entries)).1 with
                  s := (executeStep k en.indent en.label w none
                    (startGroups entries k
                      (runLoop entries (entries.enum.take k) (initRunSt entries)).1).s).1,
                  results := setA (startGroups entries k
                    (runLoop entries (entries.enum.take k) (initRunSt entries)).1).results
                    en.key v,
                  completed := (startGroups entries k
                    (runLoop entries (entries.enum.take k) (initRunSt entries)).1).completed
                    ++ [k] }
              have hGS2 : lookupN (finishGroups entries k
                  { startGroups entries k
                      (runLoop entries (entries.enum.take k) (initRunSt entries)).1 with
                    s := (executeStep k en.indent en.label w none
                      (startGroups entries k
                        (runLoop entries (entries.enum.take k) (initRunSt entries)).1).s).1,
                    results := setA (startGroups entries k
                      (runLoop entries (entries.enum.take k) (initRunSt entries)).1).results
                      en.key v }).groupStart g = some (clockAfter entries f) := by
                rw [finishGroups_groupStart]
                exact hLK
              have hchk : ((groupLeafPos entries g).all (fun q =>
                  ((startGroups entries k
                    (runLoop entries (entries.enum.take k) (initRunSt entries)).1).completed
                    ++ [k]).contains q) = true) ↔ l ≤ k := by
                rw [groupLeafPos_eq entries g gen hg, List.all_eq_true]
                constructor
                · intro hall
                  have hli := hall l hlL
                  have hlm : l ∈ (startGroups entries k
                      (runLoop entries (entries.enum.take k) (initRunSt entries)).1).completed
                      ++ [k] := List.mem_of_elem_eq_true hli
                  rw [startGroups_completed] at hlm
                  rcases List.mem_append.1 hlm with hl1 | hl2
                  · have := (base_k.2.2.2.1 l).1 hl1
                    omega
                  · have : l = k := by simpa using hl2
                    omega
                · intro hlk3 q hqL
                  refine List.elem_eq_true_of_mem ?_
                  rw [startGroups_completed]
                  refine List.mem_append.2 ?_
                  have hqk : q ≤ k := Nat.le_trans (hlmax q hqL) hlk3
                  rcases Nat.lt_or_eq_of_le hqk with h1 | h1
                  · exact Or.inl ((base_k.2.2.2.1 q).2 ⟨h1, hLleaf q hqL⟩)
                  · exact Or.inr (by simp [h1])
              refine ⟨?_, ?_⟩
              · rw [hGS2, if_pos (by omega)]
              · rw [finishGroups_eq_fold, hfg.2.2.2.2.1]
                by_cases hlk2 : l ≤ k
                · have hkeqL : k = l := by omega
                  rw [if_pos ⟨hglG, hchk.2 hlk2⟩]
                  have hmap : ({ startGroups entries k
                      (runLoop entries (entries.enum.take k) (initRunSt entries)).1 with
                    s := (executeStep k en.indent en.label w none
                      (startGroups entries k
                        (runLoop entries (entries.enum.take k) (initRunSt entries)).1).s).1,
                    results := setA (startGroups entries k
                      (runLoop entries (entries.enum.take k) (initRunSt entries)).1).results
                      en.key v,
                    completed := (startGroups entries k
                      (runLoop entries (entries.enum.take k) (initRunSt entries)).1).completed
                      ++ [k] } : RunSt V).s.m.findTask g = some t1 := hEx
                  rw [hmap]
                  refine ⟨_, rfl, ?_⟩
                  rw [if_pos (by omega)]
                  constructor
                  · rfl
                  · show some ((executeStep k en.indent en.label w none
                        (startGroups entries k
                          (runLoop entries (entries.enum.take k) (initRunSt entries)).1).s).1.now
                      - (lookupN (startGroups entries k
                          (runLoop entries (entries.enum.take k)
                            (initRunSt entries)).1).groupStart g).getD 0) =
                      some (clockAfter entries (l + 1) - clockAfter entries f)
                    rw [hnow, hLK, hkeqL]
                    rfl
                · rw [if_neg (fun hcon => absurd (hchk.1 hcon.2) hlk2)]
                  have hmap : ({ startGroups entries k
                      (runLoop entries (entries.enum.take k) (initRunSt entries)).1 with
                    s := (executeStep k en.indent en.label w none
                      (startGroups entries k
                        (runLoop entries (entries.enum.take k) (initRunSt entries)).1).s).1,
                    results := setA (startGroups entries k
                      (runLoop entries (entries.enum.take k) (initRunSt entries)).1).results
                      en.key v,
                    completed := (startGroups entries k
                      (runLoop entries (entries.enum.take k) (initRunSt entries)).1).completed
                      ++ [k] } : RunSt V).s.m.findTask g = some t1 := hEx
                  rw [hmap]
                  refine ⟨t1, rfl, ?_⟩
                  rw [if_neg (by omega)]
                  exact ⟨hs1, hc1⟩
            · -- leaf of some other group: the tracked group is untouched
              have hgnG : g ∉ leafGroups entries k := fun hcon => hkL (hmemiff.1 hcon)
              have hfk : f ≠ k := fun hcon => hkL (hcon ▸ hfL)
              have hlk : l ≠ k := fun hcon => hkL (hcon ▸ hlL)
              have hsg := sgFold_char g (leafGroups entries k)
                (runLoop entries (entries.enum.take k) (initRunSt entries)).1
              have hlen1 : entries.length ≤ (startGroups entries k
                  (runLoop entries (entries.enum.take k) (initRunSt entries)).1).s.m.nextId := by
                rw [startGroups_nextId]
                exact base_k.2.1
              have hfr := executeStep_frame k en.indent en.label w none
                (startGroups entries k
                  (runLoop entries (entries.enum.take k) (initRunSt entries)).1).s
                entries.length hlen1
              refine ⟨?_, ?_⟩
              · rw [finishGroups_groupStart, startGroups_eq_fold, hsg.2.2.2.1,
                  if_neg (fun hcon => hgnG hcon.1),
                  if_congr (show (f < k + 1) ↔ (f < k) from by omega) rfl rfl]
                exact ihk.1
              · obtain ⟨t, ht, hcond⟩ := ihk.2
                have hunch : (finishGroups entries k
                    { startGroups entries k
                        (runLoop entries (entries.enum.take k) (initRunSt entries)).1 with
                      s := (executeStep k en.indent en.label w none
                        (startGroups entries k
                          (runLoop entries (entries.enum.take k) (initRunSt entries)).1).s).1,
                      results := setA (startGroups entries k
                        (runLoop entries (entries.enum.take k) (initRunSt entries)).1).results
                        en.key v }).s.m.findTask g = some t := by
                  rw [finishGroups_findTask_not entries k _ g hgnG]
                  show (executeStep k en.indent en.label w none
                    (startGroups entries k
                      (runLoop entries (entries.enum.take k)
                        (initRunSt entries)).1).s).1.m.findTask g = _
                  rw [hfr.1 g hglen hgk, startGroups_eq_fold, hsg.2.2.2.2.1,
                    if_neg (fun hcon => hgnG hcon.1)]
                  exact ht
                refine ⟨t, hunch, ?_⟩
                rw [if_congr (show (l < k + 1) ↔ (l < k) from by omega) rfl rfl]
                exact hcond
      · have htake : entries.enum.take (k + 1) = entries.enum.take k := by
          rw [List.take_of_length_le (by rw [List.enum_length]; omega),
            List.take_of_length_le (by rw [List.enum_length]; omega)]
        rw [htake]
        have hflen : f < entries.length := by
          obtain ⟨en2, hen2, _⟩ := isLeafPos_spec entries f (hLleaf f hfL)
          exact getElemQ_some_lt entries f en2 hen2
        have hllen : l < entries.length := by
          obtain ⟨en2, hen2, _⟩ := isLeafPos_spec entries l (hLleaf l hlL)
          exact getElemQ_some_lt entries l en2 hen2
        refine ⟨?_, ?_⟩
        · rw [if_congr (show (f < k + 1) ↔ (f < k) from by omega) rfl rfl]
          exact ihk.1
        · obtain ⟨t, ht, hcond⟩ := ihk.2
          refine ⟨t, ht, ?_⟩
          rw [if_congr (show (l < k + 1) ↔ (l < k) from by omega) rfl rfl]
          exact hcond

/-- C3: in a declarative run over a well-formed step tree, a group's task
record transitions to `completed` exactly when the last of its leaf
descendants completes — after the loop has processed the first `k`
entries, the group's status is `completed` iff every descendant leaf
position lies below `k` — and the completion time it records spans from
the first descendant leaf's start (the run clock at position `f`) to the
last descendant leaf's completion (the run clock after position `l`). -/
theorem C3_group_completion (V : Type) (roots : List (StepNode V)) (clear : Bool)
    (g f l : Nat) (gen : FlatEntry V)
    (hg : (stepsEntries roots)[g]? = some gen) (hgroup : gen.isGroup = true)
    (hfL : f ∈ gen.leafPos) (hfmin : ∀ p ∈ gen.leafPos, f ≤ p)
    (hlL : l ∈ gen.leafPos) (hlmax : ∀ p ∈ gen.leafPos, p ≤ l)
    (hclean : ∀ (i : Nat) (en : FlatEntry V) (w : Work V),
      (stepsEntries roots)[i]? = some en → en.work = some w →
      ∃ v, evalWorkValue w none = Except.ok v) :
    (∀ k, taskStatusOf
        (runLoop (stepsEntries roots) ((stepsEntries roots).enum.take k)
          (initRunSt (stepsEntries roots))).1.s.m g = TaskStatus.completed ↔
        ∀ p ∈ gen.leafPos, p < k) ∧
    completionTimeOf (runDecl roots clear).2 g =
      some (clockAfter (stepsEntries roots) (l + 1) - clockAfter (stepsEntries roots) f) := by
  have hwf : ∀ (i : Nat) (en : FlatEntry V), (stepsEntries roots)[i]? = some en →
      en.isGroup = true → en.work = none :=
    fun i en hi => (stepsEntries_wf roots i en hi).1
  have hLleaf : ∀ p ∈ gen.leafPos, isLeafPos (stepsEntries roots) p = true := by
    intro p hp
    obtain ⟨en2, he2, hw2⟩ := (stepsEntries_wf roots g gen hg).2 p hp
    simp [isLeafPos, he2, hw2]
  have hgrp := runPrefix_group (stepsEntries roots) hwf g f l gen hg hgroup hLleaf
    hfL hfmin hlL hlmax hclean
  have hllen : l < (stepsEntries roots).length := by
    obtain ⟨en2, hen2, _⟩ := isLeafPos_spec (stepsEntries roots) l (hLleaf l hlL)
    exact getElemQ_some_lt _ l en2 hen2
  constructor
  · intro k
    obtain ⟨hlook, t, ht, hcond⟩ := hgrp k
    unfold taskStatusOf
    rw [ht]
    show t.status = TaskStatus.completed ↔ _
    by_cases hlk : l < k
    · rw [if_pos hlk] at hcond
      constructor
      · intro _ p hp
        have := hlmax p hp
        omega
      · intro _
        exact hcond.1
    · rw [if_neg hlk] at hcond
      constructor
      · intro hcs
        exact absurd hcs hcond.1
      · intro hall
        exact absurd (hall l hlL) hlk
  · obtain ⟨hlook, t, ht, hcond⟩ := hgrp (stepsEntries roots).length
    rw [if_pos hllen] at hcond
    have htake : (stepsEntries roots).enum.take (stepsEntries roots).length =
        (stepsEntries roots).enum := by
      rw [List.take_of_length_le (by rw [List.enum_length])]
    rw [htake] at ht
    have hmfin : (runDecl roots clear).2 =
        ((runLoop (stepsEntries roots) (stepsEntries roots).enum
          (initRunSt (stepsEntries roots))).1.s.m.stop clear) := by
      unfold runDecl
      cases hr : (runLoop (stepsEntries roots) (stepsEntries roots).enum
          (initRunSt (stepsEntries roots))).2 with
      | none => simp only [hr]
      | some e => simp only [hr]
    rw [hmfin]
    unfold completionTimeOf
    rw [stop_findTask, ht]
    exact hcond.2

/-- C3 witness: a group of two timed leaves (5ms then 7ms) is completed
with a recorded span of 12ms, from the first leaf's start to the last
leaf's completion. -/
theorem C3_group_completion_witness :
    completionTimeOf (runDecl [StepNode.group "grp" "G" 0
      [StepNode.leaf "a" "A" 1 (Work.sync (fun _ => ([], Except.ok (1 : Int))) 5),
       StepNode.leaf "b" "B" 1 (Work.sync (fun _ => ([], Except.ok (2 : Int))) 7)]]
      false).2 0 = some 12 := by
  have hent : stepsEntries [StepNode.group "grp" "G" 0
      [StepNode.leaf "a" "A" 1 (Work.sync (fun _ => ([], Except.ok (1 : Int))) 5),
       StepNode.leaf "b" "B" 1 (Work.sync (fun _ => ([], Except.ok (2 : Int))) 7)]] =
      [⟨"grp", "G", 0, true, none, [1, 2]⟩,
       ⟨"a", "A", 1, false, some (Work.sync (fun _ => ([], Except.ok (1 : Int))) 5), [1]⟩,
       ⟨"b", "B", 1, false, some (Work.sync (fun _ => ([], Except.ok (2 : Int))) 7), [2]⟩] := by
    simp only [stepsEntries, annotateNodes]
    rfl
  have h := (C3_group_completion Int
    [StepNode.group "grp" "G" 0
      [StepNode.leaf "a" "A" 1 (Work.sync (fun _ => ([], Except.ok (1 : Int))) 5),
       StepNode.leaf "b" "B" 1 (Work.sync (fun _ => ([], Except.ok (2 : Int))) 7)]]
    false 0 1 2 ⟨"grp", "G", 0, true, none, [1, 2]⟩
    (by rw [hent]; rfl) rfl
    (by decide) (by decide) (by decide) (by decide)
    (by
      intro i en w hi hw
      rw [hent] at hi
      have hlt := getElemQ_some_lt _ i en hi
      have hlt3 : i < 3 := by simpa using hlt
      interval_cases i
      · have he : en = ⟨"grp", "G", 0, true, none, [1, 2]⟩ := by
          injection hi with h2
          exact h2.symm
        rw [he] at hw
        exact absurd hw (by simp)
      · have he : en = ⟨"a", "A", 1, false,
            some (Work.sync (fun _ => ([], Except.ok (1 : Int))) 5), [1]⟩ := by
          injection hi with h2
          exact h2.symm
        rw [he] at hw
        have hww : w = Work.sync (fun _ => ([], Except.ok (1 : Int))) 5 :=
          (Option.some.inj hw).symm
        exact ⟨1, by rw [hww]; rfl⟩
      · have he : en = ⟨"b", "B", 1, false,
            some (Work.sync (fun _ => ([], Except.ok (2 : Int))) 7), [2]⟩ := by
          injection hi with h2
          exact h2.symm
        rw [he] at hw
        have hww : w = Work.sync (fun _ => ([], Except.ok (2 : Int))) 7 :=
          (Option.some.inj hw).symm
        exact ⟨2, by rw [hww]; rfl⟩)).2
  rw [h, hent]
  rfl

/-! ## The fluent (legacy) builder: `steps().run(title, work).execute()`
(steps.ts `createFluentBuilder`, `processYield`, `runSyncGenerator` /
`runAsyncGenerator`). Fluent work functions receive a no-op
`StepController` and run outside any ALS context, so their ambient calls
are no-ops and are not replayed. -/

/-- `GeneratorState` of steps.ts: the current sub-step (label and handle),
the last inserted record, the sub-step start time, and the pre-declared
sub-step handles. -/
structure FlGenSt where
  current : Option (String × Nat) := none
  lastInsertId : Nat
  subStart : Nat
  declared : List (String × Nat) := []

/-- `processYield`: a declaration registers pending sub-records each
inserted after the last inserted one; a string completes the current
sub-step (numeric elapsed time) and starts the pre-declared record or a
freshly inserted one; an object updates the current sub-step's title
only (and only when `total > 0`). -/
def flProcessYield (st : FlGenSt) (e : GenEvent) (s : EngSt) : FlGenSt × EngSt :=
  match e with
  | .declare labels =>
      labels.foldl (fun p l =>
        ({ p.1 with lastInsertId := (p.2.m.add l { type := .spinner, indent := 1, insertAfter := some p.1.lastInsertId }).2, declared := setA p.1.declared l (p.2.m.add l { type := .spinner, indent := 1, insertAfter := some p.1.lastInsertId }).2 },
         { p.2 with m := (p.2.m.add l { type := .spinner, indent := 1, insertAfter := some p.1.lastInsertId }).1 }))
        (st, s)
  | .label l =>
      match st.current with
      | some cur =>
          flLabelAfterComplete { st with current := none } l
            { s with m := taskCompleteTime s.m cur.2 (s.now - st.subStart) }
      | none => flLabelAfterComplete st l s
  | .progress cur tot =>
      match st.current with
      | some c =>
          if 0 < tot then
            (st, { s with m := taskSetTitle s.m c.2 (progressTitle c.1 cur tot) })
          else (st, s)
      | none => (st, s)
where
  /-- The tail of the string case, after the previous sub-step is done. -/
  flLabelAfterComplete (st : FlGenSt) (l : String) (s : EngSt) : FlGenSt × EngSt :=
    match lookupA st.declared l with
    | some h =>
        ({ st with current := some (l, h), subStart := s.now },
         { s with m := taskStart s.m h })
    | none =>
        ({ st with current := some (l, (s.m.add l { type := .spinner, indent := 1, insertAfter := some st.lastInsertId }).2), subStart := s.now, lastInsertId := (s.m.add l { type := .spinner, indent := 1, insertAfter := some st.lastInsertId }).2 },
         { s with m := taskStart (s.m.add l { type := .spinner, indent := 1, insertAfter := some st.lastInsertId }).1 (s.m.add l { type := .spinner, indent := 1, insertAfter := some st.lastInsertId }).2 })

/-- The fluent generator consumption loop. -/
def flGenLoop (st : FlGenSt) (events : List (GenEvent × Nat)) (s : EngSt) : FlGenSt × EngSt :=
  match events with
  | [] => (st, s)
  | (e, d) :: rest =>
      flGenLoop (flProcessYield st e { s with now := s.now + d }).1 rest
        (flProcessYield st e { s with now := s.now + d }).2

/-- `runSyncGenerator` / `runAsyncGenerator`: consume the events; on
return, complete the open sub-step and then the parent (numeric times);
a thrown error propagates with nothing completed. The parent is never
`start()`ed on this path. -/
def runFlGenerator {V : Type} (h : Nat) (events : List (GenEvent × Nat))
    (fin : Except Err V) (finDur : Nat) (s : EngSt) : EngSt × Except Err V :=
  let startTime := s.now
  let gl := flGenLoop { current := none, lastInsertId := h, subStart := s.now, declared := [] }
    events s
  let s2 := { gl.2 with now := gl.2.now + finDur }
  match fin with
  | .error e => (s2, .error e)
  | .ok v =>
      match gl.1.current with
      | some cur =>
          ({ s2 with m := taskCompleteTime (taskCompleteTime s2.m cur.2 (s2.now - gl.1.subStart)) h (s2.now - startTime) }, .ok v)
      | none =>
          ({ s2 with m := taskCompleteTime s2.m h (s2.now - startTime) }, .ok v)

/-- One fluent step execution against the handle for its title: a sync
body runs (and can throw) before `start()` is ever called; a promise is
started, awaited, then completed with no timing argument; a generator
goes through the generator runner without starting the parent. -/
def fluentExecOne {V : Type} (h : Nat) (w : Work V) (s : EngSt) : EngSt × Except Err V :=
  match w with
  | .sync f dur =>
      match (f none).2 with
      | .error e => ({ s with now := s.now + dur }, .error e)
      | .ok v =>
          ({ m := taskComplete (taskStart s.m h) h, now := s.now + dur }, .ok v)
  | .deferred f dur =>
      match (f none).2 with
      | .error e => ({ m := taskStart s.m h, now := s.now + dur }, .error e)
      | .ok v => ({ m := taskComplete (taskStart s.m h) h, now := s.now + dur }, .ok v)
  | .incremental f =>
      runFlGenerator h (f none).1 (f none).2.1 (f none).2.2 s

/-- The registration pass of `execute()`: one pending spinner record per
step, in order, and `handles.set(step.title, ...)` keeping only the last
handle per title. -/
def fluentRegister {V : Type} (sts : List (String × Work V)) (m : MultiProgress) :
    MultiProgress × List (String × Nat) :=
  sts.foldl (fun acc st =>
    ((acc.1.add st.1 { type := .spinner }).1,
     setA acc.2 st.1 (acc.1.add st.1 { type := .spinner }).2)) (m, [])

/-- The execution loop of `execute()`: each step looks its handle up by
title and stores its result under its title; an error aborts. -/
def fluentExecLoop {V : Type} (handles : List (String × Nat)) :
    List (String × Work V) → List (String × V) → EngSt →
      EngSt × List (String × V) × Option Err
  | [], results, s => (s, results, none)
  | (t, w) :: rest, results, s =>
      match (fluentExecOne ((lookupA handles t).getD 0) w s).2 with
      | .error e => ((fluentExecOne ((lookupA handles t).getD 0) w s).1, results, some e)
      | .ok v =>
          fluentExecLoop handles rest (setA results t v)
            (fluentExecOne ((lookupA handles t).getD 0) w s).1

/-- `StepBuilder.execute(options)`: register everything, start the
renderer, run the steps, and stop the renderer in a `finally`; an error
re-raises after teardown with no result object. -/
def fluentExecute {V : Type} (sts : List (String × Work V)) (clear : Bool) :
    Except Err (List (String × V)) × MultiProgress :=
  let reg := fluentRegister sts {}
  let r := fluentExecLoop reg.2 sts [] { m := reg.1.start, now := 0 }
  let mfin := r.1.m.stop clear
  match r.2.2 with
  | some e => (.error e, mfin)
  | none => (.ok r.2.1, mfin)


/-! ## The fluent sequential task builder: `tasks().add(title, work).run()`
(progress/tasks.ts). Task work functions take no arguments and see no
ambient context; a work item resolves to a plain value, a promise, or a
generator of `ProgressInfo` phase/progress updates. -/

/-- `ProgressInfo` (types.ts): an optional phase name with progress
counters, as consumed by tasks.ts `runGenerator`. -/
structure ProgressInfo where
  phase : Option String := none
  current : Nat := 0
  total : Option Nat := none

/-- `PHASE_LABELS`: display labels for common phase names. -/
def PHASE_LABELS : List (String × String) :=
  [("discover", "Discovering files"), ("parse", "Parsing markdown"),
   ("apply", "Applying changes"), ("resolve", "Resolving links"),
   ("materialize", "Evaluating rules"), ("board", "Building view"),
   ("reading", "Reading events"), ("applying", "Applying events"),
   ("rules", "Evaluating rules"), ("scanning", "Scanning files"),
   ("reconciling", "Reconciling changes")]

/-- `PHASE_LABELS[phase] ?? phase`. -/
def phaseLabelOf (p : String) : String := (lookupA PHASE_LABELS p).getD p

/-- A tasks.ts work item: a plain body (which runs, and can throw, before
`handle.start()` is ever called), a promise, or a generator of timed
`ProgressInfo` updates with a final result. -/
inductive TaskWork (V : Type) where
  | plain (r : Except Err V) (dur : Nat)
  | promise (r : Except Err V) (dur : Nat)
  | generator (events : List (ProgressInfo × Nat)) (fin : Except Err V) (finDur : Nat)

/-- Loop-local state of tasks.ts `runGenerator`: the current phase (name
and handle), the last inserted record, and the phase start time. -/
structure TkGenSt where
  currentPhase : Option (String × Nat) := none
  lastInsertId : Nat
  phaseStart : Nat

/-- A phase change in tasks.ts `runGenerator`: complete the current phase
record with a labelled `(..ms)` title, then insert a new indented phase
record after the last inserted one and start it. -/
def tkPhaseChange (st : TkGenSt) (phase : String) (s : EngSt) : TkGenSt × EngSt :=
  let s1 := match st.currentPhase with
    | some c => { s with m := taskCompleteTitle s.m c.2 (phaseLabelOf c.1 ++ " (" ++ toString (s.now - st.phaseStart) ++ "ms)") }
    | none => s
  ({ currentPhase := some (phase, (s1.m.add (phaseLabelOf phase) { type := .spinner, indent := 1, insertAfter := some st.lastInsertId }).2),
     lastInsertId := (s1.m.add (phaseLabelOf phase) { type := .spinner, indent := 1, insertAfter := some st.lastInsertId }).2,
     phaseStart := s.now },
   { s1 with m := taskStart (s1.m.add (phaseLabelOf phase) { type := .spinner, indent := 1, insertAfter := some st.lastInsertId }).1 (s1.m.add (phaseLabelOf phase) { type := .spinner, indent := 1, insertAfter := some st.lastInsertId }).2 })

/-- The body of the `while` loop in tasks.ts `runGenerator`: a non-empty
phase name different from the current one triggers a phase change, and a
progress update with a positive total retitles the current phase record
with the yielded phase's label. -/
def tkProcessInfo (st : TkGenSt) (info : ProgressInfo) (s : EngSt) : TkGenSt × EngSt :=
  let phase := info.phase.getD ""
  let changed := !(phase == "") && (match st.currentPhase with
    | some c => !(c.1 == phase)
    | none => true)
  let after := if changed then tkPhaseChange st phase s else (st, s)
  match after.1.currentPhase with
  | some c =>
      match info.total with
      | some tot =>
          if 0 < tot then
            (after.1, { after.2 with m := taskSetTitle after.2.m c.2 (progressTitle (phaseLabelOf phase) info.current tot) })
          else after
      | none => after
  | none => after

/-- The tasks.ts generator consumption loop. -/
def tkGenLoop (st : TkGenSt) (events : List (ProgressInfo × Nat)) (s : EngSt) :
    TkGenSt × EngSt :=
  match events with
  | [] => (st, s)
  | (info, d) :: rest =>
      tkGenLoop (tkProcessInfo st info { s with now := s.now + d }).1 rest
        (tkProcessInfo st info { s with now := s.now + d }).2

/-- tasks.ts `runGenerator`: consume the updates; on return, complete the
final phase and then the parent, both with labelled `(..ms)` titles; a
thrown error propagates with nothing completed. The parent is never
`start()`ed on this path. -/
def runTkGenerator {V : Type} (h : Nat) (baseTitle : String)
    (events : List (ProgressInfo × Nat)) (fin : Except Err V) (finDur : Nat)
    (s : EngSt) : EngSt × Except Err V :=
  let startTime := s.now
  let gl := tkGenLoop { currentPhase := none, lastInsertId := h, phaseStart := s.now }
    events s
  let s2 := { gl.2 with now := gl.2.now + finDur }
  match fin with
  | .error e => (s2, .error e)
  | .ok v =>
      let s3 := match gl.1.currentPhase with
        | some c => { s2 with m := taskCompleteTitle s2.m c.2 (phaseLabelOf c.1 ++ " (" ++ toString (s2.now - gl.1.phaseStart) ++ "ms)") }
        | none => s2
      ({ s3 with m := taskCompleteTitle s3.m h (baseTitle ++ " (" ++ toString (s3.now - startTime) ++ "ms)") }, .ok v)

/-- One task execution against the handle for its title: a plain body
runs (and can throw) before `start()`; a promise is started, awaited,
then completed with no timing argument; a generator goes through the
tasks.ts generator runner without starting the parent. -/
def tasksRunOne {V : Type} (h : Nat) (title : String) (w : TaskWork V) (s : EngSt) :
    EngSt × Except Err V :=
  match w with
  | .plain r dur =>
      match r with
      | .error e => ({ s with now := s.now + dur }, .error e)
      | .ok v => ({ m := taskComplete (taskStart s.m h) h, now := s.now + dur }, .ok v)
  | .promise r dur =>
      match r with
      | .error e => ({ m := taskStart s.m h, now := s.now + dur }, .error e)
      | .ok v => ({ m := taskComplete (taskStart s.m h) h, now := s.now + dur }, .ok v)
  | .generator events fin finDur => runTkGenerator h title events fin finDur s

/-- The registration pass of tasks.ts `run()`: one pending spinner record
per added task, in order, and `handles.set(task.title, ...)` keeping only
the last handle per title. -/
def tasksRegister {V : Type} (ts : List (String × TaskWork V)) (m : MultiProgress) :
    MultiProgress × List (String × Nat) :=
  ts.foldl (fun acc tk =>
    ((acc.1.add tk.1 { type := .spinner }).1,
     setA acc.2 tk.1 (acc.1.add tk.1 { type := .spinner }).2)) (m, [])

/-- The execution loop of tasks.ts `run()`: each task looks its handle up
by title and stores its result under its title; an error aborts. -/
def tasksRunLoop {V : Type} (handles : List (String × Nat)) :
    List (String × TaskWork V) → List (String × V) → EngSt →
      EngSt × List (String × V) × Option Err
  | [], results, s => (s, results, none)
  | (t, w) :: rest, results, s =>
      match (tasksRunOne ((lookupA handles t).getD 0) t w s).2 with
      | .error e => ((tasksRunOne ((lookupA handles t).getD 0) t w s).1, results, some e)
      | .ok v =>
          tasksRunLoop handles rest (setA results t v)
            (tasksRunOne ((lookupA handles t).getD 0) t w s).1

/-- `TaskBuilder.run(options)`: register everything, start the renderer,
run the tasks, and stop the renderer in a `finally`; an error re-raises
after teardown with no result object. -/
def tasksRun {V : Type} (ts : List (String × TaskWork V)) (clear : Bool) :
    Except Err (List (String × V)) × MultiProgress :=
  let reg := tasksRegister ts {}
  let r := tasksRunLoop reg.2 ts [] { m := reg.1.start, now := 0 }
  let mfin := r.1.m.stop clear
  match r.2.2 with
  | some e => (.error e, mfin)
  | none => (.ok r.2.1, mfin)

/-- C10 counterexample: adding two fluent steps (or two tasks) with the
same title creates TWO on-screen task records (ids 0 and 1), not a
single shared one; only the second record is ever driven (the first
stays pending while the second completes), in both fluent modes. -/
theorem C10_duplicate_title_counterexample :
    ((fluentExecute [("T", Work.sync (fun _ => ([], Except.ok (1 : Int))) 1),
        ("T", Work.sync (fun _ => ([], Except.ok (2 : Int))) 1)] false).2.taskOrder = [0, 1] ∧
      taskStatusOf (fluentExecute [("T", Work.sync (fun _ => ([], Except.ok (1 : Int))) 1),
          ("T", Work.sync (fun _ => ([], Except.ok (2 : Int))) 1)] false).2 0 =
        TaskStatus.pending ∧
      taskStatusOf (fluentExecute [("T", Work.sync (fun _ => ([], Except.ok (1 : Int))) 1),
          ("T", Work.sync (fun _ => ([], Except.ok (2 : Int))) 1)] false).2 1 =
        TaskStatus.completed ∧
      (fluentExecute [("T", Work.sync (fun _ => ([], Except.ok (1 : Int))) 1),
          ("T", Work.sync (fun _ => ([], Except.ok (2 : Int))) 1)] false).1 =
        Except.ok [("T", 2)]) ∧
    ((tasksRun [("T", TaskWork.plain (Except.ok (1 : Int)) 1),
        ("T", TaskWork.plain (Except.ok (2 : Int)) 1)] false).2.taskOrder = [0, 1] ∧
      taskStatusOf (tasksRun [("T", TaskWork.plain (Except.ok (1 : Int)) 1),
          ("T", TaskWork.plain (Except.ok (2 : Int)) 1)] false).2 0 =
        TaskStatus.pending ∧
      taskStatusOf (tasksRun [("T", TaskWork.plain (Except.ok (1 : Int)) 1),
          ("T", TaskWork.plain (Except.ok (2 : Int)) 1)] false).2 1 =
        TaskStatus.completed ∧
      (tasksRun [("T", TaskWork.plain (Except.ok (1 : Int)) 1),
          ("T", TaskWork.plain (Except.ok (2 : Int)) 1)] false).1 =
        Except.ok [("T", 2)]) :=
  ⟨⟨rfl, rfl, rfl, rfl⟩, ⟨rfl, rfl, rfl, rfl⟩⟩

/-- C10 (amended): in both fluent legacy modes — `steps().execute()` and
`tasks().run()` — task records and returned results are keyed by title:
two same-titled steps/tasks produce two registered records but share one
handle (the last record); both executions drive that last record, the
first record stays pending, and the returned mapping holds the title
once, bound to the later step's result. -/
theorem C10_fluent_title_keyed (V : Type) (t : String) (v1 v2 : V) (d1 d2 : Nat)
    (clear : Bool) :
    ((fluentExecute [(t, Work.sync (fun _ => ([], Except.ok v1)) d1),
        (t, Work.sync (fun _ => ([], Except.ok v2)) d2)] clear).1 = Except.ok [(t, v2)] ∧
      (fluentExecute [(t, Work.sync (fun _ => ([], Except.ok v1)) d1),
        (t, Work.sync (fun _ => ([], Except.ok v2)) d2)] clear).2.taskOrder = [0, 1] ∧
      taskStatusOf (fluentExecute [(t, Work.sync (fun _ => ([], Except.ok v1)) d1),
        (t, Work.sync (fun _ => ([], Except.ok v2)) d2)] clear).2 0 = TaskStatus.pending ∧
      taskStatusOf (fluentExecute [(t, Work.sync (fun _ => ([], Except.ok v1)) d1),
        (t, Work.sync (fun _ => ([], Except.ok v2)) d2)] clear).2 1 =
        TaskStatus.completed) ∧
    ((tasksRun [(t, TaskWork.plain (Except.ok v1) d1),
        (t, TaskWork.plain (Except.ok v2) d2)] clear).1 = Except.ok [(t, v2)] ∧
      (tasksRun [(t, TaskWork.plain (Except.ok v1) d1),
        (t, TaskWork.plain (Except.ok v2) d2)] clear).2.taskOrder = [0, 1] ∧
      taskStatusOf (tasksRun [(t, TaskWork.plain (Except.ok v1) d1),
        (t, TaskWork.plain (Except.ok v2) d2)] clear).2 0 = TaskStatus.pending ∧
      taskStatusOf (tasksRun [(t, TaskWork.plain (Except.ok v1) d1),
        (t, TaskWork.plain (Except.ok v2) d2)] clear).2 1 = TaskStatus.completed) := by
  cases clear with
  | false =>
      refine ⟨⟨?_, ?_, ?_, ?_⟩, ⟨?_, ?_, ?_, ?_⟩⟩ <;>
        simp [fluentExecute, fluentRegister, fluentExecLoop, fluentExecOne,
          tasksRun, tasksRegister, tasksRunLoop, tasksRunOne, setA, lookupA,
          taskStatusOf, MultiProgress.add, MultiProgress.start, MultiProgress.stop,
          stopClearLines, MultiProgress.render, MultiProgress.write, taskStart, taskComplete,
          MultiProgress.updateTask, MultiProgress.findTask, spliceAfter, renderTaskLine,
          statusIcon, dotsFrames, List.find?]
  | true =>
      refine ⟨⟨?_, ?_, ?_, ?_⟩, ⟨?_, ?_, ?_, ?_⟩⟩ <;>
        simp [fluentExecute, fluentRegister, fluentExecLoop, fluentExecOne,
          tasksRun, tasksRegister, tasksRunLoop, tasksRunOne, setA, lookupA,
          taskStatusOf, MultiProgress.add, MultiProgress.start, MultiProgress.stop,
          stopClearLines, MultiProgress.render, MultiProgress.write, taskStart, taskComplete,
          MultiProgress.updateTask, MultiProgress.findTask, spliceAfter, renderTaskLine,
          statusIcon, dotsFrames, List.find?]

theorem taskStatusOf_stop (m : MultiProgress) (clear : Bool) (j : Nat) :
    taskStatusOf (m.stop clear) j = taskStatusOf m j := by
  unfold taskStatusOf
  rw [stop_findTask]

theorem pipeLoop_append {V : Type} (entries : List (FlatEntry V))
    (l1 l2 : List (Nat × FlatEntry V)) (st : RunSt V)
    (h : (pipeLoop entries l1 st).2 = none) :
    pipeLoop entries (l1 ++ l2) st = pipeLoop entries l2 (pipeLoop entries l1 st).1 := by
  induction l1 generalizing st with
  | nil => rfl
  | cons pe rest ih =>
      obtain ⟨pos, en⟩ := pe
      cases hw : en.work with
      | none =>
          have hl : pipeLoop entries ((pos, en) :: rest) st = pipeLoop entries rest st := by
            simp only [pipeLoop, hw]
          have hl2 : pipeLoop entries (((pos, en) :: rest) ++ l2) st =
              pipeLoop entries (rest ++ l2) st := by
            simp only [List.cons_append, pipeLoop, hw]
            rfl
          rw [hl] at h ⊢
          rw [hl2]
          exact ih st h
      | some w =>
          cases hex : (executeStep pos en.indent en.label w
              (startGroups entries pos st).prev (startGroups entries pos st).s).2 with
          | error e =>
              exact absurd h (by simp only [pipeLoop, hw, hex]; simp)
          | ok v =>
              have hl : pipeLoop entries ((pos, en) :: rest) st =
                  pipeLoop entries rest
                    (finishGroups entries pos
                      { startGroups entries pos st with
                        s := (executeStep pos en.indent en.label w
                          (startGroups entries pos st).prev
                          (startGroups entries pos st).s).1,
                        prev := some v }) := by
                simp only [pipeLoop, hw, hex]
              have hl2 : pipeLoop entries (((pos, en) :: rest) ++ l2) st =
                  pipeLoop entries (rest ++ l2)
                    (finishGroups entries pos
                      { startGroups entries pos st with
                        s := (executeStep pos en.indent en.label w
                          (startGroups entries pos st).prev
                          (startGroups entries pos st).s).1,
                        prev := some v }) := by
                simp only [List.cons_append, pipeLoop, hw, hex]
                rfl
              rw [hl] at h ⊢
              rw [hl2]
              exact ih _ h

/-- Invariants of a clean prefix of the `pipe()` loop: no error yet, the
id counter stays past every registered record, and leaves not processed
yet have untouched records. -/
theorem pipePrefix_base {V : Type} (entries : List (FlatEntry V))
    (hwf : ∀ (i : Nat) (en : FlatEntry V), entries[i]? = some en →
      en.isGroup = true → en.work = none) :
    ∀ (k : Nat),
    (∀ (i : Nat) (en : FlatEntry V) (w : Work V) (input : Option V), i < k →
      entries[i]? = some en → en.work = some w →
      ∃ v, evalWorkValue w input = Except.ok v) →
    (pipeLoop entries (entries.enum.take k) (initRunSt entries)).2 = none ∧
    entries.length ≤ (pipeLoop entries (entries.enum.take k) (initRunSt entries)).1.s.m.nextId ∧
    (∀ (j : Nat) (en2 : FlatEntry V), entries[j]? = some en2 → en2.work.isSome = true →
      k ≤ j →
      (pipeLoop entries (entries.enum.take k) (initRunSt entries)).1.s.m.findTask j =
        (initRunSt entries : RunSt V).s.m.findTask j) := by
  intro k
  induction k with
  | zero =>
      intro hclean
      refine ⟨rfl, ?_, ?_⟩
      · show entries.length ≤ (initRunSt entries : RunSt V).s.m.nextId
        rw [(initRunSt_spec entries).1]
      · intro j en2 _ _ _
        rfl
  | succ k ih =>
      intro hclean
      have ihk := ih (fun i en w input hi hen hw => hclean i en w input (by omega) hen hw)
      by_cases hk : k < entries.length
      · obtain ⟨en, hen⟩ : ∃ en, entries[k]? = some en :=
          ⟨entries[k], List.getElem?_eq_getElem hk⟩
        have htake := enum_take_succ entries k en hen
        rw [htake, pipeLoop_append entries _ _ _ ihk.1]
        cases hw : en.work with
        | none =>
            have hstep : pipeLoop entries [(k, en)]
                (pipeLoop entries (entries.enum.take k) (initRunSt entries)).1 =
                ((pipeLoop entries (entries.enum.take k) (initRunSt entries)).1, none) := by
              simp only [pipeLoop, hw]
            rw [hstep]
            refine ⟨rfl, ihk.2.1, ?_⟩
            intro j en2 hj2 hw2 hjk
            exact ihk.2.2 j en2 hj2 hw2 (by omega)
        | some w =>
            obtain ⟨v, hv⟩ := hclean k en w
              (startGroups entries k
                (pipeLoop entries (entries.enum.take k) (initRunSt entries)).1).prev
              (by omega) hen hw
            have hexv : (executeStep k en.indent en.label w
                (startGroups entries k
                  (pipeLoop entries (entries.enum.take k) (initRunSt entries)).1).prev
                (startGroups entries k
                  (pipeLoop entries (entries.enum.take k) (initRunSt entries)).1).s).2 =
                .ok v := by
              rw [executeStep_snd]
              exact hv
            have hstep : pipeLoop entries [(k, en)]
                (pipeLoop entries (entries.enum.take k) (initRunSt entries)).1 =
                (finishGroups entries k
                  { startGroups entries k
                      (pipeLoop entries (entries.enum.take k) (initRunSt entries)).1 with
                    s := (executeStep k en.indent en.label w
                      (startGroups entries k
                        (pipeLoop entries (entries.enum.take k) (initRunSt entries)).1).prev
                      (startGroups entries k
                        (pipeLoop entries (entries.enum.take k)
                          (initRunSt entries)).1).s).1,
                    prev := some v }, none) := by
              simp only [pipeLoop, hw, hexv]
            rw [hstep]
            have hlen1 : entries.length ≤ (startGroups entries k
                (pipeLoop entries (entries.enum.take k)
                  (initRunSt entries)).1).s.m.nextId := by
              rw [startGroups_nextId]
              exact ihk.2.1
            have hfr := executeStep_frame k en.indent en.label w
              (startGroups entries k
                (pipeLoop entries (entries.enum.take k) (initRunSt entries)).1).prev
              (startGroups entries k
                (pipeLoop entries (entries.enum.take k) (initRunSt entries)).1).s
              entries.length hlen1
            refine ⟨rfl, ?_, ?_⟩
            · show entries.length ≤ (finishGroups entries k _).s.m.nextId
              rw [finishGroups_nextId]
              exact Nat.le_trans hlen1 hfr.2.1
            · intro j en2 hj2 hw2 hjk
              have hjlen : j < entries.length := getElemQ_some_lt entries j en2 hj2
              have hjng : j ∉ leafGroups entries k := by
                intro hmem
                obtain ⟨en3, hen3, hgr3, _⟩ := (mem_leafGroups entries k j).1 hmem
                have hwn := hwf j en3 hen3 hgr3
                have he : en3 = en2 := by
                  rw [hj2] at hen3
                  injection hen3 with h
                  exact h.symm
                rw [he] at hwn
                rw [hwn] at hw2
                exact absurd hw2 (by simp)
              show (finishGroups entries k _).s.m.findTask j = _
              rw [finishGroups_findTask_not entries k _ j hjng]
              show (executeStep k en.indent en.label w
                (startGroups entries k
                  (pipeLoop entries (entries.enum.take k) (initRunSt entries)).1).prev
                (startGroups entries k
                  (pipeLoop entries (entries.enum.take k)
                    (initRunSt entries)).1).s).1.m.findTask j = _
              rw [hfr.1 j hjlen (by omega), startGroups_findTask_not entries k _ j hjng]
              exact ihk.2.2 j en2 hj2 hw2 (by omega)
      · have htake : entries.enum.take (k + 1) = entries.enum.take k := by
          rw [List.take_of_length_le (by rw [List.enum_length]; omega),
            List.take_of_length_le (by rw [List.enum_length]; omega)]
        rw [htake]
        refine ⟨ihk.1, ihk.2.1, ?_⟩
        intro j en2 hj2 hw2 hjk
        exact ihk.2.2 j en2 hj2 hw2 (by omega)

theorem stop_isActive_false (m : MultiProgress) (clear : Bool) :
    (m.stop clear).isActive = false := by
  cases hb : (m.stop clear).isActive with
  | false => rfl
  | true => exact absurd hb (stop_isActive m clear)

/-- C1 counterexample: a fluent `execute()` whose single step throws
synchronously re-raises the error, but the step's task record is NOT
marked failed — it stays pending, because the error is thrown before
`handle.start()` and the `finally` only stops the renderer. -/
theorem C1_fluent_not_failed_counterexample :
    (fluentExecute [("T", Work.sync (fun (_ : Option Unit) => ([], Except.error "boom"))
      (3 : Nat))] false).1 = Except.error "boom" ∧
    taskStatusOf (fluentExecute [("T", Work.sync
      (fun (_ : Option Unit) => ([], Except.error "boom"))
      (3 : Nat))] false).2 0 ≠ TaskStatus.failed ∧
    taskStatusOf (fluentExecute [("T", Work.sync
      (fun (_ : Option Unit) => ([], Except.error "boom"))
      (3 : Nat))] false).2 0 = TaskStatus.pending ∧
    (fluentExecute [("T", Work.sync (fun (_ : Option Unit) => ([], Except.error "boom"))
      (3 : Nat))] false).2.isActive = false :=
  have h : taskStatusOf (fluentExecute [("T", Work.sync
      (fun (_ : Option Unit) => ([], Except.error "boom")) (3 : Nat))] false).2 0 =
      TaskStatus.pending := rfl
  ⟨rfl, by rw [h]; intro hcon; exact TaskStatus.noConfusion hcon, h, rfl⟩

/-- C1 (amended): when a leaf's work item fails after a clean prefix, the
declarative `run()` and `pipe()` mark that leaf's record failed, leave
every later leaf's record pending (those leaves never execute), stop the
renderer, and re-raise that same error with no result object; the fluent
`execute()` also re-raises after stopping the renderer, but never marks
the record failed — a synchronously-throwing step's record stays
pending. -/
theorem C1_error_propagation (V : Type) (roots : List (StepNode V)) (clear : Bool)
    (q : Nat) (en : FlatEntry V) (w : Work V) (e : Err)
    (hq : (stepsEntries roots)[q]? = some en) (hw : en.work = some w)
    (hcleanpre : ∀ (i : Nat) (en2 : FlatEntry V) (w2 : Work V) (input : Option V), i < q →
      (stepsEntries roots)[i]? = some en2 → en2.work = some w2 →
      ∃ v, evalWorkValue w2 input = Except.ok v)
    (hfail : ∀ input : Option V, evalWorkValue w input = Except.error e) :
    ((runDecl roots clear).1 = Except.error e ∧
      taskStatusOf (runDecl roots clear).2 q = TaskStatus.failed ∧
      (∀ (j : Nat) (en2 : FlatEntry V), q < j → (stepsEntries roots)[j]? = some en2 →
        en2.work.isSome = true →
        taskStatusOf (runDecl roots clear).2 j = TaskStatus.pending) ∧
      (runDecl roots clear).2.isActive = false) ∧
    ((pipeDecl roots clear).1 = Except.error e ∧
      taskStatusOf (pipeDecl roots clear).2 q = TaskStatus.failed ∧
      (∀ (j : Nat) (en2 : FlatEntry V), q < j → (stepsEntries roots)[j]? = some en2 →
        en2.work.isSome = true →
        taskStatusOf (pipeDecl roots clear).2 j = TaskStatus.pending) ∧
      (pipeDecl roots clear).2.isActive = false) ∧
    (∀ (t : String) (fb : Option V → List AmbientAction × Except Err V) (dur : Nat)
      (e2 : Err), (fb none).2 = Except.error e2 →
      (fluentExecute [(t, Work.sync fb dur)] clear).1 = Except.error e2 ∧
      taskStatusOf (fluentExecute [(t, Work.sync fb dur)] clear).2 0 = TaskStatus.pending ∧
      (fluentExecute [(t, Work.sync fb dur)] clear).2.isActive = false) := by
  have hwf : ∀ (i : Nat) (en2 : FlatEntry V), (stepsEntries roots)[i]? = some en2 →
      en2.isGroup = true → en2.work = none :=
    fun i en2 hi => (stepsEntries_wf roots i en2 hi).1
  have hqlen : q < (stepsEntries roots).length := getElemQ_some_lt _ q en hq
  have hsplit : (stepsEntries roots).enum =
      (stepsEntries roots).enum.take q ++
        ((q, en) :: (stepsEntries roots).enum.drop (q + 1)) := by
    have h1 : (stepsEntries roots).enum.take (q + 1) ++
        (stepsEntries roots).enum.drop (q + 1) = (stepsEntries roots).enum :=
      List.take_append_drop _ _
    rw [enum_take_succ (stepsEntries roots) q en hq] at h1
    have h2 : ((stepsEntries roots).enum.take q ++ [(q, en)]) ++
        (stepsEntries roots).enum.drop (q + 1) =
        (stepsEntries roots).enum.take q ++
          ((q, en) :: (stepsEntries roots).enum.drop (q + 1)) := by
      rw [List.append_assoc]
      rfl
    exact h1.symm.trans h2
  have hqng : q ∉ leafGroups (stepsEntries roots) q := by
    intro hmem
    obtain ⟨en3, hen3, hgr3, _⟩ := (mem_leafGroups _ q q).1 hmem
    have hwn := hwf q en3 hen3 hgr3
    have he : en3 = en := by
      rw [hq] at hen3
      injection hen3 with h
      exact h.symm
    rw [he] at hwn
    have hw4 := hw
    rw [hwn] at hw4
    exact absurd hw4 (by simp)
  have hjng : ∀ (j : Nat) (en2 : FlatEntry V), (stepsEntries roots)[j]? = some en2 →
      en2.work.isSome = true → j ∉ leafGroups (stepsEntries roots) q := by
    intro j en2 hj2 hw2 hmem
    obtain ⟨en3, hen3, hgr3, _⟩ := (mem_leafGroups _ q j).1 hmem
    have hwn := hwf j en3 hen3 hgr3
    have he : en3 = en2 := by
      rw [hj2] at hen3
      injection hen3 with h
      exact h.symm
    rw [he] at hwn
    rw [hwn] at hw2
    exact absurd hw2 (by simp)
  refine ⟨?_, ?_, ?_⟩
  · -- run()
    have base_q := runPrefix_base (stepsEntries roots) hwf q
      (fun i en2 w2 hi hen2 hw2 => hcleanpre i en2 w2 none hi hen2 hw2)
    have hexe : (executeStep q en.indent en.label w none
        (startGroups (stepsEntries roots) q
          (runLoop (stepsEntries roots) ((stepsEntries roots).enum.take q)
            (initRunSt (stepsEntries roots))).1).s).2 = .error e := by
      rw [executeStep_snd]
      exact hfail none
    have hloop : runLoop (stepsEntries roots) (stepsEntries roots).enum
        (initRunSt (stepsEntries roots)) =
        ({ startGroups (stepsEntries roots) q
            (runLoop (stepsEntries roots) ((stepsEntries roots).enum.take q)
              (initRunSt (stepsEntries roots))).1 with
           s := (executeStep q en.indent en.label w none
             (startGroups (stepsEntries roots) q
               (runLoop (stepsEntries roots) ((stepsEntries roots).enum.take q)
                 (initRunSt (stepsEntries roots))).1).s).1 }, some e) := by
      conv_lhs => rw [hsplit]
      rw [runLoop_append _ _ _ _ base_q.1]
      simp only [runLoop, hw, hexe]
    have hRD : runDecl roots clear =
        (.error e, (executeStep q en.indent en.label w none
          (startGroups (stepsEntries roots) q
            (runLoop (stepsEntries roots) ((stepsEntries roots).enum.take q)
              (initRunSt (stepsEntries roots))).1).s).1.m.stop clear) := by
      simp only [runDecl, hloop]
    have hlen1 : (stepsEntries roots).length ≤ (startGroups (stepsEntries roots) q
        (runLoop (stepsEntries roots) ((stepsEntries roots).enum.take q)
          (initRunSt (stepsEntries roots))).1).s.m.nextId := by
      rw [startGroups_nextId]
      exact base_q.2.1
    have hfr := executeStep_frame q en.indent en.label w none
      (startGroups (stepsEntries roots) q
        (runLoop (stepsEntries roots) ((stepsEntries roots).enum.take q)
          (initRunSt (stepsEntries roots))).1).s
      (stepsEntries roots).length hlen1
    have hisq : ((startGroups (stepsEntries roots) q
        (runLoop (stepsEntries roots) ((stepsEntries roots).enum.take q)
          (initRunSt (stepsEntries roots))).1).s.m.findTask q).isSome = true := by
      rw [startGroups_findTask_not _ _ _ q hqng,
        base_q.2.2.2.2 q en hq (by rw [hw]; rfl) (Nat.le_refl q)]
      obtain ⟨t, ht, _, _⟩ := (initRunSt_spec (stepsEntries roots)).2 q hqlen
      rw [ht]
      rfl
    refine ⟨?_, ?_, ?_, ?_⟩
    · rw [hRD]
    · rw [hRD]
      show taskStatusOf (MultiProgress.stop _ clear) q = _
      rw [taskStatusOf_stop]
      exact executeStep_fail_status q en.indent en.label w none _ e (hfail none) hisq
        (by rw [startGroups_nextId]; omega)
    · intro j en2 hqj hj2 hw2
      have hjlen : j < (stepsEntries roots).length := getElemQ_some_lt _ j en2 hj2
      have hchain : (executeStep q en.indent en.label w none
          (startGroups (stepsEntries roots) q
            (runLoop (stepsEntries roots) ((stepsEntries roots).enum.take q)
              (initRunSt (stepsEntries roots))).1).s).1.m.findTask j =
          (initRunSt (stepsEntries roots) : RunSt V).s.m.findTask j := by
        rw [hfr.1 j hjlen (by omega),
          startGroups_findTask_not _ _ _ j (hjng j en2 hj2 hw2),
          base_q.2.2.2.2 j en2 hj2 hw2 (by omega)]
      obtain ⟨t, ht, hst, _⟩ := (initRunSt_spec (stepsEntries roots)).2 j hjlen
      rw [hRD]
      show taskStatusOf (MultiProgress.stop _ clear) j = _
      rw [taskStatusOf_stop]
      unfold taskStatusOf
      rw [hchain, ht]
      exact hst
    · rw [hRD]
      exact stop_isActive_false _ clear
  · -- pipe()
    have base_q := pipePrefix_base (stepsEntries roots) hwf q
      (fun i en2 w2 input hi hen2 hw2 => hcleanpre i en2 w2 input hi hen2 hw2)
    have hexe : (executeStep q en.indent en.label w
        (startGroups (stepsEntries roots) q
          (pipeLoop (stepsEntries roots) ((stepsEntries roots).enum.take q)
            (initRunSt (stepsEntries roots))).1).prev
        (startGroups (stepsEntries roots) q
          (pipeLoop (stepsEntries roots) ((stepsEntries roots).enum.take q)
            (initRunSt (stepsEntries roots))).1).s).2 = .error e := by
      rw [executeStep_snd]
      exact hfail _
    have hloop : pipeLoop (stepsEntries roots) (stepsEntries roots).enum
        (initRunSt (stepsEntries roots)) =
        ({ startGroups (stepsEntries roots) q
            (pipeLoop (stepsEntries roots) ((stepsEntries roots).enum.take q)
              (initRunSt (stepsEntries roots))).1 with
           s := (executeStep q en.indent en.label w
             (startGroups (stepsEntries roots) q
               (pipeLoop (stepsEntries roots) ((stepsEntries roots).enum.take q)
                 (initRunSt (stepsEntries roots))).1).prev
             (startGroups (stepsEntries roots) q
               (pipeLoop (stepsEntries roots) ((stepsEntries roots).enum.take q)
                 (initRunSt (stepsEntries roots))).1).s).1 }, some e) := by
      conv_lhs => rw [hsplit]
      rw [pipeLoop_append _ _ _ _ base_q.1]
      simp only [pipeLoop, hw, hexe]
    have hPD : pipeDecl roots clear =
        (.error e, (executeStep q en.indent en.label w
          (startGroups (stepsEntries roots) q
            (pipeLoop (stepsEntries roots) ((stepsEntries roots).enum.take q)
              (initRunSt (stepsEntries roots))).1).prev
          (startGroups (stepsEntries roots) q
            (pipeLoop (stepsEntries roots) ((stepsEntries roots).enum.take q)
              (initRunSt (stepsEntries roots))).1).s).1.m.stop clear) := by
      simp only [pipeDecl, hloop]
    have hlen1 : (stepsEntries roots).length ≤ (startGroups (stepsEntries roots) q
        (pipeLoop (stepsEntries roots) ((stepsEntries roots).enum.take q)
          (initRunSt (stepsEntries roots))).1).s.m.nextId := by
      rw [startGroups_nextId]
      exact base_q.2.1
    have hfr := executeStep_frame q en.indent en.label w
      (startGroups (stepsEntries roots) q
        (pipeLoop (stepsEntries roots) ((stepsEntries roots).enum.take q)
          (initRunSt (stepsEntries roots))).1).prev
      (startGroups (stepsEntries roots) q
        (pipeLoop (stepsEntries roots) ((stepsEntries roots).enum.take q)
          (initRunSt (stepsEntries roots))).1).s
      (stepsEntries roots).length hlen1
    have hisq : ((startGroups (stepsEntries roots) q
        (pipeLoop (stepsEntries roots) ((stepsEntries roots).enum.take q)
          (initRunSt (stepsEntries roots))).1).s.m.findTask q).isSome = true := by
      rw [startGroups_findTask_not _ _ _ q hqng,
        base_q.2.2 q en hq (by rw [hw]; rfl) (Nat.le_refl q)]
      obtain ⟨t, ht, _, _⟩ := (initRunSt_spec (stepsEntries roots)).2 q hqlen
      rw [ht]
      rfl
    refine ⟨?_, ?_, ?_, ?_⟩
    · rw [hPD]
    · rw [hPD]
      show taskStatusOf (MultiProgress.stop _ clear) q = _
      rw [taskStatusOf_stop]
      exact executeStep_fail_status q en.indent en.label w _ _ e (hfail _) hisq
        (by rw [startGroups_nextId]; omega)
    · intro j en2 hqj hj2 hw2
      have hjlen : j < (stepsEntries roots).length := getElemQ_some_lt _ j en2 hj2
      have hchain : (executeStep q en.indent en.label w
          (startGroups (stepsEntries roots) q
            (pipeLoop (stepsEntries roots) ((stepsEntries roots).enum.take q)
              (initRunSt (stepsEntries roots))).1).prev
          (startGroups (stepsEntries roots) q
            (pipeLoop (stepsEntries roots) ((stepsEntries roots).enum.take q)
              (initRunSt (stepsEntries roots))).1).s).1.m.findTask j =
          (initRunSt (stepsEntries roots) : RunSt V).s.m.findTask j := by
        rw [hfr.1 j hjlen (by omega),
          startGroups_findTask_not _ _ _ j (hjng j en2 hj2 hw2),
          base_q.2.2 j en2 hj2 hw2 (by omega)]
      obtain ⟨t, ht, hst, _⟩ := (initRunSt_spec (stepsEntries roots)).2 j hjlen
      rw [hPD]
      show taskStatusOf (MultiProgress.stop _ clear) j = _
      rw [taskStatusOf_stop]
      unfold taskStatusOf
      rw [hchain, ht]
      exact hst
    · rw [hPD]
      exact stop_isActive_false _ clear
  · -- fluent execute()
    intro t fb dur e2 hfb
    have hlk : lookupA [(t, (0 : Nat))] t = some 0 := by
      simp [lookupA]
    have hEO : fluentExecOne ((lookupA [(t, (0 : Nat))] t).getD 0) (Work.sync fb dur)
        { m := (fluentRegister [(t, Work.sync fb dur)] {}).1.start, now := 0 } =
        ({ m := (fluentRegister [(t, Work.sync fb dur)] {}).1.start, now := 0 + dur },
          .error e2) := by
      rw [hlk]
      show fluentExecOne 0 (Work.sync fb dur) _ = _
      simp only [fluentExecOne, hfb]
    have hLoop : fluentExecLoop [(t, (0 : Nat))] [(t, Work.sync fb dur)] []
        { m := (fluentRegister [(t, Work.sync fb dur)] {}).1.start, now := 0 } =
        ({ m := (fluentRegister [(t, Work.sync fb dur)] {}).1.start, now := 0 + dur },
          [], some e2) := by
      simp only [fluentExecLoop, hEO]
    have hreg : (fluentRegister [(t, Work.sync fb dur)] ({} : MultiProgress)).2 =
        [(t, (0 : Nat))] := rfl
    have hFE : fluentExecute [(t, Work.sync fb dur)] clear =
        (.error e2,
          ((fluentRegister [(t, Work.sync fb dur)] {}).1.start).stop clear) := by
      simp only [fluentExecute, hreg, hLoop]
    refine ⟨?_, ?_, ?_⟩
    · rw [hFE]
    · rw [hFE]
      show taskStatusOf (MultiProgress.stop _ clear) 0 = _
      rw [taskStatusOf_stop]
      show taskStatusOf ((({} : MultiProgress).add t
        { type := .spinner }).1.start) (({} : MultiProgress)).nextId = _
      unfold taskStatusOf
      rw [start_findTask, add_findTask_new ({} : MultiProgress) t _ empty_fresh]
      rfl
    · rw [hFE]
      exact stop_isActive_false _ clear

/-- C1 witness: a run of two leaves whose second throws resolves to that
error with the second record failed. -/
theorem C1_error_propagation_witness :
    (runDecl [StepNode.leaf "a" "A" 0 (Work.sync (fun _ => ([], Except.ok (1 : Int))) 4),
       StepNode.leaf "b" "B" 0 (Work.sync (fun _ => ([], Except.error "boom")) 2)]
      false).1 = Except.error "boom" ∧
    taskStatusOf (runDecl
      [StepNode.leaf "a" "A" 0 (Work.sync (fun _ => ([], Except.ok (1 : Int))) 4),
       StepNode.leaf "b" "B" 0 (Work.sync (fun _ => ([], Except.error "boom")) 2)]
      false).2 1 = TaskStatus.failed := by
  have hent : stepsEntries
      [StepNode.leaf "a" "A" 0 (Work.sync (fun _ => ([], Except.ok (1 : Int))) 4),
       StepNode.leaf "b" "B" 0 (Work.sync (fun _ => ([], Except.error "boom")) 2)] =
      [⟨"a", "A", 0, false, some (Work.sync (fun _ => ([], Except.ok (1 : Int))) 4), [0]⟩,
       ⟨"b", "B", 0, false, some (Work.sync (fun _ => ([], Except.error "boom")) 2), [1]⟩] := by
    simp only [stepsEntries, annotateNodes]
  have h := C1_error_propagation Int
    [StepNode.leaf "a" "A" 0 (Work.sync (fun _ => ([], Except.ok (1 : Int))) 4),
     StepNode.leaf "b" "B" 0 (Work.sync (fun _ => ([], Except.error "boom")) 2)]
    false 1
    ⟨"b", "B", 0, false, some (Work.sync (fun _ => ([], Except.error "boom")) 2), [1]⟩
    (Work.sync (fun _ => ([], Except.error "boom")) 2) "boom"
    (by rw [hent]; rfl) rfl
    (by
      intro i en2 w2 input hi hen2 hw2
      rw [hent] at hen2
      have hi0 : i = 0 := by omega
      rw [hi0] at hen2
      have he : en2 = ⟨"a", "A", 0, false,
          some (Work.sync (fun _ => ([], Except.ok (1 : Int))) 4), [0]⟩ := by
        injection hen2 with h2
        exact h2.symm
      rw [he] at hw2
      have hww : w2 = Work.sync (fun _ => ([], Except.ok (1 : Int))) 4 :=
        (Option.some.inj hw2).symm
      exact ⟨1, by rw [hww]; rfl⟩)
    (fun input => rfl)
  exact ⟨h.1.1, h.1.2.1⟩
